import Mathlib

/-!
Verification of the regex template-tag compiler: context-aware interpolation,
the flag-x whitespace/comment preprocessor, the cleanup plugin, options
resolution and the emulation-group capture map.  Strings are modelled as
`List Char`; fallible code returns `Except String`.  Definitions ported from
the repository sources carry a comment naming the source; helpers whose code
is not under src/ are modelled from the spec and say so in their doc comment.
-/

namespace RegexTag

/-- Date: the regexContext enumeration of the running context (spec section 3;
used throughout src/unnamed/part_000 and src/src/flag-x.js). -/
inductive RegexContext where
  | DEFAULT
  | CHAR_CLASS
  | GROUP_NAME
  | INTERVAL_QUANTIFIER
  | ENCLOSED_TOKEN
  | ENCLOSED_U
  | INVALID_INCOMPLETE_TOKEN
deriving DecidableEq, Repr

/-- Date: the charClassContext enumeration (spec section 3), meaningful when
regexContext = CHAR_CLASS. -/
inductive CharClassContext where
  | DEFAULT
  | RANGE
  | ENCLOSED_TOKEN
  | ENCLOSED_U
  | Q_TOKEN
  | INVALID_INCOMPLETE_TOKEN
deriving DecidableEq, Repr

/-- RunningContext as threaded through preprocessing and interpolation
(spec section 3).  `charClassDepth` tracks nested character classes. -/
structure RunningContext where
  regexContext : RegexContext := .DEFAULT
  charClassContext : CharClassContext := .DEFAULT
  charClassDepth : Nat := 0
deriving DecidableEq, Repr

/-- Modelled from the spec: the synthetic emulation-group marker text
(utils.js `emulationGroupMarker` is not under src/; spec section 4.5 only
requires a fixed marker token, taken here as the dollar-E-dollar text). -/
def emulationGroupMarker : List Char := ['$', 'E', '$']

/-- Decimal digit character for a value below ten. -/
def digitChar (d : Nat) : Char :=
  match d with
  | 0 => '0' | 1 => '1' | 2 => '2' | 3 => '3' | 4 => '4'
  | 5 => '5' | 6 => '6' | 7 => '7' | 8 => '8' | _ => '9'

/-- Hexadecimal digit character (lowercase, as JS Number.toString(16)). -/
def hexDigitChar (d : Nat) : Char :=
  match d with
  | 0 => '0' | 1 => '1' | 2 => '2' | 3 => '3' | 4 => '4'
  | 5 => '5' | 6 => '6' | 7 => '7' | 8 => '8' | 9 => '9'
  | 10 => 'a' | 11 => 'b' | 12 => 'c' | 13 => 'd' | 14 => 'e' | _ => 'f'

/-- Fuel-driven most-significant-first decimal rendering. -/
def natDecAux : Nat → Nat → List Char → List Char
  | 0, _, acc => acc
  | fuel + 1, n, acc =>
    if n < 10 then digitChar n :: acc
    else natDecAux fuel (n / 10) (digitChar (n % 10) :: acc)

/-- Decimal rendering of a natural number, as JS String(number). -/
def natDec (n : Nat) : List Char := natDecAux (n + 1) n []

/-- Fuel-driven hexadecimal rendering. -/
def natHexAux : Nat → Nat → List Char → List Char
  | 0, _, acc => acc
  | fuel + 1, n, acc =>
    if n < 16 then hexDigitChar n :: acc
    else natHexAux fuel (n / 16) (hexDigitChar (n % 16) :: acc)

/-- Hexadecimal rendering of a natural number, as JS number.toString(16). -/
def natHex (n : Nat) : List Char := natHexAux (n + 1) n []

/-- Numeric value of a decimal digit character. -/
def digitVal (c : Char) : Nat := c.toNat - 48

/-- Extend a partial decimal value by a run of digit characters. -/
def decExtend (v : Nat) (ds : List Char) : Nat :=
  ds.foldl (fun a c => a * 10 + digitVal c) v

/-- Decimal digit test, matching the JS regex digit class for ASCII. -/
def isDec (c : Char) : Bool := '0' ≤ c && c ≤ '9'

/-- Nonzero decimal digit test (the JS class [1-9]). -/
def isDecPos (c : Char) : Bool := '1' ≤ c && c ≤ '9'

/-- Hexadecimal digit test (the JS class [A-Fa-f0-9]). -/
def isHex (c : Char) : Bool :=
  isDec c || ('a' ≤ c && c ≤ 'f') || ('A' ≤ c && c ≤ 'F')

/-- ASCII letter test (the JS class [A-Za-z]). -/
def isLetter (c : Char) : Bool :=
  ('a' ≤ c && c ≤ 'z') || ('A' ≤ c && c ≤ 'Z')

/-- Whitespace characters recognized by the JS class backslash-s (the ASCII
part, which is all the preprocessor's tests exercise here). -/
def isWsChar (c : Char) : Bool :=
  c = ' ' || c = '\t' || c = '\n' || c = '\r' ||
  c = Char.ofNat 11 || c = Char.ofNat 12

/-- Boolean test that a list starts with the given pattern. -/
def leadsWith : List Char → List Char → Bool
  | [], _ => true
  | _ :: _, [] => false
  | p :: ps, c :: cs => p = c && leadsWith ps cs

/-- Modelled from the spec: utils.js `doublePunctuatorChars` is not under
src/; these are the v-mode double-punctuator characters the preprocessor and
escaping reference (ampersand through tilde; the backtick is written by code
point). -/
def doublePunctuatorChars : List Char :=
  ['&', '!', '#', '$', '%', '*', '+', ',', '.', ':', ';', '<', '=', '>',
   '?', '@', '^', Char.ofNat 96, '~']

/-- Context argument of the escaping and sandboxing utilities (the
regex-utilities Context enumeration). -/
inductive Context where
  | DEFAULT
  | CHAR_CLASS
deriving DecidableEq, Repr

/-- Modelled from the spec: utils.js `countCaptures` is not under src/.  Per
spec sections 3 and 4.5 it counts capturing-group opening delimiters (a bare
group opener, or a named-group opener that is not a lookbehind) left to
right, outside character classes. -/
def ccAux (d : Nat) : List Char → Nat
  | [] => 0
  | '\\' :: _ :: r => ccAux d r
  | ['\\'] => 0
  | '(' :: '?' :: '<' :: c :: r =>
    if d = 0 && c ≠ '=' && c ≠ '!' then 1 + ccAux d (c :: r)
    else ccAux d ('?' :: '<' :: c :: r)
  | '(' :: '?' :: r => ccAux d ('?' :: r)
  | '(' :: r => if d = 0 then 1 + ccAux d r else ccAux d r
  | '[' :: r => ccAux (d + 1) r
  | ']' :: r => ccAux (d - 1) r
  | _ :: r => ccAux d r

/-- Capturing groups of an expression (spec section 3: the running capture
count counts captures opened so far, left to right). -/
def countCaptures (s : List Char) : Nat := ccAux 0 s

/-- Modelled from the spec: utils.js `getEndContextForIncompleteExpression`
is not under src/.  Spec section 4.1 specifies the context tracker; section 9
asks for an incremental per-token step function, which this is: it advances
the running context by one recognized token (the token shapes are those the
flag-x tokenizer produces). -/
def advanceContext (ctx : RunningContext) (m : List Char) : RunningContext :=
  match ctx.regexContext with
  | .CHAR_CLASS =>
    if ctx.charClassContext = .ENCLOSED_TOKEN || ctx.charClassContext = .ENCLOSED_U
        || ctx.charClassContext = .Q_TOKEN then
      if m = ['}'] then { ctx with charClassContext := .DEFAULT } else ctx
    else
      match m with
      | ['['] => { ctx with charClassDepth := ctx.charClassDepth + 1, charClassContext := .DEFAULT }
      | ['[', '^'] => { ctx with charClassDepth := ctx.charClassDepth + 1, charClassContext := .DEFAULT }
      | [']'] =>
        if ctx.charClassDepth ≤ 1 then
          { regexContext := .DEFAULT, charClassContext := .DEFAULT, charClassDepth := 0 }
        else
          { ctx with charClassDepth := ctx.charClassDepth - 1, charClassContext := .DEFAULT }
      | ['-'] => { ctx with charClassContext := .RANGE }
      | ['\\', 'p', '{'] => { ctx with charClassContext := .ENCLOSED_TOKEN }
      | ['\\', 'P', '{'] => { ctx with charClassContext := .ENCLOSED_TOKEN }
      | ['\\', 'u', '{'] => { ctx with charClassContext := .ENCLOSED_U }
      | ['\\'] => { ctx with charClassContext := .INVALID_INCOMPLETE_TOKEN }
      | _ => { ctx with charClassContext := .DEFAULT }
  | .GROUP_NAME =>
    if m = ['>'] then { ctx with regexContext := .DEFAULT } else ctx
  | .INTERVAL_QUANTIFIER =>
    if m = ['}'] then { ctx with regexContext := .DEFAULT } else ctx
  | .ENCLOSED_TOKEN =>
    if m = ['}'] then { ctx with regexContext := .DEFAULT } else ctx
  | .ENCLOSED_U =>
    if m = ['}'] then { ctx with regexContext := .DEFAULT } else ctx
  | .INVALID_INCOMPLETE_TOKEN => ctx
  | .DEFAULT =>
    match m with
    | ['['] => { regexContext := .CHAR_CLASS, charClassContext := .DEFAULT, charClassDepth := 1 }
    | ['[', '^'] => { regexContext := .CHAR_CLASS, charClassContext := .DEFAULT, charClassDepth := 1 }
    | ['(', '?', '<'] => { ctx with regexContext := .GROUP_NAME }
    | ['\\', 'g', '<'] => { ctx with regexContext := .GROUP_NAME }
    | ['\\', 'k', '<'] => { ctx with regexContext := .GROUP_NAME }
    | ['\\', 'p', '{'] => { ctx with regexContext := .ENCLOSED_TOKEN }
    | ['\\', 'P', '{'] => { ctx with regexContext := .ENCLOSED_TOKEN }
    | ['\\', 'u', '{'] => { ctx with regexContext := .ENCLOSED_U }
    | ['{'] => { ctx with regexContext := .INTERVAL_QUANTIFIER }
    | ['\\'] => { ctx with regexContext := .INVALID_INCOMPLETE_TOKEN }
    | _ => ctx

/-- Modelled from the spec: utils.js `sandboxUnsafeNulls` is not under src/.
The spec never specifies a rewrite of literal text (section 8 requires
literal segments to come through verbatim), so it is modelled as the
identity. -/
def sandboxUnsafeNulls (s : List Char) (_ : Context) : List Char := s

/-- Modelled from the spec: utils.js `sandboxLoneCharClassCaret` is not under
src/.  Per spec section 4.3 a leading operator character of a plain-text
class fragment is neutralized by escaping; this escapes a leading caret. -/
def sandboxLoneCharClassCaret (s : List Char) : List Char :=
  match s with
  | '^' :: r => '\\' :: '^' :: r
  | _ => s

/-- Modelled from the spec: utils.js `sandboxLoneDoublePunctuatorChar` is not
under src/.  It escapes a leading double-punctuator character that is not
doubled, so it cannot pair with an adjacent character into an operator. -/
def sandboxLoneDoublePunctuatorChar (s : List Char) : List Char :=
  match s with
  | c :: r =>
    if decide (c ∈ doublePunctuatorChars) && r.head? ≠ some c then '\\' :: c :: r else s
  | [] => []

/-- Characters escapeV escapes in DEFAULT context (the JS metacharacters). -/
def escapeVDefaultSet : List Char :=
  ['\\', '?', '*', '+', '.', '^', '$', '|', '(', ')', '[', ']', '{', '}']

/-- Characters escapeV escapes inside a character class (v-mode syntax
characters and double punctuators). -/
def escapeVClassSet : List Char :=
  ['(', ')', '[', ']', '{', '}', '|', '\\', '/', '-'] ++ doublePunctuatorChars

/-- Modelled from the spec: utils.js `escapeV` is not under src/.  Spec
section 4.3: plain text is escaped for literal safety (DEFAULT) or class
safety (CHAR_CLASS) by backslash-escaping every syntax character. -/
def escapeV (s : List Char) (context : Context) : List Char :=
  s.flatMap fun c =>
    match context with
    | .CHAR_CLASS => if decide (c ∈ escapeVClassSet) then ['\\', c] else [c]
    | .DEFAULT => if decide (c ∈ escapeVDefaultSet) then ['\\', c] else [c]

/-- Double characters that form an explicit class operator when doubled
(set operators like intersection and subtraction). -/
def isClassOpDouble (c : Char) : Bool :=
  decide (c ∈ doublePunctuatorChars) || c = '-'

/-- Scanner for `containsCharClassUnion`: `seen` records that one class
element was already read, `rangePending` that a range hyphen follows it, and
`inEnclosed` that the scan is inside an enclosed token.  Returns true as soon
as a second element or an explicit double-punctuator operator appears. -/
def ccuAux : Bool → Bool → Bool → List Char → Bool
  | seen, rp, true, '}' :: r => ccuAux seen rp false r
  | seen, rp, true, _ :: r => ccuAux seen rp true r
  | _, _, true, [] => false
  | seen, rp, false, '\\' :: p :: '{' :: r =>
    if p = 'p' || p = 'P' || p = 'u' || p = 'q' then
      if rp then ccuAux seen false true r
      else if seen then true
      else ccuAux true false true r
    else
      if rp then ccuAux seen false false ('{' :: r)
      else if seen then true
      else ccuAux true false false ('{' :: r)
  | seen, rp, false, '\\' :: _ :: r =>
    if rp then ccuAux seen false false r
    else if seen then true
    else ccuAux true false false r
  | _, _, false, ['\\'] => false
  | seen, rp, false, c :: c2 :: r =>
    if c = c2 && isClassOpDouble c then true
    else if c = '-' && seen && !rp then ccuAux seen true false (c2 :: r)
    else if rp then ccuAux seen false false (c2 :: r)
    else if seen then true
    else ccuAux true false false (c2 :: r)
  | seen, rp, false, [c] =>
    if c = '-' && seen && !rp then false
    else if rp then false
    else if seen then true
    else false
  | _, _, false, [] => false

/-- Modelled from the spec: utils.js `containsCharClassUnion` is not under
src/.  Spec section 4.3: true exactly when the content would parse as more
than one class element (implicit union) or contains an explicit
union/intersection double-punctuator operator; a range or an enclosed token
is one element. -/
def containsCharClassUnion (s : List Char) : Bool :=
  ccuAux false false false s

/-- Escape-pair removal, as the JS replace of backslash-plus-any with the
empty string (a trailing lone backslash stays). -/
def removeEscapes : List Char → List Char
  | [] => []
  | ['\\'] => ['\\']
  | '\\' :: _ :: r => removeEscapes r
  | c :: r => c :: removeEscapes r

/-- Character occurrence test. -/
def hasChar (x : Char) : List Char → Bool
  | [] => false
  | c :: r => c = x || hasChar x r

/-- True when the last character is a backslash. -/
def endsWithBackslash : List Char → Bool
  | [] => false
  | ['\\'] => true
  | [_] => false
  | _ :: r => endsWithBackslash r

/-- True when a closing character appears that is not balanced by an earlier
opening character. -/
def unbalancedClose (openC closeC : Char) : Nat → List Char → Bool
  | _, [] => false
  | d, c :: r =>
    if c = openC then unbalancedClose openC closeC (d + 1) r
    else if c = closeC then (if d = 0 then true else unbalancedClose openC closeC (d - 1) r)
    else unbalancedClose openC closeC d r

/-- Modelled from the spec: utils.js `getBreakoutChar` is not under src/.
Spec section 4.3's safety invariant: an unescaped character that would close
or extend past the hole's enclosing construct (a group-name closer, an
interval or enclosed-token closing brace, an unbalanced class or group
closer, or a trailing lone backslash) is reported as the breakout
character. -/
def getBreakoutChar (s : List Char) (rc : RegexContext) (cc : CharClassContext) : Option Char :=
  let e := removeEscapes s
  if endsWithBackslash e then some '\\'
  else if rc = .GROUP_NAME then
    (if hasChar '>' e then some '>' else none)
  else if rc = .INTERVAL_QUANTIFIER || rc = .ENCLOSED_TOKEN || rc = .ENCLOSED_U then
    (if hasChar '}' e then some '}' else none)
  else if rc = .CHAR_CLASS then
    if cc = .ENCLOSED_TOKEN || cc = .ENCLOSED_U || cc = .Q_TOKEN then
      (if hasChar '}' e then some '}' else none)
    else
      (if unbalancedClose '[' ']' 0 e then some ']' else none)
  else
    (if unbalancedClose '(' ')' 0 e then some ')' else none)

/-- The zero-width non-capturing separator token the preprocessor inserts. -/
def sepToken : List Char := ['(', '?', ':', ')']

/-- Tokenizer of src/src/flag-x.js (the `token` regex, lines 8-22): escape
tokens of fixed shape, class-negation opener, non-capturing and lookaround
group openers, named-group opener, doubled punctuators, the double hyphen,
then backslash-plus-any or any single character. -/
def nextToken : List Char → Option (List Char × List Char)
  | [] => none
  | '\\' :: 'g' :: '<' :: r => some (['\\', 'g', '<'], r)
  | '\\' :: 'k' :: '<' :: r => some (['\\', 'k', '<'], r)
  | '\\' :: 'p' :: '{' :: r => some (['\\', 'p', '{'], r)
  | '\\' :: 'P' :: '{' :: r => some (['\\', 'P', '{'], r)
  | '\\' :: 'u' :: '{' :: r => some (['\\', 'u', '{'], r)
  | '\\' :: 'c' :: c :: r =>
    if isLetter c then some (['\\', 'c', c], r) else some (['\\', 'c'], c :: r)
  | '\\' :: 'u' :: a :: b :: c :: d :: r =>
    if isHex a && isHex b && isHex c && isHex d then some (['\\', 'u', a, b, c, d], r)
    else some (['\\', 'u'], a :: b :: c :: d :: r)
  | '\\' :: 'x' :: a :: b :: r =>
    if isHex a && isHex b then some (['\\', 'x', a, b], r)
    else some (['\\', 'x'], a :: b :: r)
  | '\\' :: '0' :: c :: r =>
    if isDec c then some ('\\' :: '0' :: c :: r.takeWhile isDec, r.dropWhile isDec)
    else some (['\\', '0'], c :: r)
  | '[' :: '^' :: r => some (['[', '^'], r)
  | '(' :: '?' :: ':' :: r => some (['(', '?', ':'], r)
  | '(' :: '?' :: '=' :: r => some (['(', '?', '='], r)
  | '(' :: '?' :: '!' :: r => some (['(', '?', '!'], r)
  | '(' :: '?' :: '<' :: '=' :: r => some (['(', '?', '<', '='], r)
  | '(' :: '?' :: '<' :: '!' :: r => some (['(', '?', '<', '!'], r)
  | '(' :: '?' :: '<' :: r => some (['(', '?', '<'], r)
  | c :: c2 :: r =>
    if c = c2 ∧ c ∈ doublePunctuatorChars then some ([c, c2], r)
    else if c = '-' ∧ c2 = '-' then some (['-', '-'], r)
    else if c = '\\' then some (['\\', c2], r)
    else some ([c], c2 :: r)
  | [c] => some ([c], [])

/-- One-character whitespace token (the `ws` test of flag-x.js). -/
def wsTok (m : List Char) : Bool :=
  match m with
  | [c] => isWsChar c
  | _ => false

/-- One-character class-whitespace token (the `charClassWs` test). -/
def ccWsTok (m : List Char) : Bool := m = [' '] || m = ['\t']

/-- Quantifier tokens handled by the quantifier-adjacency rule. -/
def quantTok (m : List Char) : Bool :=
  m = ['?'] || m = ['*'] || m = ['+'] || m = ['?', '?']

/-- Running state of the flag-x preprocessor, one field per local of
flagXPreprocessor in src/src/flag-x.js. -/
structure FlagXState where
  ignoringWs : Bool := false
  ignoringCharClassWs : Bool := false
  ignoringComment : Bool := false
  transformed : List Char := []
  lastSignificantToken : List Char := []
  lastSignificantCharClassContext : CharClassContext := .DEFAULT
  separatorNeeded : Bool := false
  runningContext : RunningContext := {}
deriving DecidableEq, Repr

/-- The `update` helper of flagXPreprocessor plus the bookkeeping after a
retained token: separator prefix/postfix handling, context update and
recording of the last significant token. -/
def flagXEmit (st : FlagXState) (ctx : RunningContext) (m piece : List Char)
    (pre post : Bool) : FlagXState :=
  { st with
    transformed := st.transformed ++ (if st.separatorNeeded && pre then sepToken else [])
      ++ piece ++ (if post then sepToken else []),
    separatorNeeded := false,
    runningContext := ctx,
    lastSignificantToken := m,
    lastSignificantCharClassContext := ctx.charClassContext }

/-- Main body of flagXPreprocessor's token loop, after comment/whitespace
skipping was resolved (src/src/flag-x.js lines 70-135). -/
def flagXMain (st : FlagXState) (m : List Char) : Except String FlagXState :=
  let ctx := advanceContext st.runningContext m
  let rc := ctx.regexContext
  let cc := ctx.charClassContext
  if m = ['-'] ∧ rc = .CHAR_CLASS ∧ st.lastSignificantCharClassContext = .RANGE then
    .error "Invalid unescaped hyphen as the end value for a range"
  else if (rc = .DEFAULT ∧ quantTok m) ∨ (rc = .INTERVAL_QUANTIFIER ∧ m = ['{']) then
    .ok (flagXEmit st ctx m m false (st.lastSignificantToken = ['('] ∧ m = ['?']))
  else if rc = .DEFAULT then
    if wsTok m then .ok { st with runningContext := ctx, ignoringWs := true }
    else if m.head? = some '#' then .ok { st with runningContext := ctx, ignoringComment := true }
    else
      match m with
      | ['\\', c] =>
        if isWsChar c ∨ c = '#' then .ok (flagXEmit st ctx m [c] false false)
        else .ok (flagXEmit st ctx m m true false)
      | _ => .ok (flagXEmit st ctx m m true false)
  else if rc = .CHAR_CLASS ∧ m ≠ ['['] ∧ m ≠ ['[', '^'] then
    if ccWsTok m ∧ (cc = .DEFAULT ∨ cc = .RANGE ∨ cc = .Q_TOKEN) then
      .ok { st with runningContext := ctx, ignoringCharClassWs := true }
    else if cc = .INVALID_INCOMPLETE_TOKEN then
      .error "Invalid incomplete token in character class"
    else
      match m with
      | ['\\', c] =>
        if (c = ' ' ∨ c = '\t') ∧ (cc = .DEFAULT ∨ cc = .Q_TOKEN) then
          .ok (flagXEmit st ctx m [c] false false)
        else if cc = .DEFAULT then
          .ok (flagXEmit st ctx m
            (sandboxLoneDoublePunctuatorChar (sandboxUnsafeNulls m .DEFAULT)) true false)
        else .ok (flagXEmit st ctx m m true false)
      | _ =>
        if cc = .DEFAULT then
          .ok (flagXEmit st ctx m
            (sandboxLoneDoublePunctuatorChar (sandboxUnsafeNulls m .DEFAULT)) true false)
        else .ok (flagXEmit st ctx m m true false)
  else .ok (flagXEmit st ctx m m true false)

/-- One token step of flagXPreprocessor: comment skipping, whitespace-run
skipping with separator arming, then the main body. -/
def flagXStep (st : FlagXState) (m : List Char) : Except String FlagXState :=
  if st.ignoringComment then
    if m = ['\n'] then .ok { st with ignoringComment := false, separatorNeeded := true }
    else .ok st
  else if st.ignoringWs ∧ wsTok m then .ok st
  else if ¬ st.ignoringWs ∧ st.ignoringCharClassWs ∧ ccWsTok m then .ok st
  else
    let st0 :=
      if st.ignoringWs then { st with ignoringWs := false, separatorNeeded := true }
      else if st.ignoringCharClassWs then { st with ignoringCharClassWs := false }
      else st
    flagXMain st0 m

/-- Fuel-driven token loop of flagXPreprocessor. -/
def flagXRun : Nat → FlagXState → List Char → Except String FlagXState
  | 0, st, _ => .ok st
  | fuel + 1, st, s =>
    match nextToken s with
    | none => .ok st
    | some (m, rest) =>
      match flagXStep st m with
      | .error e => .error e
      | .ok st2 => flagXRun fuel st2 rest

/-- Port of flagXPreprocessor (src/src/flag-x.js lines 34-141): apply the
insignificant-whitespace and line-comment transformations to one literal
segment, resuming from the inherited running context. -/
def flagXPreprocessor (value : List Char) (runningContext : RunningContext) :
    Except String (List Char × RunningContext) :=
  match flagXRun (value.length + 1) { runningContext := runningContext } value with
  | .error e => .error e
  | .ok st => .ok (st.transformed, st.runningContext)

/-- Leading separator tokens dropped after the first of a run. -/
def swallowSeps : List Char → List Char
  | '(' :: '?' :: ':' :: ')' :: r => swallowSeps r
  | r => r

/-- First pass of cleanPlugin (src/src/flag-x.js line 151): outside character
classes, a run of adjacent separators collapses to a single separator.  The
scan consumes escape pairs whole and tracks class depth, as the unescaped
replacement helper does. -/
def collapseRuns : Nat → Nat → List Char → List Char
  | 0, _, _ => []
  | fuel + 1, d, s =>
    match s with
    | [] => []
    | '(' :: '?' :: ':' :: ')' :: r =>
      if d = 0 then sepToken ++ collapseRuns fuel d (swallowSeps r)
      else sepToken ++ collapseRuns fuel d r
    | '\\' :: c :: r => '\\' :: c :: collapseRuns fuel d r
    | ['\\'] => ['\\']
    | '[' :: r => '[' :: collapseRuns fuel (d + 1) r
    | ']' :: r => ']' :: collapseRuns fuel (d - 1) r
    | c :: r => c :: collapseRuns fuel d r

/-- The characters of the followed-by set of cleanPlugin's deletion regex
(src/src/flag-x.js line 171, the class after the first lookahead). -/
def afterOkChars : List Char := [')', '|', '.', '[', '$', '\\']

/-- The single characters of the preceded-by set of cleanPlugin's deletion
regex (line 171, the class inside the lookbehind). -/
def beforeOkChars : List Char := ['(', ')', '|', '.', ']', '^', '>']

/-- The single-character class escapes of the preceded-by set (line 171). -/
def classEscapeChars : List Char :=
  ['b', 'B', 'd', 'D', 'f', 'n', 'r', 's', 'S', 't', 'v', 'W', 'w']

/-- Followed-by condition of the deletion regex's first branch: end of
expression, one of the fixed follower characters, or a group opener not
starting a DEFINE construct. -/
def sepAfterOk (r : List Char) : Bool :=
  match r with
  | [] => true
  | '(' :: t => !leadsWith ['D', 'E', 'F', 'I', 'N', 'E'] t
  | c :: _ => decide (c ∈ afterOkChars)

/-- Preceded-by condition of the deletion regex's second branch, evaluated on
the reversed list of characters before the separator: start of expression,
a fixed preceding character, a single-character class escape, or a
non-capturing/lookaround group opener ending right before the separator. -/
def sepBeforeOk (prev : List Char) : Bool :=
  match prev with
  | [] => true
  | c :: t =>
    decide (c ∈ beforeOkChars) ||
    ((match t with | '\\' :: _ => true | _ => false) && decide (c ∈ classEscapeChars)) ||
    ((c = ':' || c = '=' || c = '!') && leadsWith ['?', '('] t) ||
    ((c = '=' || c = '!') && leadsWith ['<', '?', '('] t)

/-- A quantifier character follows immediately. -/
def sepQuantFollows (r : List Char) : Bool :=
  match r with
  | c :: _ => c = '?' || c = '*' || c = '+' || c = '{'
  | [] => false

/-- The emulation-group marker follows immediately. -/
def sepMarkerFollows (r : List Char) : Bool := leadsWith emulationGroupMarker r

/-- The full needle condition of cleanPlugin's deletion regex (line 171):
either branch of the alternation, and never before a marker. -/
def sepDeletable (prev r : List Char) : Bool :=
  (sepAfterOk r || (sepBeforeOk prev && !sepQuantFollows r)) && !sepMarkerFollows r

/-- Second pass of cleanPlugin (lines 169-174): delete a separator outside
character classes when `sepDeletable` holds there.  `prev` is the reversed
list of characters already consumed (the lookbehind reads the original
text), `d` the class depth. -/
def deleteSeps (prev : List Char) (d : Nat) : List Char → List Char
  | '(' :: '?' :: ':' :: ')' :: r =>
    if sepDeletable prev r then
      if d = 0 then deleteSeps (')' :: ':' :: '?' :: '(' :: prev) d r
      else sepToken ++ deleteSeps (')' :: ':' :: '?' :: '(' :: prev) d r
    else '(' :: deleteSeps ('(' :: prev) d ('?' :: ':' :: ')' :: r)
  | '\\' :: c :: r => '\\' :: c :: deleteSeps (c :: '\\' :: prev) d r
  | ['\\'] => ['\\']
  | '[' :: r => '[' :: deleteSeps ('[' :: prev) (d + 1) r
  | ']' :: r => ']' :: deleteSeps (']' :: prev) (d - 1) r
  | c :: r => c :: deleteSeps (c :: prev) d r
  | [] => []

/-- Port of cleanPlugin (src/src/flag-x.js lines 148-176): collapse runs of
separators, then delete the separators that are safe to delete. -/
def cleanPlugin (expression : List Char) : List Char :=
  deleteSeps [] 0 (collapseRuns (expression.length + 1) 0 expression)

/-- Numbered-backreference reader: the values of the numbered backreferences
of an expression, left to right, outside character classes.  `p` holds the
digits read so far of a backreference being parsed; digits are consumed one
at a time, so a maximal run is accumulated before the value is emitted. -/
def brAux (d : Nat) (p : Option Nat) : List Char → List Nat
  | [] => (match p with | some v => [v] | none => [])
  | '\\' :: c2 :: r =>
    (match p with
    | some v =>
      if d = 0 ∧ isDecPos c2 then v :: brAux d (some (digitVal c2)) r
      else v :: brAux d none r
    | none =>
      if d = 0 ∧ isDecPos c2 then brAux d (some (digitVal c2)) r
      else brAux d none r)
  | ['\\'] => (match p with | some v => [v] | none => [])
  | c :: r =>
    (match p with
    | some v =>
      if isDec c then brAux d (some (v * 10 + digitVal c)) r
      else if c = '[' then v :: brAux (d + 1) none r
      else if c = ']' then v :: brAux (d - 1) none r
      else v :: brAux d none r
    | none =>
      if c = '[' then brAux (d + 1) none r
      else if c = ']' then brAux (d - 1) none r
      else brAux d none r)

/-- The numbered backreferences of an expression, in order. -/
def backrefNums (s : List Char) : List Nat := brAux 0 none s

/-- Depth update of a single non-escape character. -/
def newDepth (c : Char) (d : Nat) : Nat :=
  if c = '[' then d + 1 else if c = ']' then d - 1 else d

/-- Modelled from the spec: utils.js `adjustNumberedBackrefs` is not under
src/.  Spec section 4.3: shift every numbered backreference of the
sub-pattern (a backslash followed by a positive decimal number, outside
character classes) up by the preceding capture count `k`. -/
def adjAux (k : Nat) (d : Nat) (p : Option Nat) : List Char → List Char
  | [] => (match p with | some v => '\\' :: natDec (v + k) | none => [])
  | '\\' :: c2 :: r =>
    (match p with
    | some v =>
      if d = 0 ∧ isDecPos c2 then ('\\' :: natDec (v + k)) ++ adjAux k d (some (digitVal c2)) r
      else ('\\' :: natDec (v + k)) ++ '\\' :: c2 :: adjAux k d none r
    | none =>
      if d = 0 ∧ isDecPos c2 then adjAux k d (some (digitVal c2)) r
      else '\\' :: c2 :: adjAux k d none r)
  | ['\\'] => (match p with | some v => ('\\' :: natDec (v + k)) ++ ['\\'] | none => ['\\'])
  | c :: r =>
    (match p with
    | some v =>
      if isDec c then adjAux k d (some (v * 10 + digitVal c)) r
      else ('\\' :: natDec (v + k)) ++ c :: adjAux k (newDepth c d) none r
    | none => c :: adjAux k (newDepth c d) none r)

/-- Shift every numbered backreference by `k` (see `adjAux`). -/
def adjustNumberedBackrefs (k : Nat) (s : List Char) : List Char :=
  adjAux k 0 none s

/-- Modelled from the spec: the regex-utilities unescaped-replacement helper,
specialized to a one-character needle at the top level (outside character
classes), as transformForLocalFlags uses it for dots and anchors. -/
def replaceUnescapedChar (x : Char) (rep : List Char) (d : Nat) : List Char → List Char
  | [] => []
  | '\\' :: c :: r => '\\' :: c :: replaceUnescapedChar x rep d r
  | ['\\'] => ['\\']
  | c :: r =>
    if c = x ∧ d = 0 then rep ++ replaceUnescapedChar x rep d r
    else c :: replaceUnescapedChar x rep (newDepth c d) r

/-- An interpolated native regex value: source text and the local flags the
interpolation compiler consults. -/
structure NativeRegex where
  source : List Char
  ignoreCase : Bool := false
  multiline : Bool := false
  dotAll : Bool := false
deriving DecidableEq, Repr

/-- The four kinds of substitution value (spec section 3): plain text, a
native regex, a trusted pattern, and a number. -/
inductive InterpolatedValue where
  | str (s : List Char)
  | regexp (re : NativeRegex)
  | pat (p : List Char)
  | num (n : Nat)
deriving DecidableEq, Repr

/-- Value is a native regex. -/
def isRegexpV : InterpolatedValue → Bool
  | .regexp _ => true
  | _ => false

/-- Value is a trusted pattern. -/
def isPatV : InterpolatedValue → Bool
  | .pat _ => true
  | _ => false

/-- Value is a number. -/
def isNumV : InterpolatedValue → Bool
  | .num _ => true
  | _ => false

/-- The JS String(value) conversion of a non-regex value. -/
def strOfValue : InterpolatedValue → List Char
  | .str s => s
  | .pat p => p
  | .num n => natDec n
  | .regexp re => re.source

/-- The number payload (only consulted for number values). -/
def numOf : InterpolatedValue → Nat
  | .num n => n
  | _ => 0

/-- The regex payload (only consulted for regex values). -/
def regexpOf : InterpolatedValue → NativeRegex
  | .regexp re => re
  | _ => { source := [] }

/-- The newline alternatives string used by the anchor rewrites (the
`newlines` constant of transformForLocalFlags, written as source text). -/
def newlineChars : List Char :=
  ['\\', 'n', '\\', 'r', '\\', 'u', '2', '0', '2', '8', '\\', 'u', '2', '0', '2', '9']

/-- Port of transformForLocalFlags (src/unnamed/part_000 lines 331-377):
reconcile the value's local i/m/s flags with the outer flags, with an inline
modifier group when pattern modifiers are supported (`pms`), else by
rewriting dots and anchors (and erroring on an ignore-case mismatch).
Returns the value text and whether a modifier group was used. -/
def transformForLocalFlags (pms : Bool) (re : NativeRegex) (outerFlags : List Char) :
    Except String (List Char × Bool) :=
  let useI := re.ignoreCase ≠ outerFlags.contains 'i'
  let useS := re.dotAll ≠ outerFlags.contains 's'
  let useM := re.multiline ≠ outerFlags.contains 'm'
  if ¬ pms ∧ useI then
    .error "Pattern modifiers not supported, so flag i on the outer and interpolated regex must match"
  else if pms then
    let onMods := (if useI ∧ re.ignoreCase then ['i'] else [])
      ++ (if useM ∧ re.multiline then ['m'] else [])
      ++ (if useS ∧ re.dotAll then ['s'] else [])
    let offMods := (if useI ∧ ¬ re.ignoreCase then ['i'] else [])
      ++ (if useM ∧ ¬ re.multiline then ['m'] else [])
      ++ (if useS ∧ ¬ re.dotAll then ['s'] else [])
    let modifier := onMods ++ (if offMods = [] then [] else '-' :: offMods)
    if modifier = [] then .ok (re.source, false)
    else .ok (('(' :: '?' :: modifier) ++ (':' :: re.source) ++ [')'], true)
  else
    let v := re.source
    let v := if useS then
        replaceUnescapedChar '.' (if re.dotAll then ['[', '^', ']'] else ('[' :: '^' :: newlineChars) ++ [']']) 0 v
      else v
    let v := if useM then
        replaceUnescapedChar '$'
          (if re.multiline then ('(' :: '?' :: '=' :: '$' :: '|' :: '[' :: newlineChars) ++ [']', ')']
           else ['(', '?', '!', '[', '^', ']', ')'])
          0
          (replaceUnescapedChar '^'
            (if re.multiline then ('(' :: '?' :: '<' :: '=' :: '^' :: '|' :: '[' :: newlineChars) ++ [']', ')']
             else ['(', '?', '<', '!', '[', '^', ']', ')'])
            0 v)
      else v
    .ok (v, false)

/-- Modelled from the spec: the regex-utilities `hasUnescaped` check of
interpolate's boundary-operator pattern (spec section 4.3: a trusted pattern
beginning or ending with a bare range or set operator is rejected). -/
def hasBoundaryOperator (v : List Char) : Bool :=
  let e := removeEscapes v
  leadsWith ['-'] v || leadsWith ['&', '&'] v ||
  e.getLast? = some '-' || leadsWith ['&', '&'] e.reverse

/-- Port of interpolate (src/unnamed/part_000 lines 257-324): turn one
substitution value into a safe fragment for its syntactic position, or fail.
`pms` is the pattern-modifiers capability constant. -/
def interpolate (pms : Bool) (value : InterpolatedValue) (flags : List Char)
    (regexContext : RegexContext) (charClassContext : CharClassContext)
    (wrapEscapedStr : Bool) (precedingCaptures : Nat) : Except String (List Char) :=
  if isRegexpV value ∧ regexContext ≠ .DEFAULT then
    .error "Cannot interpolate a RegExp at this position because the syntax context does not match"
  else if regexContext = .INVALID_INCOMPLETE_TOKEN ∨ charClassContext = .INVALID_INCOMPLETE_TOKEN then
    .error "Interpolation preceded by invalid incomplete token"
  else if isNumV value ∧ (regexContext = .ENCLOSED_U ∨ charClassContext = .ENCLOSED_U) then
    .ok (natHex (numOf value))
  else if isRegexpV value then
    match transformForLocalFlags pms (regexpOf value) flags with
    | .error e => .error e
    | .ok t =>
      let backrefsAdjusted := adjustNumberedBackrefs precedingCaptures t.1
      .ok (if t.2 then backrefsAdjusted else ('(' :: '?' :: ':' :: backrefsAdjusted) ++ [')'])
  else
    let isPattern := isPatV value
    let v := strOfValue value
    let escapedValue :=
      if isPattern then []
      else escapeV v (if regexContext = .CHAR_CLASS then .CHAR_CLASS else .DEFAULT)
    let checkTarget := if escapedValue = [] then v else escapedValue
    match getBreakoutChar checkTarget regexContext charClassContext with
    | some _ =>
      .error "Unescaped stray character in the interpolated value would have side effects outside it"
    | none =>
      if regexContext = .INTERVAL_QUANTIFIER ∨ regexContext = .GROUP_NAME ∨
          regexContext = .ENCLOSED_TOKEN ∨ regexContext = .ENCLOSED_U ∨
          charClassContext = .ENCLOSED_TOKEN ∨ charClassContext = .ENCLOSED_U ∨
          charClassContext = .Q_TOKEN then
        .ok (if isPattern then v else escapedValue)
      else if regexContext = .CHAR_CLASS then
        if isPattern then
          if hasBoundaryOperator v then
            .error "Cannot use range or set operator at boundary of interpolated pattern; move the operation into the pattern or the operator outside of it"
          else
            let sandboxedValue := sandboxLoneCharClassCaret (sandboxLoneDoublePunctuatorChar v)
            .ok (if containsCharClassUnion v then ('[' :: sandboxedValue) ++ [']']
                 else sandboxUnsafeNulls sandboxedValue .DEFAULT)
        else
          .ok (if containsCharClassUnion escapedValue then ('[' :: escapedValue) ++ [']']
               else escapedValue)
      else if isPattern then .ok (('(' :: '?' :: ':' :: v) ++ [')'])
      else .ok (if wrapEscapedStr then ('(' :: '?' :: ':' :: escapedValue) ++ [')'] else escapedValue)

/-- Data handed to every plugin stage (the PluginData typedef of
src/unnamed/part_000). -/
structure PluginData where
  flags : List Char
  useEmulationGroups : Bool

/-- A plugin stage. -/
abbrev Plugin := List Char → PluginData → List Char

/-- A preprocessor over one literal segment, resuming from a context. -/
abbrev Preprocessor := List Char → RunningContext → Except String (List Char × RunningContext)

/-- Modelled from the spec: the subroutine-expansion stage (src file
subroutines.js is not under src/); spec sections 1 and 6 treat it as an
external collaborator with no specified algorithm, so it is modelled as the
identity stage. -/
def subroutinesPlugin : Plugin := fun e _ => e

/-- Modelled from the spec: the possessive-quantifier stage (atomic.js is
not under src/), an external collaborator modelled as the identity. -/
def possessivePlugin : Plugin := fun e _ => e

/-- Modelled from the spec: the atomic-group stage (atomic.js is not under
src/), an external collaborator modelled as the identity. -/
def atomicPlugin : Plugin := fun e _ => e

/-- Modelled from the spec: the dialect-backport stage (backcompat.js is not
under src/), an external collaborator modelled as the identity. -/
def backcompatPlugin : Plugin := fun e _ => e

/-- Modelled from the spec: the flag-n preprocessor (flag-n.js is not under
src/), an external collaborator (named-capture normalization) modelled as
the identity on the segment text. -/
def flagNPreprocessor : Preprocessor := fun s ctx => .ok (s, ctx)

/-- cleanPlugin as a pipeline stage (it ignores the plugin data). -/
def cleanPluginStage : Plugin := fun e _ => cleanPlugin e

/-- The disable switches of the options object. -/
structure DisableOptions where
  x : Bool := false
  n : Bool := false
  v : Bool := false
  atomic : Bool := false
  subroutines : Bool := false

/-- The force switches of the options object. -/
structure ForceOptions where
  v : Bool := false

/-- The options object (the RegexTagOptions typedef), with the defaults
getOptions fills in. -/
structure RegexTagOptions where
  flags : List Char := []
  subclass : Bool := false
  plugins : List Plugin := []
  unicodeSetsPlugin : Option Plugin := some backcompatPlugin
  disable : DisableOptions := {}
  force : ForceOptions := {}

/-- Port of getOptions (src/unnamed/part_000 lines 139-158): reject explicit
implicit-mode flags, then append the v or u flag by capability and disable
the backport plugin under flag v.  `flagVSupported` is the capability
constant. -/
def getOptions (flagVSupported : Bool) (options : RegexTagOptions) :
    Except String RegexTagOptions :=
  if options.flags.any (fun c => c = 'n' || c = 'u' || c = 'v' || c = 'x') then
    .error "Implicit flags v/u/x/n cannot be explicitly added"
  else
    let useFlagV := options.force.v || (if options.disable.v then false else flagVSupported)
    .ok { options with
      flags := options.flags ++ (if useFlagV then ['v'] else ['u']),
      unicodeSetsPlugin := if useFlagV then none else options.unicodeSetsPlugin }

/-- Modelled from the spec: the utils.js `preprocess` driver is not under
src/.  Spec section 4.2: a preprocessor rewrites one literal segment at a
time and the returned running context is the exact input to the next
segment's invocation. -/
def preprocessSegments (pp : Preprocessor) :
    RunningContext → List (List Char) → Except String (List (List Char))
  | _, [] => .ok []
  | ctx, raw :: rest =>
    match pp raw ctx with
    | .error e => .error e
    | .ok (t, ctx2) =>
      match preprocessSegments pp ctx2 rest with
      | .error e => .error e
      | .ok ts => .ok (t :: ts)

/-- The preprocessors handlePreprocessors applies, in order (src lines
169-188): flag x first unless disabled, then flag n unless disabled. -/
def preprocessorList (o : RegexTagOptions) : List Preprocessor :=
  (if o.disable.x then [] else [fun s ctx => flagXPreprocessor s ctx])
    ++ (if o.disable.n then [] else [flagNPreprocessor])

/-- Port of handlePreprocessors (src lines 169-188) over the literal
segments. -/
def handlePreprocessors (o : RegexTagOptions) (raws : List (List Char)) :
    Except String (List (List Char)) :=
  (preprocessorList o).foldlM (fun rs pp => preprocessSegments pp {} rs) raws

/-- The plugin stages handlePlugins applies, in order (src lines 195-205):
caller plugins, subroutines, possessive and atomic, cleanup, then the
unicode-sets backport stage. -/
def pluginList (o : RegexTagOptions) : List Plugin :=
  o.plugins
    ++ (if o.disable.subroutines then [] else [subroutinesPlugin])
    ++ (if o.disable.atomic then [] else [possessivePlugin, atomicPlugin])
    ++ (if o.disable.x then [] else [cleanPluginStage])
    ++ (match o.unicodeSetsPlugin with | none => [] | some p => [p])

/-- Port of handlePlugins (src lines 195-205). -/
def handlePlugins (expression : List Char) (o : RegexTagOptions) : List Char :=
  (pluginList o).foldl
    (fun e p => p e { flags := o.flags, useEmulationGroups := o.subclass }) expression

/-- Advance the running context over a stretch of appended expression text,
token by token (models recomputing the end context of the accumulated
expression). -/
def advCtxAux : Nat → RunningContext → List Char → RunningContext
  | 0, ctx, _ => ctx
  | fuel + 1, ctx, s =>
    match nextToken s with
    | none => ctx
    | some (m, r) => advCtxAux fuel (advanceContext ctx m) r

/-- Context after consuming `s` from `ctx`. -/
def advanceContextOver (ctx : RunningContext) (s : List Char) : RunningContext :=
  advCtxAux (s.length + 1) ctx s

/-- Port of the template-interleaving loop of regexFromTemplate (src lines
80-102): sandbox each raw segment, track the running context and the
preceding capture count, and splice each interpolated fragment. -/
def buildLoop (pms : Bool) (flags : List Char) (ctx : RunningContext) (k : Nat) :
    List (List Char) → List InterpolatedValue → Except String (List Char)
  | [], _ => .ok []
  | raw :: rest, subs =>
    let sand := sandboxUnsafeNulls raw .CHAR_CLASS
    let k2 := k + countCaptures raw
    let ctx2 := advanceContextOver ctx sand
    match rest, subs with
    | [], _ => .ok sand
    | _, [] =>
      (match buildLoop pms flags ctx2 k2 rest [] with
      | .error e => .error e
      | .ok t => .ok (sand ++ t))
    | raw2 :: _, sub :: subs2 =>
      let wrapEscapedStr := raw ≠ [] ∨ raw2 ≠ []
      match interpolate pms sub flags ctx2.regexContext ctx2.charClassContext wrapEscapedStr k2 with
      | .error e => .error e
      | .ok frag =>
        let k3 := k2 + (match sub with
          | .regexp re => countCaptures re.source
          | .pat p => countCaptures p
          | _ => 0)
        match buildLoop pms flags (advanceContextOver ctx2 frag) k3 rest subs2 with
        | .error e => .error e
        | .ok t => .ok (sand ++ frag ++ t)

/-- Port of regexFromTemplate up to the compiled expression text (src lines
76-110, before the matcher object is constructed): resolve options, run the
preprocessors, build the expression, run the plugins.  Returns the compiled
expression and flags. -/
def regexCompile (flagVSupported pms : Bool) (options : RegexTagOptions)
    (raws : List (List Char)) (subs : List InterpolatedValue) :
    Except String (List Char × List Char) :=
  match getOptions flagVSupported options with
  | .error e => .error e
  | .ok opts =>
    match handlePreprocessors opts raws with
    | .error e => .error e
    | .ok raws2 =>
      match buildLoop pms opts.flags {} 0 raws2 subs with
      | .error e => .error e
      | .ok expression => .ok (handlePlugins expression opts, opts.flags)

/-- Port of rewrite (src lines 118-131): the text-only entry point.  It
refuses option subclass, then returns the processed expression and flags. -/
def rewrite (expression : List Char) (options : RegexTagOptions)
    (flagVSupported : Bool) : Except String (List Char × List Char) :=
  match getOptions flagVSupported options with
  | .error e => .error e
  | .ok opts =>
    if opts.subclass then .error "Cannot use option subclass"
    else
      match handlePreprocessors opts [expression] with
      | .error e => .error e
      | .ok raws => .ok (handlePlugins (raws.headD []) opts, opts.flags)

/-- Modelled from the spec: unmarkEmulationGroups's scan (src/unnamed/
part_000 lines 386-406) drives the regex-utilities unescaped-replacement
helper, which is not under src/.  Spec section 4.5: scan left to right,
outside character classes; at each capturing-group opening delimiter append
false and strip the marker when the marker immediately follows, else append
true.  Returns the capture-map tail and the rewritten text. -/
def unmarkScan (d : Nat) : List Char → List Bool × List Char
  | [] => ([], [])
  | '\\' :: c :: r =>
    let x := unmarkScan d r
    (x.1, '\\' :: c :: x.2)
  | ['\\'] => ([], ['\\'])
  | '(' :: '?' :: '<' :: '$' :: 'E' :: '$' :: r =>
    if d = 0 then
      let x := unmarkScan d r
      (false :: x.1, '(' :: '?' :: '<' :: x.2)
    else
      let x := unmarkScan d r
      (x.1, '(' :: '?' :: '<' :: '$' :: 'E' :: '$' :: x.2)
  | '(' :: '?' :: '<' :: c :: r =>
    if c = '=' ∨ c = '!' then
      let x := unmarkScan d ('?' :: '<' :: c :: r)
      (x.1, '(' :: x.2)
    else if d = 0 then
      let x := unmarkScan d (c :: r)
      (true :: x.1, '(' :: '?' :: '<' :: x.2)
    else
      let x := unmarkScan d (c :: r)
      (x.1, '(' :: '?' :: '<' :: x.2)
  | '(' :: '?' :: r =>
    let x := unmarkScan d ('?' :: r)
    (x.1, '(' :: x.2)
  | '(' :: '$' :: 'E' :: '$' :: r =>
    if d = 0 then
      let x := unmarkScan d r
      (false :: x.1, '(' :: x.2)
    else
      let x := unmarkScan d r
      (x.1, '(' :: '$' :: 'E' :: '$' :: x.2)
  | '(' :: r =>
    if d = 0 then
      let x := unmarkScan d r
      (true :: x.1, '(' :: x.2)
    else
      let x := unmarkScan d r
      (x.1, '(' :: x.2)
  | '[' :: r =>
    let x := unmarkScan (d + 1) r
    (x.1, '[' :: x.2)
  | ']' :: r =>
    let x := unmarkScan (d - 1) r
    (x.1, ']' :: x.2)
  | c :: r =>
    let x := unmarkScan d r
    (x.1, c :: x.2)

/-- Result of unmarkEmulationGroups. -/
structure UnmarkResult where
  expression : List Char
  captureMap : List Bool
deriving DecidableEq, Repr

/-- Port of unmarkEmulationGroups (src lines 386-406): build the capture
map, with the whole-match entry first, and strip the markers. -/
def unmarkEmulationGroups (expression : List Char) : UnmarkResult :=
  let x := unmarkScan 0 expression
  { expression := x.2, captureMap := true :: x.1 }

/-- The filtering loop of WrappedRegExp.exec (src lines 239-243): keep the
positional captures whose map entry is true; entries beyond the map are
dropped as the undefined lookup is falsy. -/
def keepMapped {α : Type} : List Bool → List α → List α
  | _, [] => []
  | [], _ :: _ => []
  | b :: bs, x :: xs => if b then x :: keepMapped bs xs else keepMapped bs xs

/-- Port of WrappedRegExp.exec's result filtering (src lines 231-245): the
whole-match entry stays, the rest is filtered by the capture map. -/
def execFilter {α : Type} (captureMap : List Bool) (m : List α) : List α :=
  match m with
  | [] => []
  | whole :: rest => whole :: keepMapped (captureMap.drop 1) rest

/-- Capturing delimiters carrying no marker (the author-declared groups),
counted by the same tokenization as the unmarking scan. -/
def umAux (d : Nat) : List Char → Nat
  | [] => 0
  | '\\' :: _ :: r => umAux d r
  | ['\\'] => 0
  | '(' :: '?' :: '<' :: '$' :: 'E' :: '$' :: r => umAux d r
  | '(' :: '?' :: '<' :: c :: r =>
    if c = '=' ∨ c = '!' then umAux d ('?' :: '<' :: c :: r)
    else if d = 0 then 1 + umAux d (c :: r)
    else umAux d (c :: r)
  | '(' :: '?' :: r => umAux d ('?' :: r)
  | '(' :: '$' :: 'E' :: '$' :: r => umAux d r
  | '(' :: r => if d = 0 then 1 + umAux d r else umAux d r
  | '[' :: r => umAux (d + 1) r
  | ']' :: r => umAux (d - 1) r
  | _ :: r => umAux d r

/-- Author-declared (unmarked) capturing groups of an expression. -/
def unmarkedCaptures (s : List Char) : Nat := umAux 0 s

/-- Marker-carrying capturing delimiters at the top level (the synthetic
groups whose markers the unmarking strips). -/
def mkAux (d : Nat) : List Char → Nat
  | [] => 0
  | '\\' :: _ :: r => mkAux d r
  | ['\\'] => 0
  | '(' :: '?' :: '<' :: '$' :: 'E' :: '$' :: r =>
    if d = 0 then 1 + mkAux d r else mkAux d r
  | '(' :: '?' :: '<' :: c :: r =>
    if c = '=' ∨ c = '!' then mkAux d ('?' :: '<' :: c :: r)
    else mkAux d (c :: r)
  | '(' :: '?' :: r => mkAux d ('?' :: r)
  | '(' :: '$' :: 'E' :: '$' :: r =>
    if d = 0 then 1 + mkAux d r else mkAux d r
  | '(' :: r => mkAux d r
  | '[' :: r => mkAux (d + 1) r
  | ']' :: r => mkAux (d - 1) r
  | _ :: r => mkAux d r

/-- Marked (synthetic) capturing groups of an expression. -/
def markedCaptures (s : List Char) : Nat := mkAux 0 s

/-- Concatenation of a template's literal segments. -/
def concatAll (ls : List (List Char)) : List Char := ls.foldr (· ++ ·) []

/-- Token-boundary-safe scan of an expression: `some e` gives the class
depth after the expression when it does not end inside an escape or inside a
group-opener prefix (so appending more text cannot change how the prefix
tokenizes for capture counting); `none` otherwise. -/
def scanDepth (d : Nat) : List Char → Option Nat
  | [] => some d
  | ['\\'] => none
  | '\\' :: _ :: r => scanDepth d r
  | ['('] => none
  | ['(', '?'] => none
  | ['(', '?', '<'] => none
  | '(' :: '?' :: '<' :: c :: r => scanDepth d (c :: r)
  | '(' :: '?' :: r => scanDepth d ('?' :: r)
  | '(' :: r => scanDepth d r
  | '[' :: r => scanDepth (d + 1) r
  | ']' :: r => scanDepth (d - 1) r
  | _ :: r => scanDepth d r

/-- Spec wording of cleanup condition (c): the separator is immediately
followed by an atomic-boundary token — a group close, an alternation bar,
the any-character dot, a class opener, a string anchor, an escape, or a
group opener not beginning the reserved DEFINE construct. -/
def SpecFollowerBoundary (r : List Char) : Prop :=
  (∃ t, r = ')' :: t) ∨ (∃ t, r = '|' :: t) ∨ (∃ t, r = '.' :: t) ∨
  (∃ t, r = '[' :: t) ∨ (∃ t, r = '$' :: t) ∨ (∃ t, r = '\\' :: t) ∨
  (∃ t, r = '(' :: t ∧ ¬ leadsWith ['D', 'E', 'F', 'I', 'N', 'E'] t = true)

/-- Spec wording of cleanup condition (d): the separator is immediately
preceded by an atomic-boundary token — a group open or close, an alternation
bar, the any-character dot, a closed character class, a caret or
a name closer, a single-character class escape, or a non-capturing or
lookaround group opener (the characters before the separator are given
reversed, nearest first). -/
def SpecPrecederBoundary (prev : List Char) : Prop :=
  (∃ c t, prev = c :: t ∧ c ∈ beforeOkChars) ∨
  (∃ c t, prev = c :: '\\' :: t ∧ c ∈ classEscapeChars) ∨
  (∃ c t, prev = c :: '?' :: '(' :: t ∧ (c = ':' ∨ c = '=' ∨ c = '!')) ∨
  (∃ c t, prev = c :: '<' :: '?' :: '(' :: t ∧ (c = '=' ∨ c = '!'))

/-- Spec wording of the full deletion condition for a lone separator, as the
claim states it: (a) start of expression and no quantifier follows, or (b)
end of expression, or (c) an atomic-boundary token follows, or (d) an
atomic-boundary token precedes and no quantifier follows — and never when
the synthetic-capture marker immediately follows. -/
def SpecDeleteCond (prev r : List Char) : Prop :=
  ((prev = [] ∧ ¬ sepQuantFollows r = true) ∨ r = [] ∨ SpecFollowerBoundary r ∨
    (SpecPrecederBoundary prev ∧ ¬ sepQuantFollows r = true)) ∧
  ¬ sepMarkerFollows r = true

/-- A run of adjacent separator tokens, for stating the collapse pass. -/
def sepRun : Nat → List Char
  | 0 => []
  | n + 1 => sepToken ++ sepRun n

/-- The continuation after a digit run: empty, or led by a non-digit. -/
def NoDigitLead (t : List Char) : Prop :=
  t = [] ∨ ∃ c t2, t = c :: t2 ∧ isDec c = false

/-- Characters that are single ordinary tokens for the capture scanners. -/
def OrdChar (c : Char) : Prop :=
  c ≠ '\\' ∧ c ≠ '(' ∧ c ≠ '[' ∧ c ≠ ']'

/-- Characters the backreference adjuster and reader pass through unchanged
in the idle state: anything but a backslash or a class bracket. -/
def PassChar (c : Char) : Prop := c ≠ '\\' ∧ c ≠ '[' ∧ c ≠ ']'

/-! ## Theorems -/

/-- The character of a digit below ten is a decimal digit. -/
theorem digitChar_isDec : ∀ d : Nat, d < 10 → isDec (digitChar d) = true := by
  intro d h
  interval_cases d <;> decide

/-- The character of a digit below ten reads back as that digit. -/
theorem digitChar_val : ∀ d : Nat, d < 10 → digitVal (digitChar d) = d := by
  intro d h
  interval_cases d <;> decide

/-- The character of a nonzero digit is a positive digit. -/
theorem digitChar_isDecPos : ∀ d : Nat, 1 ≤ d → d < 10 → isDecPos (digitChar d) = true := by
  intro d h1 h2
  interval_cases d <;> decide

/-- The decimal-rendering accumulator only prepends to the accumulator. -/
theorem natDecAux_acc : ∀ (fuel n : Nat) (acc : List Char),
    natDecAux fuel n acc = natDecAux fuel n [] ++ acc := by
  intro fuel
  induction fuel with
  | zero => intro n acc; rfl
  | succ fuel ih =>
    intro n acc
    by_cases h : n < 10
    · simp [natDecAux, h]
    · simp only [natDecAux, h, if_false]
      rw [ih (n / 10) [digitChar (n % 10)], ih (n / 10) (digitChar (n % 10) :: acc)]
      simp

/-- A decimal rendering with enough fuel is nonempty. -/
theorem natDecAux_ne_nil : ∀ (fuel n : Nat), n < fuel → natDecAux fuel n [] ≠ [] := by
  intro fuel
  induction fuel with
  | zero => intro n h; omega
  | succ fuel ih =>
    intro n h
    by_cases h10 : n < 10
    · simp [natDecAux, h10]
    · simp only [natDecAux, h10, if_false]
      rw [natDecAux_acc]
      have hlt : n / 10 < fuel := by omega
      intro hc
      rcases List.append_eq_nil.mp hc with ⟨h1, h2⟩
      exact ih (n / 10) hlt h1

/-- A decimal rendering consists of decimal digits. -/
theorem natDecAux_digits : ∀ (fuel n : Nat), n < fuel →
    ∀ c ∈ natDecAux fuel n [], isDec c = true := by
  intro fuel
  induction fuel with
  | zero => intro n h; omega
  | succ fuel ih =>
    intro n h c hc
    by_cases h10 : n < 10
    · simp [natDecAux, h10] at hc
      subst hc
      exact digitChar_isDec n h10
    · simp only [natDecAux, h10, if_false] at hc
      rw [natDecAux_acc] at hc
      have hlt : n / 10 < fuel := by omega
      rcases List.mem_append.mp hc with h1 | h1
      · exact ih (n / 10) hlt c h1
      · simp at h1
        subst h1
        exact digitChar_isDec (n % 10) (Nat.mod_lt n (by omega))

/-- Reading digit runs distributes over append. -/
theorem decExtend_append : ∀ (a b : List Char) (v : Nat),
    decExtend v (a ++ b) = decExtend (decExtend v a) b := by
  intro a b v
  simp [decExtend, List.foldl_append]

/-- Reading back a decimal rendering extends the accumulator by the
rendered value. -/
theorem natDecAux_val : ∀ (fuel n v : Nat), n < fuel →
    decExtend v (natDecAux fuel n []) = v * 10 ^ (natDecAux fuel n []).length + n := by
  intro fuel
  induction fuel with
  | zero => intro n v h; omega
  | succ fuel ih =>
    intro n v h
    by_cases h10 : n < 10
    · simp [natDecAux, h10, decExtend, digitChar_val n h10]
    · simp only [natDecAux, h10, if_false]
      rw [natDecAux_acc]
      have hlt : n / 10 < fuel := by omega
      rw [decExtend_append, ih (n / 10) v hlt]
      simp only [decExtend, List.foldl_cons, List.foldl_nil, List.length_append,
        List.length_cons, List.length_nil, Nat.zero_add, Nat.add_zero]
      rw [digitChar_val (n % 10) (Nat.mod_lt n (by omega))]
      rw [pow_succ, ← mul_assoc]
      generalize v * 10 ^ (natDecAux fuel (n / 10) []).length = A
      omega

/-- Round trip: the decimal rendering of a number reads back as it. -/
theorem natDec_val : ∀ n : Nat, decExtend 0 (natDec n) = n := by
  intro n
  have := natDecAux_val (n + 1) n 0 (by omega)
  simpa [natDec] using this

/-- A decimal rendering is nonempty. -/
theorem natDec_ne_nil : ∀ n : Nat, natDec n ≠ [] := by
  intro n
  exact natDecAux_ne_nil (n + 1) n (by omega)

/-- A decimal rendering is all digits. -/
theorem natDec_digits : ∀ (n : Nat), ∀ c ∈ natDec n, isDec c = true := by
  intro n c hc
  exact natDecAux_digits (n + 1) n (by omega) c hc

/-- A positive number's rendering starts with a nonzero digit. -/
theorem natDecAux_head_pos : ∀ (fuel n : Nat), 1 ≤ n → n < fuel →
    ∃ c ds, natDecAux fuel n [] = c :: ds ∧ isDecPos c = true := by
  intro fuel
  induction fuel with
  | zero => intro n h1 h; omega
  | succ fuel ih =>
    intro n h1 h
    by_cases h10 : n < 10
    · exact ⟨digitChar n, [], by simp [natDecAux, h10], digitChar_isDecPos n h1 h10⟩
    · have hlt : n / 10 < fuel := by omega
      have h1d : 1 ≤ n / 10 := by omega
      rcases ih (n / 10) h1d hlt with ⟨c, ds, heq, hpos⟩
      refine ⟨c, ds ++ [digitChar (n % 10)], ?_, hpos⟩
      simp only [natDecAux, h10, if_false]
      rw [natDecAux_acc, heq]
      simp

/-- A positive number's decimal rendering starts with a nonzero digit. -/
theorem natDec_head_pos : ∀ n : Nat, 1 ≤ n →
    ∃ c ds, natDec n = c :: ds ∧ isDecPos c = true := by
  intro n h
  exact natDecAux_head_pos (n + 1) n h (by omega)

/-- The flag-n preprocessor stage (modelled as the identity) leaves every
segment list unchanged. -/
theorem preprocessSegments_flagN : ∀ (raws : List (List Char)) (ctx : RunningContext),
    preprocessSegments flagNPreprocessor ctx raws = .ok raws := by
  intro raws
  induction raws with
  | nil => intro ctx; rfl
  | cons raw rest ih => intro ctx; simp [preprocessSegments, flagNPreprocessor, ih]

/-- With no substitutions, the template loop concatenates the (sandboxed)
literal segments. -/
theorem buildLoop_no_subs (pms : Bool) (flags : List Char) :
    ∀ (raws : List (List Char)) (ctx : RunningContext) (k : Nat),
    buildLoop pms flags ctx k raws [] = .ok (concatAll raws) := by
  intro raws
  induction raws with
  | nil => intro ctx k; rfl
  | cons raw rest ih =>
    intro ctx k
    cases rest with
    | nil => simp [buildLoop, sandboxUnsafeNulls, concatAll]
    | cons raw2 rest2 =>
      have step : buildLoop pms flags ctx k (raw :: raw2 :: rest2) [] =
          (match buildLoop pms flags (advanceContextOver ctx raw) (k + countCaptures raw)
              (raw2 :: rest2) [] with
           | .error e => .error e
           | .ok t => .ok (raw ++ t)) := rfl
      rw [step, ih]
      simp [concatAll]

/-- C5: a template with zero substitutions compiled with whitespace mode
disabled (disable.x) compiles to the verbatim concatenation of its literal
segments, and the cleanup stage is not part of the plugin pipeline at all,
so it makes no change. -/
theorem compile_disableX_verbatim : ∀ (fvs pms : Bool) (fl : List Char) (raws : List (List Char)),
    fl.any (fun c => c = 'n' || c = 'u' || c = 'v' || c = 'x') = false →
    regexCompile fvs pms { flags := fl, disable := { x := true } } raws [] =
      .ok (concatAll raws, fl ++ (if fvs then ['v'] else ['u'])) ∧
    (∀ o2, getOptions fvs { flags := fl, disable := { x := true } } = .ok o2 →
      cleanPluginStage ∉ pluginList o2) := by
  intro fvs pms fl raws hany
  have hsub : cleanPluginStage ≠ subroutinesPlugin := by
    intro h
    have h2 := congrFun (congrFun h sepToken) ⟨[], false⟩
    simp only [cleanPluginStage, subroutinesPlugin] at h2
    exact absurd h2 (by decide)
  have hposs : cleanPluginStage ≠ possessivePlugin := by
    intro h
    have h2 := congrFun (congrFun h sepToken) ⟨[], false⟩
    simp only [cleanPluginStage, possessivePlugin] at h2
    exact absurd h2 (by decide)
  have hatom : cleanPluginStage ≠ atomicPlugin := by
    intro h
    have h2 := congrFun (congrFun h sepToken) ⟨[], false⟩
    simp only [cleanPluginStage, atomicPlugin] at h2
    exact absurd h2 (by decide)
  have hback : cleanPluginStage ≠ backcompatPlugin := by
    intro h
    have h2 := congrFun (congrFun h sepToken) ⟨[], false⟩
    simp only [cleanPluginStage, backcompatPlugin] at h2
    exact absurd h2 (by decide)
  constructor
  · simp only [regexCompile, getOptions, hany, Bool.false_eq_true, if_false]
    simp only [handlePreprocessors, preprocessorList, handlePlugins, pluginList]
    cases fvs <;>
      simp [preprocessSegments_flagN, buildLoop_no_subs, subroutinesPlugin,
        possessivePlugin, atomicPlugin, backcompatPlugin]
  · intro o2 ho2 hmem
    simp only [getOptions, hany, Bool.false_eq_true, if_false, Except.ok.injEq] at ho2
    subst ho2
    simp only [pluginList] at hmem
    cases fvs <;> simp only [Bool.or_false, Bool.or_true] at hmem <;>
      simp_all [List.mem_append, List.mem_singleton]

/-- C5 witness: a two-character template with disable.x compiles verbatim. -/
theorem compile_disableX_verbatim_witness :
    regexCompile true true { flags := ['g'], disable := { x := true } } [['a', 'b']] [] =
      .ok (concatAll [['a', 'b']], ['g'] ++ (if true then ['v'] else ['u'])) ∧
    (∀ o2, getOptions true { flags := ['g'], disable := { x := true } } = .ok o2 →
      cleanPluginStage ∉ pluginList o2) :=
  compile_disableX_verbatim true true ['g'] [['a', 'b']] (by decide)

/-- C6: an options value whose flags contain a reserved implicit mode letter
(n, u, v or x) makes getOptions raise the option error, and the compile
entry point aborts with that error before any output, whatever the other
options, template or substitutions. -/
theorem getOptions_rejects_reserved_flags : ∀ (fvs pms : Bool) (o : RegexTagOptions)
    (raws : List (List Char)) (subs : List InterpolatedValue),
    (∃ c, c ∈ o.flags ∧ (c = 'n' ∨ c = 'u' ∨ c = 'v' ∨ c = 'x')) →
    getOptions fvs o = Except.error "Implicit flags v/u/x/n cannot be explicitly added" ∧
    regexCompile fvs pms o raws subs = Except.error "Implicit flags v/u/x/n cannot be explicitly added" := by
  intro fvs pms o raws subs h
  have hany : o.flags.any (fun c => c = 'n' || c = 'u' || c = 'v' || c = 'x') = true := by
    rcases h with ⟨c, hc, hor⟩
    refine List.any_eq_true.mpr ⟨c, hc, ?_⟩
    rcases hor with h | h | h | h <;> simp [h]
  constructor
  · simp [getOptions, hany]
  · simp [regexCompile, getOptions, hany]

/-- C6 witness: flags gi plus the reserved v letter error out. -/
theorem getOptions_rejects_reserved_flags_witness :
    getOptions true { flags := ['i', 'v'] } = Except.error "Implicit flags v/u/x/n cannot be explicitly added" ∧
    regexCompile true true { flags := ['i', 'v'] } [['a']] [] = Except.error "Implicit flags v/u/x/n cannot be explicitly added" :=
  getOptions_rejects_reserved_flags true true { flags := ['i', 'v'] } [['a']] []
    ⟨'v', by simp, Or.inr (Or.inr (Or.inl rfl))⟩

/-- C10: the text-only entry point rewrite always throws when the options
include subclass, for every expression; no expression-and-flags pair is
produced. -/
theorem rewrite_subclass_always_errors : ∀ (fvs : Bool) (e : List Char) (o : RegexTagOptions),
    o.subclass = true → ∃ msg, rewrite e o fvs = Except.error msg := by
  intro fvs e o hs
  unfold rewrite getOptions
  by_cases hany : o.flags.any (fun c => c = 'n' || c = 'u' || c = 'v' || c = 'x') = true
  · exact ⟨"Implicit flags v/u/x/n cannot be explicitly added", by simp [hany]⟩
  · exact ⟨"Cannot use option subclass", by simp [hany, hs]⟩

/-- C10 witness: rewrite of a one-character expression with subclass set. -/
theorem rewrite_subclass_always_errors_witness :
    ∃ msg, rewrite ['a'] { subclass := true } true = Except.error msg :=
  rewrite_subclass_always_errors true ['a'] { subclass := true } rfl

/-- Unfolding of removeEscapes at a non-backslash head. -/
theorem removeEscapes_cons_of_ne : ∀ (c : Char) (r : List Char), ¬ c = '\\' →
    removeEscapes (c :: r) = c :: removeEscapes r := by
  intro c r h
  cases r with
  | nil => simp [removeEscapes, h]
  | cons c2 r2 => simp [removeEscapes, h]

/-- A digit differs from every non-digit character. -/
theorem isDec_ne : ∀ (c x : Char), isDec c = true → isDec x = false → ¬ c = x := by
  intro c x h1 h2 he
  subst he
  rw [h1] at h2
  exact absurd h2 (by simp)

/-- removeEscapes is the identity on digit strings. -/
theorem removeEscapes_of_digits : ∀ (s : List Char), (∀ c ∈ s, isDec c = true) →
    removeEscapes s = s := by
  intro s h
  induction s with
  | nil => rfl
  | cons c r ih =>
    rw [removeEscapes_cons_of_ne c r (isDec_ne c '\\' (h c (by simp)) (by decide))]
    rw [ih (fun x hx => h x (by simp [hx]))]

/-- hasChar is false when the character occurs nowhere. -/
theorem hasChar_false_of_all : ∀ (s : List Char) (x : Char), (∀ c ∈ s, ¬ c = x) →
    hasChar x s = false := by
  intro s x h
  induction s with
  | nil => rfl
  | cons c r ih =>
    simp only [hasChar, Bool.or_eq_false_iff]
    exact ⟨by simpa using h c (by simp), ih (fun y hy => h y (by simp [hy]))⟩

/-- A digit string does not end with a backslash. -/
theorem endsWithBackslash_false_of_digits : ∀ (s : List Char),
    (∀ c ∈ s, isDec c = true) → endsWithBackslash s = false := by
  intro s h
  induction s with
  | nil => rfl
  | cons c r ih =>
    cases r with
    | nil =>
      have := isDec_ne c '\\' (h c (by simp)) (by decide)
      simp [endsWithBackslash, this]
    | cons c2 r2 =>
      simp only [endsWithBackslash]
      exact ih (fun x hx => h x (by simp [hx]))

/-- No unbalanced closer when the closer occurs nowhere. -/
theorem unbalancedClose_false_of_none : ∀ (s : List Char) (openC closeC : Char) (d : Nat),
    (∀ c ∈ s, ¬ c = closeC) → unbalancedClose openC closeC d s = false := by
  intro s openC closeC
  induction s with
  | nil => intro d h; rfl
  | cons c r ih =>
    intro d h
    have hc : ¬ c = closeC := h c (by simp)
    have hr := fun x hx => h x (List.mem_cons_of_mem c hx)
    by_cases ho : c = openC
    · simp [unbalancedClose, ho, hc, ih _ hr]
    · simp [unbalancedClose, ho, hc, ih _ hr]

/-- A digit string has no breakout character in any context. -/
theorem getBreakoutChar_digits : ∀ (s : List Char) (rc : RegexContext) (cc : CharClassContext),
    (∀ c ∈ s, isDec c = true) → getBreakoutChar s rc cc = none := by
  intro s rc cc h
  have hre : removeEscapes s = s := removeEscapes_of_digits s h
  have hbs : endsWithBackslash s = false := endsWithBackslash_false_of_digits s h
  have hgt : hasChar '>' s = false :=
    hasChar_false_of_all s '>' (fun c hc => isDec_ne c '>' (h c hc) (by decide))
  have hbr : hasChar '}' s = false :=
    hasChar_false_of_all s '}' (fun c hc => isDec_ne c '}' (h c hc) (by decide))
  have hsq : unbalancedClose '[' ']' 0 s = false :=
    unbalancedClose_false_of_none s '[' ']' 0 (fun c hc => isDec_ne c ']' (h c hc) (by decide))
  have hpr : unbalancedClose '(' ')' 0 s = false :=
    unbalancedClose_false_of_none s '(' ')' 0 (fun c hc => isDec_ne c ')' (h c hc) (by decide))
  cases rc <;> cases cc <;> simp [getBreakoutChar, hre, hbs, hgt, hbr, hsq, hpr]

/-- escapeV is the identity on digit strings. -/
theorem escapeV_digits : ∀ (s : List Char) (ctx : Context),
    (∀ c ∈ s, isDec c = true) → escapeV s ctx = s := by
  intro s ctx h
  induction s with
  | nil => cases ctx <;> rfl
  | cons c r ih =>
    have hc := h c (by simp)
    have hr := ih (fun x hx => h x (by simp [hx]))
    have h1 : ¬ (c ∈ escapeVDefaultSet) := by
      intro hm
      fin_cases hm <;> exact absurd hc (by decide)
    have h2 : ¬ (c ∈ escapeVClassSet) := by
      intro hm
      fin_cases hm <;> exact absurd hc (by decide)
    cases ctx <;> simp only [escapeV, List.flatMap_cons] at hr ⊢ <;>
      simp [h1, h2] <;> simpa [escapeV] using hr

/-- C9: a number substitution renders as decimal digits, except at a
code-point-escape (enclosed-u) position where it renders as lowercase
hexadecimal digits; 65 renders as the text 41 there, and the end-to-end
template with segments caret-backslash-u-brace and brace-colon around the
substitution 65 compiles to the caret, the code-point escape of 41, and the
colon. -/
theorem interpolate_number_rendering : ∀ (pms : Bool) (fl : List Char) (w : Bool) (k n : Nat)
    (cc : CharClassContext),
    (cc ≠ .INVALID_INCOMPLETE_TOKEN →
      interpolate pms (.num n) fl .ENCLOSED_U cc w k = .ok (natHex n)) ∧
    interpolate pms (.num n) fl .CHAR_CLASS .ENCLOSED_U w k = .ok (natHex n) ∧
    interpolate pms (.num n) fl .INTERVAL_QUANTIFIER .DEFAULT w k = .ok (natDec n) ∧
    interpolate pms (.num n) fl .GROUP_NAME .DEFAULT w k = .ok (natDec n) ∧
    natHex 65 = ['4', '1'] ∧
    regexCompile true true {} [['^', '\\', 'u', '{'], ['}', ':']] [.num 65] =
      .ok (['^', '\\', 'u', '{', '4', '1', '}', ':'], ['v']) := by
  intro pms fl w k n cc
  have hesc : escapeV (natDec n) Context.DEFAULT = natDec n :=
    escapeV_digits (natDec n) Context.DEFAULT (natDec_digits n)
  have hne := natDec_ne_nil n
  refine ⟨?_, ?_, ?_, ?_, by decide, by rfl⟩
  · intro hcc
    simp [interpolate, isRegexpV, isNumV, numOf, hcc]
  · simp [interpolate, isRegexpV, isNumV, numOf]
  · simp [interpolate, isRegexpV, isNumV, isPatV, strOfValue, numOf, hesc, hne,
      getBreakoutChar_digits (natDec n) _ _ (natDec_digits n)]
  · simp [interpolate, isRegexpV, isNumV, isPatV, strOfValue, numOf, hesc, hne,
      getBreakoutChar_digits (natDec n) _ _ (natDec_digits n)]

/-- escapeV of a nonempty string is nonempty. -/
theorem escapeV_ne_nil : ∀ (s : List Char) (ctx : Context), s ≠ [] → escapeV s ctx ≠ [] := by
  intro s ctx h
  cases s with
  | nil => exact absurd rfl h
  | cons c r =>
    cases ctx <;> simp only [escapeV, List.flatMap_cons] <;> split <;> simp

/-- A native regex interpolated anywhere but the default context errors. -/
theorem interpolate_regexp_nondefault : ∀ (pms : Bool) (fl : List Char) (w : Bool) (k : Nat)
    (rc : RegexContext) (cc : CharClassContext) (re : NativeRegex), rc ≠ .DEFAULT →
    interpolate pms (.regexp re) fl rc cc w k =
      .error "Cannot interpolate a RegExp at this position because the syntax context does not match" := by
  intro pms fl w k rc cc re h
  simp [interpolate, isRegexpV, h]

/-- A trusted pattern at a restricted position is spliced verbatim when it
has no breakout character. -/
theorem interpolate_pat_enclosed : ∀ (pms : Bool) (fl : List Char) (w : Bool) (k : Nat)
    (rc : RegexContext) (cc : CharClassContext) (p : List Char),
    rc ≠ .INVALID_INCOMPLETE_TOKEN → cc ≠ .INVALID_INCOMPLETE_TOKEN →
    (rc = .INTERVAL_QUANTIFIER ∨ rc = .GROUP_NAME ∨ rc = .ENCLOSED_TOKEN ∨ rc = .ENCLOSED_U ∨
      cc = .ENCLOSED_TOKEN ∨ cc = .ENCLOSED_U ∨ cc = .Q_TOKEN) →
    getBreakoutChar p rc cc = none →
    interpolate pms (.pat p) fl rc cc w k = .ok p := by
  intro pms fl w k rc cc p h1 h2 henc hbk
  simp [interpolate, isRegexpV, isPatV, isNumV, strOfValue, h1, h2, henc, hbk]

/-- Plain text at a restricted position is escaped and spliced when the
escaped text has no breakout character. -/
theorem interpolate_str_enclosed : ∀ (pms : Bool) (fl : List Char) (w : Bool) (k : Nat)
    (rc : RegexContext) (cc : CharClassContext) (s : List Char),
    rc ≠ .INVALID_INCOMPLETE_TOKEN → cc ≠ .INVALID_INCOMPLETE_TOKEN →
    (rc = .INTERVAL_QUANTIFIER ∨ rc = .GROUP_NAME ∨ rc = .ENCLOSED_TOKEN ∨ rc = .ENCLOSED_U ∨
      cc = .ENCLOSED_TOKEN ∨ cc = .ENCLOSED_U ∨ cc = .Q_TOKEN) →
    getBreakoutChar (escapeV s (if rc = .CHAR_CLASS then .CHAR_CLASS else .DEFAULT)) rc cc = none →
    interpolate pms (.str s) fl rc cc w k =
      .ok (escapeV s (if rc = .CHAR_CLASS then .CHAR_CLASS else .DEFAULT)) := by
  intro pms fl w k rc cc s h1 h2 henc hbk
  by_cases hs : s = []
  · subst hs
    have hb0 : getBreakoutChar [] rc cc = none :=
      getBreakoutChar_digits [] rc cc (by simp)
    by_cases hrc : rc = RegexContext.CHAR_CLASS
    · subst hrc
      have hcd : cc = CharClassContext.ENCLOSED_TOKEN ∨ cc = CharClassContext.ENCLOSED_U ∨
          cc = CharClassContext.Q_TOKEN := by
        rcases henc with h | h | h | h | h | h | h <;>
          first
            | exact absurd h (by decide)
            | exact Or.inl h
            | exact Or.inr (Or.inl h)
            | exact Or.inr (Or.inr h)
      simp [interpolate, isRegexpV, isPatV, isNumV, strOfValue, escapeV, h1, h2, hcd, hb0]
    · simp [interpolate, isRegexpV, isPatV, isNumV, strOfValue, escapeV, h1, h2, henc, hb0, hrc]
  · have hnn := escapeV_ne_nil s
      (if rc = RegexContext.CHAR_CLASS then Context.CHAR_CLASS else Context.DEFAULT) hs
    simp [interpolate, isRegexpV, isPatV, isNumV, strOfValue, h1, h2, henc, hbk, hnn]

/-- A number at a restricted position renders as digits (hex only at an
enclosed-u position). -/
theorem interpolate_num_enclosed : ∀ (fl : List Char) (pms w : Bool) (k n : Nat)
    (rc : RegexContext) (cc : CharClassContext),
    rc ≠ .INVALID_INCOMPLETE_TOKEN → cc ≠ .INVALID_INCOMPLETE_TOKEN →
    (rc = .INTERVAL_QUANTIFIER ∨ rc = .GROUP_NAME ∨ rc = .ENCLOSED_TOKEN ∨ rc = .ENCLOSED_U ∨
      cc = .ENCLOSED_TOKEN ∨ cc = .ENCLOSED_U ∨ cc = .Q_TOKEN) →
    interpolate pms (.num n) fl rc cc w k =
      .ok (if rc = .ENCLOSED_U ∨ cc = .ENCLOSED_U then natHex n else natDec n) := by
  intro fl pms w k n rc cc h1 h2 henc
  by_cases hu : (rc = RegexContext.ENCLOSED_U ∨ cc = CharClassContext.ENCLOSED_U)
  · simp [interpolate, isRegexpV, isNumV, numOf, hu, h1, h2]
  · have hcu : ¬ cc = CharClassContext.ENCLOSED_U := fun h => hu (Or.inr h)
    have hdec : ∀ ctx, escapeV (natDec n) ctx = natDec n :=
      fun ctx => escapeV_digits (natDec n) ctx (natDec_digits n)
    have hne := natDec_ne_nil n
    have hbkd : getBreakoutChar (natDec n) rc cc = none :=
      getBreakoutChar_digits (natDec n) rc cc (natDec_digits n)
    by_cases hrc : rc = RegexContext.CHAR_CLASS
    · subst hrc
      have hcd : cc = CharClassContext.ENCLOSED_TOKEN ∨ cc = CharClassContext.ENCLOSED_U ∨
          cc = CharClassContext.Q_TOKEN := by
        rcases henc with h | h | h | h | h | h | h <;>
          first
            | exact absurd h (by decide)
            | exact Or.inl h
            | exact Or.inr (Or.inl h)
            | exact Or.inr (Or.inr h)
      simp only [interpolate, isRegexpV, isPatV, isNumV, numOf, strOfValue]
      rcases hcd with h | h | h <;> subst h <;> simp [h1, h2, hcu, hdec, hne, hbkd]
    · have hru : ¬ rc = RegexContext.ENCLOSED_U := fun h => hu (Or.inl h)
      have henc2 : rc = RegexContext.INTERVAL_QUANTIFIER ∨ rc = RegexContext.GROUP_NAME ∨
          rc = RegexContext.ENCLOSED_TOKEN ∨ rc = RegexContext.ENCLOSED_U ∨
          cc = CharClassContext.ENCLOSED_TOKEN ∨ cc = CharClassContext.Q_TOKEN := by
        rcases henc with h | h | h | h | h | h | h <;> tauto
      simp [interpolate, isRegexpV, isPatV, isNumV, numOf, strOfValue, h1, h2, henc2, hu, hcu,
        hru, hdec, hne, hbkd, hrc]
      intro hq1 hq2 hq3 hq4 hq5 _
      rcases henc2 with h | h | h | h | h | h <;>
        first
          | exact absurd h hq1
          | exact absurd h hq2
          | exact absurd h hq3
          | exact absurd h hru
          | exact absurd h hq4
          | exact absurd h hq5

/-- C3 (amended): at interval-quantifier, group-name and enclosed-token
positions, a native regex raises the interpolation error; a trusted pattern
is accepted and spliced verbatim (given no breakout character), and plain
text and numbers are accepted, escaped or digit-rendered. -/
theorem interpolate_enclosed_value_kinds : ∀ (pms : Bool) (fl : List Char) (w : Bool) (k : Nat)
    (rc : RegexContext) (cc : CharClassContext),
    ((rc = .INTERVAL_QUANTIFIER ∨ rc = .GROUP_NAME ∨ rc = .ENCLOSED_TOKEN ∨ rc = .ENCLOSED_U) ∧
        cc ≠ .INVALID_INCOMPLETE_TOKEN) ∨
      (rc = .CHAR_CLASS ∧ (cc = .ENCLOSED_TOKEN ∨ cc = .ENCLOSED_U ∨ cc = .Q_TOKEN)) →
    (∀ re, interpolate pms (.regexp re) fl rc cc w k =
        .error "Cannot interpolate a RegExp at this position because the syntax context does not match") ∧
    (∀ p, getBreakoutChar p rc cc = none →
        interpolate pms (.pat p) fl rc cc w k = .ok p) ∧
    (∀ s, getBreakoutChar (escapeV s (if rc = .CHAR_CLASS then .CHAR_CLASS else .DEFAULT)) rc cc = none →
        interpolate pms (.str s) fl rc cc w k =
          .ok (escapeV s (if rc = .CHAR_CLASS then .CHAR_CLASS else .DEFAULT))) ∧
    (∀ n, interpolate pms (.num n) fl rc cc w k =
        .ok (if rc = .ENCLOSED_U ∨ cc = .ENCLOSED_U then natHex n else natDec n)) := by
  intro pms fl w k rc cc h
  have hfacts : rc ≠ .DEFAULT ∧ rc ≠ .INVALID_INCOMPLETE_TOKEN ∧ cc ≠ .INVALID_INCOMPLETE_TOKEN ∧
      (rc = .INTERVAL_QUANTIFIER ∨ rc = .GROUP_NAME ∨ rc = .ENCLOSED_TOKEN ∨ rc = .ENCLOSED_U ∨
        cc = .ENCLOSED_TOKEN ∨ cc = .ENCLOSED_U ∨ cc = .Q_TOKEN) := by
    rcases h with ⟨hA, hcc⟩ | ⟨hB, hcc3⟩
    · refine ⟨?_, ?_, hcc, ?_⟩ <;> rcases hA with h | h | h | h <;> subst h <;>
        first | decide | simp
    · subst hB
      refine ⟨by decide, by decide, ?_, ?_⟩ <;> rcases hcc3 with h | h | h <;> subst h <;>
        decide
  obtain ⟨hd, h1, h2, henc⟩ := hfacts
  exact ⟨fun re => interpolate_regexp_nondefault pms fl w k rc cc re hd,
    fun p hbk => interpolate_pat_enclosed pms fl w k rc cc p h1 h2 henc hbk,
    fun s hbk => interpolate_str_enclosed pms fl w k rc cc s h1 h2 henc hbk,
    fun n => interpolate_num_enclosed fl pms w k n rc cc h1 h2 henc⟩

/-- C3 witness: the amended claim at a group-name position. -/
theorem interpolate_enclosed_value_kinds_witness :
    (∀ re, interpolate true (.regexp re) [] .GROUP_NAME .DEFAULT false 0 =
        .error "Cannot interpolate a RegExp at this position because the syntax context does not match") ∧
    (∀ p, getBreakoutChar p .GROUP_NAME .DEFAULT = none →
        interpolate true (.pat p) [] .GROUP_NAME .DEFAULT false 0 = .ok p) ∧
    (∀ s, getBreakoutChar (escapeV s (if RegexContext.GROUP_NAME = RegexContext.CHAR_CLASS then Context.CHAR_CLASS else Context.DEFAULT)) .GROUP_NAME .DEFAULT = none →
        interpolate true (.str s) [] .GROUP_NAME .DEFAULT false 0 =
          .ok (escapeV s (if RegexContext.GROUP_NAME = RegexContext.CHAR_CLASS then Context.CHAR_CLASS else Context.DEFAULT))) ∧
    (∀ n, interpolate true (.num n) [] .GROUP_NAME .DEFAULT false 0 =
        .ok (if RegexContext.GROUP_NAME = RegexContext.ENCLOSED_U ∨ CharClassContext.DEFAULT = CharClassContext.ENCLOSED_U then natHex n else natDec n)) :=
  interpolate_enclosed_value_kinds true [] false 0 .GROUP_NAME .DEFAULT
    (Or.inl ⟨Or.inr (Or.inl rfl), by decide⟩)

/-- C3 counterexample: a trusted pattern interpolated at an
interval-quantifier position is accepted verbatim, not rejected. -/
theorem interpolate_pattern_interval_ok :
    interpolate true (.pat ['1']) [] .INTERVAL_QUANTIFIER .DEFAULT false 0 = .ok ['1'] := rfl


/-- The flag-x preprocessor errors on a hyphen token whenever the context is
a character class and the last significant char-class context was RANGE
(src/src/flag-x.js lines 73-81). -/
theorem flagX_range_hyphen_rule : ∀ (st : FlagXState),
    st.ignoringComment = false →
    (advanceContext st.runningContext ['-']).regexContext = .CHAR_CLASS →
    st.lastSignificantCharClassContext = .RANGE →
    flagXStep st ['-'] = .error "Invalid unescaped hyphen as the end value for a range" := by
  intro st hic hrc hrange
  have hws : wsTok ['-'] = false := by decide
  have hccws : ccWsTok ['-'] = false := by decide
  by_cases hiw : st.ignoringWs = true
  · simp [flagXStep, flagXMain, hic, hiw, hws, hccws, hrc, hrange]
  · by_cases hicw : st.ignoringCharClassWs = true
    · simp [flagXStep, flagXMain, hic, hiw, hicw, hws, hccws, hrc, hrange]
    · simp [flagXStep, flagXMain, hic, hiw, hicw, hws, hccws, hrc, hrange]

/-- A concrete state in which the hyphen rule fires. -/
theorem flagX_range_hyphen_rule_instance :
    flagXStep
      { lastSignificantCharClassContext := .RANGE,
        runningContext :=
          { regexContext := .CHAR_CLASS, charClassContext := .RANGE, charClassDepth := 1 } }
      ['-'] = .error "Invalid unescaped hyphen as the end value for a range" :=
  flagX_range_hyphen_rule
    { lastSignificantCharClassContext := .RANGE,
      runningContext :=
        { regexContext := .CHAR_CLASS, charClassContext := .RANGE, charClassDepth := 1 } }
    rfl rfl rfl

/-- C7 (amended): the preprocessor raises the syntax error on an unescaped
hyphen exactly when the preceding significant char-class context was RANGE,
that is, after a range-start hyphen with only whitespace between (as in the
class a, hyphen, space, hyphen, z); a plain range a-z is processed without
error. -/
theorem flagX_hyphen_after_range_errors_and_plain_range_ok :
    (∀ (st : FlagXState),
      st.ignoringComment = false →
      (advanceContext st.runningContext ['-']).regexContext = .CHAR_CLASS →
      st.lastSignificantCharClassContext = .RANGE →
      flagXStep st ['-'] = .error "Invalid unescaped hyphen as the end value for a range") ∧
    flagXPreprocessor ['[', 'a', '-', ' ', '-', 'z', ']'] {} =
      .error "Invalid unescaped hyphen as the end value for a range" ∧
    flagXPreprocessor ['[', 'a', '-', 'z', ']'] {} = .ok (['[', 'a', '-', 'z', ']'], {}) :=
  ⟨flagX_range_hyphen_rule, by rfl, by rfl⟩

/-- C7 counterexample: the class a, space, b, space, hyphen, space, z (the
claimed error shape: an atom, stripped whitespace, then a hyphen) is
accepted without error, producing the class a b-z densified. -/
theorem flagX_spaced_hyphen_no_error :
    flagXPreprocessor ['[', 'a', ' ', 'b', ' ', '-', ' ', 'z', ']'] {} =
      .ok (['[', 'a', 'b', '-', 'z', ']'], {}) := rfl

/-- No trailing backslash when no backslash occurs at all. -/
theorem endsWithBackslash_false_of_no_bs : ∀ (s : List Char),
    (∀ c ∈ s, ¬ c = '\\') → endsWithBackslash s = false := by
  intro s h
  induction s with
  | nil => rfl
  | cons c r ih =>
    cases r with
    | nil =>
      have := h c (by simp)
      simp [endsWithBackslash, this]
    | cons c2 r2 =>
      simp only [endsWithBackslash]
      exact ih (fun x hx => h x (by simp [hx]))

/-- After class-safe escaping, every character that survives escape-pair
removal is outside the class-escape set. -/
theorem mem_removeEscapes_escapeVCC : ∀ (s : List Char) (c : Char),
    c ∈ removeEscapes (escapeV s .CHAR_CLASS) → ¬ (c ∈ escapeVClassSet) := by
  intro s
  induction s with
  | nil => intro c hc; simp [escapeV, removeEscapes] at hc
  | cons a r ih =>
    intro c hc
    have hcons : escapeV (a :: r) .CHAR_CLASS =
        (if decide (a ∈ escapeVClassSet) = true then ['\\', a] else [a]) ++
          escapeV r .CHAR_CLASS := by
      simp [escapeV]
    rw [hcons] at hc
    by_cases ha : a ∈ escapeVClassSet
    · rw [show (if decide (a ∈ escapeVClassSet) = true then ['\\', a] else [a]) = ['\\', a]
        from by simp [ha]] at hc
      rw [List.cons_append, List.cons_append, List.nil_append] at hc
      have hskip : removeEscapes ('\\' :: a :: (escapeV r .CHAR_CLASS)) =
          removeEscapes (escapeV r .CHAR_CLASS) := rfl
      rw [hskip] at hc
      exact ih c hc
    · have hane : ¬ a = '\\' := by
        intro he
        subst he
        exact ha (by decide)
      rw [show (if decide (a ∈ escapeVClassSet) = true then ['\\', a] else [a]) = [a]
        from by simp [ha]] at hc
      rw [List.cons_append, List.nil_append] at hc
      rw [removeEscapes_cons_of_ne a _ hane] at hc
      rcases List.mem_cons.mp hc with h1 | h1
      · subst h1; exact ha
      · exact ih c h1

/-- Class-safe escaped text has no breakout character at a class position. -/
theorem getBreakoutChar_escapeVCC : ∀ (s : List Char),
    getBreakoutChar (escapeV s .CHAR_CLASS) .CHAR_CLASS .DEFAULT = none := by
  intro s
  have hnb : ∀ c ∈ removeEscapes (escapeV s .CHAR_CLASS), ¬ c = '\\' := by
    intro c hc he
    subst he
    exact mem_removeEscapes_escapeVCC s '\\' hc (by decide)
  have hnc : ∀ c ∈ removeEscapes (escapeV s .CHAR_CLASS), ¬ c = ']' := by
    intro c hc he
    subst he
    exact mem_removeEscapes_escapeVCC s ']' hc (by decide)
  simp [getBreakoutChar, endsWithBackslash_false_of_no_bs _ hnb,
    unbalancedClose_false_of_none _ '[' ']' 0 hnc]

/-- A single character is one class element, never a union. -/
theorem containsCharClassUnion_single : ∀ c : Char, containsCharClassUnion [c] = false := by
  intro c
  by_cases hc : c = '\\'
  · subst hc; decide
  · simp [containsCharClassUnion, ccuAux, hc]

/-- Plain text at a character-class position: escaped for class safety and
wrapped in a nested class exactly when the escaped text parses as more than
one class element. -/
theorem interpolate_ccStr : ∀ (pms : Bool) (fl : List Char) (w : Bool) (k : Nat) (s : List Char),
    interpolate pms (.str s) fl .CHAR_CLASS .DEFAULT w k =
      .ok (if containsCharClassUnion (escapeV s .CHAR_CLASS) then
        ('[' :: escapeV s .CHAR_CLASS) ++ [']'] else escapeV s .CHAR_CLASS) := by
  intro pms fl w k s
  by_cases hs : s = []
  · subst hs
    have hb0 : getBreakoutChar [] RegexContext.CHAR_CLASS CharClassContext.DEFAULT = none :=
      getBreakoutChar_digits [] _ _ (by simp)
    simp [interpolate, isRegexpV, isPatV, isNumV, strOfValue, escapeV, hb0]
  · have hnn := escapeV_ne_nil s Context.CHAR_CLASS hs
    simp [interpolate, isRegexpV, isPatV, isNumV, strOfValue, hnn, getBreakoutChar_escapeVCC s]

/-- A trusted pattern at a character-class position (no boundary operator,
no breakout): wrapped in a nested class exactly when the raw value parses
as more than one class element, else spliced with only edge sandboxing. -/
theorem interpolate_ccPat : ∀ (pms : Bool) (fl : List Char) (w : Bool) (k : Nat) (p : List Char),
    hasBoundaryOperator p = false →
    getBreakoutChar p .CHAR_CLASS .DEFAULT = none →
    interpolate pms (.pat p) fl .CHAR_CLASS .DEFAULT w k =
      .ok (if containsCharClassUnion p then
        ('[' :: sandboxLoneCharClassCaret (sandboxLoneDoublePunctuatorChar p)) ++ [']']
        else sandboxLoneCharClassCaret (sandboxLoneDoublePunctuatorChar p)) := by
  intro pms fl w k p hb hbk
  simp [interpolate, isRegexpV, isPatV, isNumV, strOfValue, hb, hbk, sandboxUnsafeNulls]

/-- C8: at a character-class position, plain text is escaped for class
safety and the fragment is wrapped in a nested class exactly when the
escaped (plain text) or raw (trusted pattern) content parses as more than
one class element; single-element content is emitted without the wrapper.
The value a-bar-b wraps as a nested class with the bar escaped; single
characters and the range a-z stay bare. -/
theorem interpolate_char_class_atomize : ∀ (pms : Bool) (fl : List Char) (w : Bool) (k : Nat),
    (∀ s, interpolate pms (.str s) fl .CHAR_CLASS .DEFAULT w k =
      .ok (if containsCharClassUnion (escapeV s .CHAR_CLASS) then
        ('[' :: escapeV s .CHAR_CLASS) ++ [']'] else escapeV s .CHAR_CLASS)) ∧
    (∀ p, hasBoundaryOperator p = false →
      getBreakoutChar p .CHAR_CLASS .DEFAULT = none →
      interpolate pms (.pat p) fl .CHAR_CLASS .DEFAULT w k =
        .ok (if containsCharClassUnion p then
          ('[' :: sandboxLoneCharClassCaret (sandboxLoneDoublePunctuatorChar p)) ++ [']']
          else sandboxLoneCharClassCaret (sandboxLoneDoublePunctuatorChar p))) ∧
    (∀ c : Char, containsCharClassUnion [c] = false) ∧
    interpolate pms (.str ['a', '|', 'b']) fl .CHAR_CLASS .DEFAULT w k =
      .ok ['[', 'a', '\\', '|', 'b', ']'] ∧
    interpolate pms (.str ['a']) fl .CHAR_CLASS .DEFAULT w k = .ok ['a'] ∧
    interpolate pms (.pat ['a', '-', 'z']) fl .CHAR_CLASS .DEFAULT w k = .ok ['a', '-', 'z'] := by
  intro pms fl w k
  refine ⟨interpolate_ccStr pms fl w k, interpolate_ccPat pms fl w k,
    containsCharClassUnion_single, ?_, ?_, ?_⟩
  · rw [interpolate_ccStr]
    rfl
  · rw [interpolate_ccStr]
    rfl
  · rw [interpolate_ccPat pms fl w k ['a', '-', 'z'] (by decide) (by decide)]
    rfl

theorem leadsWith_iff : ∀ (p s : List Char), leadsWith p s = true ↔ ∃ t, s = p ++ t := by
  intro p
  induction p with
  | nil => intro s; simp [leadsWith]
  | cons a ps ih =>
    intro s
    cases s with
    | nil => simp [leadsWith]
    | cons c cs =>
      simp only [leadsWith, Bool.and_eq_true, decide_eq_true_eq, ih, List.cons_append,
        List.cons.injEq]
      constructor
      · rintro ⟨rfl, t, rfl⟩
        exact ⟨t, rfl, rfl⟩
      · rintro ⟨t, rfl, rfl⟩
        exact ⟨rfl, t, rfl⟩

theorem swallowSeps_length : ∀ s : List Char, (swallowSeps s).length ≤ s.length := by
  intro s
  induction s using swallowSeps.induct with
  | case1 r ih =>
    calc (swallowSeps ('(' :: '?' :: ':' :: ')' :: r)).length = (swallowSeps r).length := by
          rw [swallowSeps]
      _ ≤ r.length := ih
      _ ≤ ('(' :: '?' :: ':' :: ')' :: r).length := by simp; omega
  | case2 r h =>
    rw [swallowSeps]
    · exact h

theorem swallowSeps_not_sep : ∀ s : List Char, ¬ leadsWith sepToken s = true → swallowSeps s = s := by
  intro s h
  cases s with
  | nil => rfl
  | cons c r =>
    by_cases hc : c = '('
    · subst hc
      cases r with
      | nil => rfl
      | cons c2 r2 =>
        by_cases h2 : c2 = '?'
        · subst h2
          cases r2 with
          | nil => rfl
          | cons c3 r3 =>
            by_cases h3 : c3 = ':'
            · subst h3
              cases r3 with
              | nil => rfl
              | cons c4 r4 =>
                by_cases h4 : c4 = ')'
                · subst h4
                  exact absurd (by simp [leadsWith, sepToken]) h
                · simp [swallowSeps, h4]
            · simp [swallowSeps, h3]
        · simp [swallowSeps, h2]
    · simp [swallowSeps, hc]

theorem collapseRuns_succ (fuel d : Nat) (s : List Char) :
    collapseRuns (fuel + 1) d s =
      match s with
      | [] => []
      | '(' :: '?' :: ':' :: ')' :: r =>
        if d = 0 then sepToken ++ collapseRuns fuel d (swallowSeps r)
        else sepToken ++ collapseRuns fuel d r
      | '\\' :: c :: r => '\\' :: c :: collapseRuns fuel d r
      | ['\\'] => ['\\']
      | '[' :: r => '[' :: collapseRuns fuel (d + 1) r
      | ']' :: r => ']' :: collapseRuns fuel (d - 1) r
      | c :: r => c :: collapseRuns fuel d r := rfl

theorem collapseRuns_cons (fuel d : Nat) (c : Char) (r : List Char)
    (h1 : ¬ (c = '(' ∧ leadsWith ['?', ':', ')'] r = true))
    (h2 : c ≠ '\\') (h3 : c ≠ '[') (h4 : c ≠ ']') :
    collapseRuns (fuel + 1) d (c :: r) = c :: collapseRuns fuel d r := by
  rw [collapseRuns_succ]
  split
  · simp_all
  · rename_i r' heq
    rw [List.cons.injEq] at heq
    exact absurd ⟨heq.1, by rw [heq.2]; simp [leadsWith]⟩ h1
  · rename_i c' r' heq
    rw [List.cons.injEq] at heq
    exact absurd heq.1 h2
  · rename_i heq
    rw [List.cons.injEq] at heq
    exact absurd heq.1 h2
  · rename_i r' heq
    rw [List.cons.injEq] at heq
    exact absurd heq.1 h3
  · rename_i r' heq
    rw [List.cons.injEq] at heq
    exact absurd heq.1 h4
  · rename_i c' r' hn1 hn2 hn3 hn4 hn5 heq
    rw [List.cons.injEq] at heq
    rw [heq.1, heq.2]

theorem collapseRuns_fuel : ∀ (f1 d : Nat) (s : List Char) (f2 : Nat),
    s.length < f1 → s.length < f2 → collapseRuns f1 d s = collapseRuns f2 d s := by
  intro f1 d s
  induction f1, d, s using collapseRuns.induct with
  | case1 d acc =>
    intro f2 h1 h2
    omega
  | case2 fuel n =>
    intro f2 h1 h2
    obtain ⟨g, rfl⟩ : ∃ g, f2 = g + 1 := ⟨f2 - 1, by omega⟩
    rfl
  | case3 fuel r ih =>
    intro f2 h1 h2
    obtain ⟨g, rfl⟩ : ∃ g, f2 = g + 1 := ⟨f2 - 1, by omega⟩
    simp only [List.length_cons] at h1 h2
    have hle := swallowSeps_length r
    have stepL : collapseRuns (fuel + 1) 0 ('(' :: '?' :: ':' :: ')' :: r) =
        sepToken ++ collapseRuns fuel 0 (swallowSeps r) := rfl
    have stepR : collapseRuns (g + 1) 0 ('(' :: '?' :: ':' :: ')' :: r) =
        sepToken ++ collapseRuns g 0 (swallowSeps r) := rfl
    rw [stepL, stepR, ih g (by omega) (by omega)]
  | case4 fuel n r h ih =>
    intro f2 h1 h2
    obtain ⟨g, rfl⟩ : ∃ g, f2 = g + 1 := ⟨f2 - 1, by omega⟩
    simp only [List.length_cons] at h1 h2
    rw [collapseRuns_succ fuel, collapseRuns_succ g]
    simp only [if_neg h]
    rw [ih g (by omega) (by omega)]
  | case5 fuel n c r ih =>
    intro f2 h1 h2
    obtain ⟨g, rfl⟩ : ∃ g, f2 = g + 1 := ⟨f2 - 1, by omega⟩
    simp only [List.length_cons] at h1 h2
    have stepL : collapseRuns (fuel + 1) n ('\\' :: c :: r) =
        '\\' :: c :: collapseRuns fuel n r := rfl
    have stepR : collapseRuns (g + 1) n ('\\' :: c :: r) =
        '\\' :: c :: collapseRuns g n r := rfl
    rw [stepL, stepR, ih g (by omega) (by omega)]
  | case6 fuel n =>
    intro f2 h1 h2
    obtain ⟨g, rfl⟩ : ∃ g, f2 = g + 1 := ⟨f2 - 1, by omega⟩
    rfl
  | case7 fuel n r ih =>
    intro f2 h1 h2
    obtain ⟨g, rfl⟩ : ∃ g, f2 = g + 1 := ⟨f2 - 1, by omega⟩
    simp only [List.length_cons] at h1 h2
    have stepL : collapseRuns (fuel + 1) n ('[' :: r) = '[' :: collapseRuns fuel (n + 1) r := rfl
    have stepR : collapseRuns (g + 1) n ('[' :: r) = '[' :: collapseRuns g (n + 1) r := rfl
    rw [stepL, stepR, ih g (by omega) (by omega)]
  | case8 fuel n r ih =>
    intro f2 h1 h2
    obtain ⟨g, rfl⟩ : ∃ g, f2 = g + 1 := ⟨f2 - 1, by omega⟩
    simp only [List.length_cons] at h1 h2
    have stepL : collapseRuns (fuel + 1) n (']' :: r) = ']' :: collapseRuns fuel (n - 1) r := rfl
    have stepR : collapseRuns (g + 1) n (']' :: r) = ']' :: collapseRuns g (n - 1) r := rfl
    rw [stepL, stepR, ih g (by omega) (by omega)]
  | case9 fuel n c r hsep hbs1 hbs2 hbr hbk ih =>
    intro f2 h1 h2
    obtain ⟨g, rfl⟩ : ∃ g, f2 = g + 1 := ⟨f2 - 1, by omega⟩
    simp only [List.length_cons] at h1 h2
    have hc1 : ¬ (c = '(' ∧ leadsWith ['?', ':', ')'] r = true) := by
      rintro ⟨hc, hl⟩
      obtain ⟨t, ht⟩ := (leadsWith_iff _ _).1 hl
      exact hsep t hc (by simpa using ht)
    have hc2 : c ≠ '\\' := by
      intro hc
      cases r with
      | nil => exact hbs2 hc rfl
      | cons a as => exact hbs1 a as hc rfl
    rw [collapseRuns_cons fuel n c r hc1 hc2 hbr hbk,
      collapseRuns_cons g n c r hc1 hc2 hbr hbk, ih g (by omega) (by omega)]


theorem sepRun_length : ∀ k : Nat, (sepRun k).length = 4 * k := by
  intro k
  induction k with
  | zero => rfl
  | succ n ih => simp [sepRun, sepToken, ih]; omega

theorem swallowSeps_sepRun : ∀ (k : Nat) (r : List Char),
    ¬ leadsWith sepToken r = true → swallowSeps (sepRun k ++ r) = r := by
  intro k
  induction k with
  | zero =>
    intro r h
    simpa [sepRun] using swallowSeps_not_sep r h
  | succ n ih =>
    intro r h
    have hshape : sepRun (n + 1) ++ r = '(' :: '?' :: ':' :: ')' :: (sepRun n ++ r) := by
      simp [sepRun, sepToken]
    rw [hshape]
    have step : swallowSeps ('(' :: '?' :: ':' :: ')' :: (sepRun n ++ r)) =
        swallowSeps (sepRun n ++ r) := rfl
    rw [step, ih r h]

theorem collapseRuns_run : ∀ (k : Nat) (r : List Char), ¬ leadsWith sepToken r = true →
    collapseRuns ((sepRun (k + 1) ++ r).length + 1) 0 (sepRun (k + 1) ++ r) =
      sepToken ++ collapseRuns (r.length + 1) 0 r := by
  intro k r h
  have hshape : sepRun (k + 1) ++ r = '(' :: '?' :: ':' :: ')' :: (sepRun k ++ r) := by
    simp [sepRun, sepToken]
  rw [hshape]
  have hlen : ('(' :: '?' :: ':' :: ')' :: (sepRun k ++ r)).length =
      (sepRun k ++ r).length + 4 := by simp
  rw [hlen]
  have step : collapseRuns ((sepRun k ++ r).length + 4 + 1) 0
      ('(' :: '?' :: ':' :: ')' :: (sepRun k ++ r)) =
      sepToken ++ collapseRuns ((sepRun k ++ r).length + 4) 0 (swallowSeps (sepRun k ++ r)) := rfl
  rw [step, swallowSeps_sepRun k r h]
  have hb : r.length ≤ (sepRun k ++ r).length := by simp
  rw [collapseRuns_fuel ((sepRun k ++ r).length + 4) 0 r (r.length + 1) (by omega) (by omega)]


theorem sepAfterOk_cons (c : Char) (t : List Char) (hc : c ≠ '(') :
    sepAfterOk (c :: t) = decide (c ∈ afterOkChars) := by
  rw [show sepAfterOk (c :: t) =
      (match c :: t with
       | [] => true
       | '(' :: u => !leadsWith ['D', 'E', 'F', 'I', 'N', 'E'] u
       | a :: _ => decide (a ∈ afterOkChars)) from rfl]
  split
  · simp_all
  · rename_i u heq
    rw [List.cons.injEq] at heq
    exact absurd heq.1 hc
  · rename_i a u hne heq
    rw [List.cons.injEq] at heq
    rw [heq.1]

theorem sepAfterOk_iff : ∀ r : List Char,
    sepAfterOk r = true ↔ (r = [] ∨ SpecFollowerBoundary r) := by
  intro r
  cases r with
  | nil => simp [sepAfterOk, SpecFollowerBoundary]
  | cons c t =>
    by_cases hc : c = '('
    · subst hc
      rw [show sepAfterOk ('(' :: t) = !leadsWith ['D', 'E', 'F', 'I', 'N', 'E'] t from rfl]
      simp [SpecFollowerBoundary]
    · rw [sepAfterOk_cons c t hc]
      simp [SpecFollowerBoundary, afterOkChars, hc]


theorem sepBeforeOk_cons (c : Char) (t : List Char) :
    sepBeforeOk (c :: t) =
      (decide (c ∈ beforeOkChars) || (leadsWith ['\\'] t && decide (c ∈ classEscapeChars)) ||
       ((c = ':' || c = '=' || c = '!') && leadsWith ['?', '('] t) ||
       ((c = '=' || c = '!') && leadsWith ['<', '?', '('] t)) := by
  cases t with
  | nil => rfl
  | cons a as =>
    by_cases ha : a = '\\'
    · subst ha
      rfl
    · rw [show sepBeforeOk (c :: a :: as) =
          (decide (c ∈ beforeOkChars) ||
            ((match a :: as with | '\\' :: _ => true | _ => false) &&
              decide (c ∈ classEscapeChars)) ||
            ((c = ':' || c = '=' || c = '!') && leadsWith ['?', '('] (a :: as)) ||
            ((c = '=' || c = '!') && leadsWith ['<', '?', '('] (a :: as))) from rfl]
      have hm : (match a :: as with | '\\' :: _ => true | _ => false) = false := by
        split
        · rename_i heq
          simp_all
        · rfl
      have hl : leadsWith ['\\'] (a :: as) = false := by
        simp [leadsWith]
        exact fun h => ha h.symm
      rw [hm, hl]

theorem sepBeforeOk_iff : ∀ prev : List Char,
    sepBeforeOk prev = true ↔ (prev = [] ∨ SpecPrecederBoundary prev) := by
  intro prev
  cases prev with
  | nil => simp [sepBeforeOk, SpecPrecederBoundary]
  | cons c t =>
    rw [sepBeforeOk_cons]
    simp only [Bool.or_eq_true, Bool.and_eq_true, decide_eq_true_eq, leadsWith_iff,
      SpecPrecederBoundary, List.cons.injEq, List.cons_append, List.nil_append,
      List.cons_ne_nil, false_or]
    constructor
    · rintro (((hb | ⟨⟨u, rfl⟩, he⟩) | ⟨hq, u, rfl⟩) | ⟨hq, u, rfl⟩)
      · exact Or.inl ⟨c, t, ⟨rfl, rfl⟩, hb⟩
      · exact Or.inr (Or.inl ⟨c, u, ⟨rfl, rfl⟩, he⟩)
      · exact Or.inr (Or.inr (Or.inl ⟨c, u, ⟨rfl, rfl⟩, by tauto⟩))
      · exact Or.inr (Or.inr (Or.inr ⟨c, u, ⟨rfl, rfl⟩, by tauto⟩))
    · rintro (⟨c2, t2, ⟨rfl, rfl⟩, hb⟩ | ⟨c2, t2, ⟨rfl, rfl⟩, he⟩ |
        ⟨c2, t2, ⟨rfl, rfl⟩, hq⟩ | ⟨c2, t2, ⟨rfl, rfl⟩, hq⟩)
      · exact Or.inl (Or.inl (Or.inl hb))
      · exact Or.inl (Or.inl (Or.inr ⟨⟨t2, rfl⟩, he⟩))
      · exact Or.inl (Or.inr ⟨by tauto, t2, rfl⟩)
      · exact Or.inr ⟨by tauto, t2, rfl⟩


theorem sepDeletable_iff : ∀ prev r : List Char,
    sepDeletable prev r = true ↔ SpecDeleteCond prev r := by
  intro prev r
  rw [show sepDeletable prev r =
      ((sepAfterOk r || (sepBeforeOk prev && !sepQuantFollows r)) && !sepMarkerFollows r)
      from rfl]
  simp only [Bool.and_eq_true, Bool.or_eq_true, Bool.not_eq_eq_eq_not, Bool.not_true,
    sepAfterOk_iff, sepBeforeOk_iff, SpecDeleteCond, Bool.not_eq_true]
  constructor
  · rintro ⟨(hr | ⟨hp, hq⟩), hm⟩
    · exact ⟨by tauto, by simp [hm]⟩
    · rcases hp with rfl | hp
      · exact ⟨Or.inl ⟨rfl, by simp [hq]⟩, by simp [hm]⟩
      · exact ⟨Or.inr (Or.inr (Or.inr ⟨hp, by simp [hq]⟩)), by simp [hm]⟩
  · rintro ⟨(⟨rfl, hq⟩ | hr | hf | ⟨hp, hq⟩), hm⟩
    · exact ⟨Or.inr ⟨Or.inl rfl, by simpa using hq⟩, by simpa using hm⟩
    · exact ⟨Or.inl (Or.inl hr), by simpa using hm⟩
    · exact ⟨Or.inl (Or.inr hf), by simpa using hm⟩
    · exact ⟨Or.inr ⟨Or.inr hp, by simpa using hq⟩, by simpa using hm⟩

theorem deleteSeps_sep_step : ∀ (prev : List Char) (d : Nat) (r : List Char),
    deleteSeps prev d (sepToken ++ r) =
      if sepDeletable prev r = true ∧ d = 0 then
        deleteSeps (')' :: ':' :: '?' :: '(' :: prev) d r
      else sepToken ++ deleteSeps (')' :: ':' :: '?' :: '(' :: prev) d r := by
  intro prev d r
  have step : deleteSeps prev d (sepToken ++ r) =
      if sepDeletable prev r then
        (if d = 0 then deleteSeps (')' :: ':' :: '?' :: '(' :: prev) d r
         else sepToken ++ deleteSeps (')' :: ':' :: '?' :: '(' :: prev) d r)
      else '(' :: deleteSeps ('(' :: prev) d ('?' :: ':' :: ')' :: r) := rfl
  have chain : deleteSeps ('(' :: prev) d ('?' :: ':' :: ')' :: r) =
      '?' :: ':' :: ')' :: deleteSeps (')' :: ':' :: '?' :: '(' :: prev) d r := rfl
  rw [step, chain]
  by_cases hdel : sepDeletable prev r = true
  · by_cases hd : d = 0
    · simp [hdel, hd]
    · simp [hdel, hd, sepToken]
  · simp [hdel, sepToken]

/-- C4: the cleanup plugin first collapses each run of adjacent zero-width
separators outside character classes into a single separator, then walks the
text deleting a lone separator exactly when the deletion condition holds;
that condition is equivalent to the spec's boundary conditions (a)-(d) — start
of expression with no following quantifier, end of expression, a fixed
atomic-boundary token following, or a fixed atomic-boundary token preceding
with no following quantifier — and it never fires when the synthetic
emulation-group marker immediately follows the separator, so such a
separator is always kept. -/
theorem cleanPlugin_boundary_conditions :
    (∀ e : List Char, cleanPlugin e = deleteSeps [] 0 (collapseRuns (e.length + 1) 0 e)) ∧
    (∀ (k : Nat) (r : List Char), ¬ leadsWith sepToken r = true →
      collapseRuns ((sepRun (k + 1) ++ r).length + 1) 0 (sepRun (k + 1) ++ r) =
        sepToken ++ collapseRuns (r.length + 1) 0 r) ∧
    (∀ prev r : List Char, sepDeletable prev r = true ↔ SpecDeleteCond prev r) ∧
    (∀ (prev : List Char) (d : Nat) (r : List Char),
      deleteSeps prev d (sepToken ++ r) =
        if sepDeletable prev r = true ∧ d = 0 then
          deleteSeps (')' :: ':' :: '?' :: '(' :: prev) d r
        else sepToken ++ deleteSeps (')' :: ':' :: '?' :: '(' :: prev) d r) ∧
    (∀ (prev : List Char) (d : Nat) (r : List Char),
      leadsWith emulationGroupMarker r = true →
      deleteSeps prev d (sepToken ++ r) =
        sepToken ++ deleteSeps (')' :: ':' :: '?' :: '(' :: prev) d r) := by
  refine ⟨fun e => rfl, collapseRuns_run, sepDeletable_iff, deleteSeps_sep_step, ?_⟩
  intro prev d r hm
  rw [deleteSeps_sep_step prev d r]
  have hdel : sepDeletable prev r = false := by
    rw [show sepDeletable prev r =
        ((sepAfterOk r || (sepBeforeOk prev && !sepQuantFollows r)) && !sepMarkerFollows r)
        from rfl]
    rw [show sepMarkerFollows r = leadsWith emulationGroupMarker r from rfl, hm]
    simp
  simp [hdel]

set_option maxHeartbeats 1600000 in
theorem unmark_len : ∀ (d : Nat) (s : List Char),
    (unmarkScan d s).1.length = ccAux d s := by
  intro d s
  induction d, s using unmarkScan.induct
  case case6 =>
    rename_i d c r hm h ih
    rcases h with rfl | rfl <;> simp_all [unmarkScan, ccAux]
  all_goals simp_all [unmarkScan, ccAux]
  all_goals omega

set_option maxHeartbeats 1600000 in
theorem unmark_trues : ∀ (d : Nat) (s : List Char),
    (unmarkScan d s).1.count true = umAux d s := by
  intro d s
  induction d, s using unmarkScan.induct
  case case6 =>
    rename_i d c r hm h ih
    rcases h with rfl | rfl <;> simp_all [unmarkScan, umAux]
  all_goals simp_all [unmarkScan, umAux]
  all_goals omega

set_option maxHeartbeats 1600000 in
theorem unmark_strip : ∀ (d : Nat) (s : List Char),
    (unmarkScan d s).2.length + 3 * mkAux d s = s.length := by
  intro d s
  induction d, s using unmarkScan.induct
  case case6 =>
    rename_i d c r hm h ih
    rcases h with rfl | rfl <;> simp_all [unmarkScan, mkAux] <;> omega
  all_goals simp_all [unmarkScan, mkAux]
  all_goals omega

theorem keepMapped_length {α : Type} : ∀ (bs : List Bool) (xs : List α),
    bs.length = xs.length → (keepMapped bs xs).length = bs.count true := by
  intro bs
  induction bs with
  | nil =>
    intro xs h
    cases xs with
    | nil => rfl
    | cons x xs => simp at h
  | cons b bs ih =>
    intro xs h
    cases xs with
    | nil => simp at h
    | cons x xs =>
      simp only [List.length_cons, Nat.add_right_cancel_iff] at h
      cases b with
      | true => simp [keepMapped, ih xs h, List.count_cons]
      | false => simp [keepMapped, ih xs h, List.count_cons]

/-- C1: with emulation mode on, unmarkEmulationGroups builds the capture map
from a left-to-right scan — entry 0 is true for the whole match, the map has
one entry per capturing-group opening delimiter (1 + total capture count),
the true entries are exactly the whole match plus the author-declared
(unmarked) groups, and stripping the three-character markers accounts for
the whole length change — and WrappedRegExp.exec's filter keeps the whole
match plus the true-mapped captures, so a full positional result is cut to
1 + the number of author-declared capturing groups. -/
theorem unmark_capture_map_exec_filter :
    (∀ e : List Char,
      (unmarkEmulationGroups e).captureMap.headD false = true ∧
      (unmarkEmulationGroups e).captureMap.length = 1 + countCaptures e ∧
      (unmarkEmulationGroups e).captureMap.count true = 1 + unmarkedCaptures e ∧
      (unmarkEmulationGroups e).expression.length + 3 * markedCaptures e = e.length) ∧
    (∀ (α : Type) (whole : α) (rest : List α) (e : List Char),
      rest.length = countCaptures e →
      (execFilter (unmarkEmulationGroups e).captureMap (whole :: rest)).length =
        1 + unmarkedCaptures e) := by
  constructor
  · intro e
    refine ⟨rfl, ?_, ?_, ?_⟩
    · show (true :: (unmarkScan 0 e).1).length = 1 + countCaptures e
      rw [List.length_cons, unmark_len 0 e]
      show ccAux 0 e + 1 = 1 + ccAux 0 e
      omega
    · show (true :: (unmarkScan 0 e).1).count true = 1 + unmarkedCaptures e
      rw [List.count_cons, unmark_trues 0 e]
      simp [unmarkedCaptures]
      omega
    · exact unmark_strip 0 e
  · intro α whole rest e hlen
    show (whole :: keepMapped ((true :: (unmarkScan 0 e).1).drop 1) rest).length =
      1 + unmarkedCaptures e
    rw [List.drop_one, List.tail_cons, List.length_cons,
      keepMapped_length (unmarkScan 0 e).1 rest (by rw [unmark_len 0 e]; exact hlen.symm),
      unmark_trues 0 e]
    show umAux 0 e + 1 = 1 + umAux 0 e
    omega

theorem isDec_of_isDecPos : ∀ c : Char, isDecPos c = true → isDec c = true := by
  intro c h
  simp only [isDecPos, isDec, Bool.and_eq_true, decide_eq_true_eq] at *
  obtain ⟨h1, h2⟩ := h
  exact ⟨le_trans (by decide) h1, h2⟩

theorem digitVal_pos : ∀ c : Char, isDecPos c = true → 1 ≤ digitVal c := by
  intro c h
  simp only [isDecPos, Bool.and_eq_true, decide_eq_true_eq, Char.le_def] at h
  obtain ⟨h1, h2⟩ := h
  have h1n : ('1' : Char).val.toNat ≤ c.val.toNat := h1
  have e1 : ('1' : Char).val.toNat = 49 := by decide
  simp only [digitVal, Char.toNat]
  omega

theorem decExtend_pos : ∀ (ds : List Char) (v : Nat), 1 ≤ v → 1 ≤ decExtend v ds := by
  intro ds
  induction ds with
  | nil => intro v h; simpa [decExtend] using h
  | cons c cs ih =>
    intro v h
    have : decExtend v (c :: cs) = decExtend (v * 10 + digitVal c) cs := rfl
    rw [this]
    exact ih _ (by omega)


theorem brAux_some_step : ∀ (t : List Char) (acc : Nat), NoDigitLead t →
    brAux 0 (some acc) t = acc :: brAux 0 none t := by
  intro t acc ht
  rcases ht with rfl | ⟨c, t2, rfl, hc⟩
  · rfl
  · by_cases hbs : c = '\\'
    · subst hbs
      cases t2 with
      | nil => rfl
      | cons c2 r =>
        by_cases hp : isDecPos c2
        · simp [brAux, hp]
        · simp [brAux, hp]
    · by_cases hbr : c = '['
      · subst hbr
        simp [brAux, hc]
      · by_cases hbk : c = ']'
        · subst hbk
          simp [brAux, hc]
        · simp [brAux, hc, hbs, hbr, hbk]

theorem brAux_drun : ∀ (ds : List Char), (∀ c ∈ ds, isDec c = true) →
    ∀ (t : List Char) (acc : Nat), NoDigitLead t →
    brAux 0 (some acc) (ds ++ t) = decExtend acc ds :: brAux 0 none t := by
  intro ds
  induction ds with
  | nil =>
    intro hd t acc ht
    simpa [decExtend] using brAux_some_step t acc ht
  | cons c cs ih =>
    intro hd t acc ht
    have hc : isDec c = true := hd c (by simp)
    have hbs : ¬ c = '\\' := isDec_ne c '\\' hc (by decide)
    have step : brAux 0 (some acc) ((c :: cs) ++ t) =
        brAux 0 (some (acc * 10 + digitVal c)) (cs ++ t) := by
      simp [brAux, hbs, hc]
    rw [step, ih (fun x hx => hd x (by simp [hx])) t _ ht]
    rfl

theorem brAux_flush : ∀ (v : Nat) (t : List Char), 1 ≤ v → NoDigitLead t →
    brAux 0 none ('\\' :: (natDec v ++ t)) = v :: brAux 0 none t := by
  intro v t hv ht
  obtain ⟨c, ds, heq, hpos⟩ := natDec_head_pos v hv
  rw [heq]
  have step : brAux 0 none ('\\' :: c :: (ds ++ t)) =
      brAux 0 (some (digitVal c)) (ds ++ t) := by
    simp [brAux, hpos]
  rw [List.cons_append, step,
    brAux_drun ds (fun x hx => natDec_digits v x (by rw [heq]; simp [hx])) t _ ht]
  have : decExtend (digitVal c) ds = v := by
    have h0 : decExtend 0 (c :: ds) = v := by rw [← heq]; exact natDec_val v
    simpa [decExtend] using h0
  rw [this]


theorem adjAux_some_bs : ∀ (r : List Char) (k d v : Nat),
    ∃ t, adjAux k d (some v) r = '\\' :: t := by
  intro r
  induction r with
  | nil => intro k d v; exact ⟨natDec (v + k), rfl⟩
  | cons c r ih =>
    intro k d v
    by_cases hbs : c = '\\'
    · subst hbs
      cases r with
      | nil => exact ⟨natDec (v + k) ++ ['\\'], rfl⟩
      | cons c2 r2 =>
        by_cases hp : d = 0 ∧ isDecPos c2 = true
        · exact ⟨natDec (v + k) ++ adjAux k d (some (digitVal c2)) r2, by simp [adjAux, hp]⟩
        · exact ⟨natDec (v + k) ++ '\\' :: c2 :: adjAux k d none r2, by simp [adjAux, hp]⟩
    · by_cases hdec : isDec c = true
      · obtain ⟨t, ht⟩ := ih k d (v * 10 + digitVal c)
        exact ⟨t, by simp [adjAux, hbs, hdec]; exact ht⟩
      · exact ⟨natDec (v + k) ++ c :: adjAux k (newDepth c d) none r,
          by simp [adjAux, hbs, hdec]⟩

theorem adjAux_drun : ∀ (r : List Char) (k v : Nat),
    ∃ ds t, (∀ c ∈ ds, isDec c = true) ∧ r = ds ++ t ∧ NoDigitLead t ∧
      adjAux k 0 (some v) r = '\\' :: (natDec (decExtend v ds + k) ++ adjAux k 0 none t) := by
  intro r
  induction r with
  | nil =>
    intro k v
    exact ⟨[], [], by simp, rfl, Or.inl rfl, by simp [adjAux, decExtend]⟩
  | cons c r ih =>
    intro k v
    by_cases hdec : isDec c = true
    · have hbs : ¬ c = '\\' := isDec_ne c '\\' hdec (by decide)
      obtain ⟨ds, t, hd, heq, hnd, hadj⟩ := ih k (v * 10 + digitVal c)
      refine ⟨c :: ds, t, ?_, by simp [heq], hnd, ?_⟩
      · intro x hx
        rcases List.mem_cons.mp hx with rfl | hx
        · exact hdec
        · exact hd x hx
      · have step : adjAux k 0 (some v) (c :: r) =
            adjAux k 0 (some (v * 10 + digitVal c)) r := by
          simp [adjAux, hbs, hdec]
        rw [step, hadj]
        rfl
    · refine ⟨[], c :: r, by simp, rfl, Or.inr ⟨c, r, rfl, by simpa using hdec⟩, ?_⟩
      by_cases hbs : c = '\\'
      · subst hbs
        cases r with
        | nil => simp [adjAux, decExtend]
        | cons c2 r2 =>
          by_cases hp : isDecPos c2 = true
          · simp [adjAux, hp, decExtend]
          · simp [adjAux, hp, decExtend]
      · simp [adjAux, hbs, hdec, decExtend]

theorem adjAux_none_head : ∀ (c : Char) (r : List Char) (k d : Nat),
    ∃ t, adjAux k d none (c :: r) = c :: t := by
  intro c r k d
  by_cases hbs : c = '\\'
  · subst hbs
    cases r with
    | nil => exact ⟨[], rfl⟩
    | cons c2 r2 =>
      by_cases hp : d = 0 ∧ isDecPos c2 = true
      · obtain ⟨hd0, hdp⟩ := hp
        subst hd0
        obtain ⟨t, ht⟩ := adjAux_some_bs r2 k 0 (digitVal c2)
        exact ⟨t, by simp [adjAux, hdp]; exact ht⟩
      · exact ⟨c2 :: adjAux k d none r2, by simp [adjAux, hp]⟩
  · exact ⟨adjAux k (newDepth c d) none r, by simp [adjAux, hbs]⟩


theorem adj_br_lockstep : ∀ (n : Nat) (s : List Char), s.length ≤ n → ∀ (k d : Nat),
    brAux d none (adjAux k d none s) = (brAux d none s).map (· + k) := by
  intro n
  induction n with
  | zero =>
    intro s hlen k d
    have : s = [] := List.eq_nil_of_length_eq_zero (by omega)
    subst this
    rfl
  | succ n ih =>
    intro s hlen k d
    cases s with
    | nil => rfl
    | cons c r =>
      by_cases hbs : c = '\\'
      · subst hbs
        cases r with
        | nil => rfl
        | cons c2 r2 =>
          simp only [List.length_cons] at hlen
          by_cases hp : d = 0 ∧ isDecPos c2 = true
          · obtain ⟨hd0, hdp⟩ := hp
            subst hd0
            have stepA : adjAux k 0 none ('\\' :: c2 :: r2) =
                adjAux k 0 (some (digitVal c2)) r2 := by
              simp [adjAux, hdp]
            obtain ⟨ds, t, hd, heq, hnd, hadj⟩ := adjAux_drun r2 k (digitVal c2)
            have hw : 1 ≤ decExtend (digitVal c2) ds :=
              decExtend_pos ds _ (digitVal_pos c2 hdp)
            have hndout : NoDigitLead (adjAux k 0 none t) := by
              rcases hnd with rfl | ⟨c3, t3, rfl, hc3⟩
              · exact Or.inl rfl
              · obtain ⟨t4, ht4⟩ := adjAux_none_head c3 t3 k 0
                exact Or.inr ⟨c3, t4, ht4, hc3⟩
            have stepB : brAux 0 none ('\\' :: c2 :: r2) =
                brAux 0 (some (digitVal c2)) r2 := by
              simp [brAux, hdp]
            rw [stepA, hadj, brAux_flush _ _ (by omega) hndout, stepB, heq,
              brAux_drun ds hd t _ hnd]
            have htlen : t.length ≤ n := by
              have : r2.length = ds.length + t.length := by rw [heq]; simp
              omega
            rw [ih t htlen k 0]
            rfl
          · have stepA : adjAux k d none ('\\' :: c2 :: r2) =
                '\\' :: c2 :: adjAux k d none r2 := by
              simp [adjAux, hp]
            have stepB : ∀ X, brAux d none ('\\' :: c2 :: X) = brAux d none X := by
              intro X
              simp [brAux, hp]
            rw [stepA, stepB, stepB, ih r2 (by omega) k d]
      · simp only [List.length_cons] at hlen
        have stepA : adjAux k d none (c :: r) =
            c :: adjAux k (newDepth c d) none r := by
          simp [adjAux, hbs]
        have stepB : ∀ X, brAux d none (c :: X) = brAux (newDepth c d) none X := by
          intro X
          by_cases hbr : c = '['
          · subst hbr
            simp [brAux, newDepth]
          · by_cases hbk : c = ']'
            · subst hbk
              simp [brAux, newDepth]
            · simp [brAux, newDepth, hbs, hbr, hbk]
        rw [stepA, stepB, stepB, ih r (by omega) k (newDepth c d)]


theorem ccAux_consOther (d : Nat) (c : Char) (r : List Char)
    (h1 : c ≠ '\\') (h2 : c ≠ '(') (h3 : c ≠ '[') (h4 : c ≠ ']') :
    ccAux d (c :: r) = ccAux d r := by
  conv_lhs => rw [ccAux.eq_def]
  split
  all_goals first | rfl | simp_all

theorem ccAux_parenQ (d : Nat) (r : List Char)
    (h2 : ∀ c t, ¬ r = '<' :: c :: t) :
    ccAux d ('(' :: '?' :: r) = ccAux d ('?' :: r) := by
  cases r with
  | nil => rfl
  | cons a as =>
    by_cases ha : a = '<'
    · subst ha
      cases as with
      | nil => rfl
      | cons b bs => exact absurd rfl (h2 b bs)
    · simp [ccAux, ha]

theorem ccAux_parenOther (d : Nat) (r : List Char)
    (h1 : ∀ t, ¬ r = '?' :: t) :
    ccAux d ('(' :: r) = if d = 0 then 1 + ccAux d r else ccAux d r := by
  cases r with
  | nil => rfl
  | cons a as =>
    by_cases ha : a = '?'
    · subst ha
      exact absurd rfl (h1 as)
    · simp [ccAux, ha]

theorem ccAux_named (d : Nat) (c : Char) (r : List Char) :
    ccAux d ('(' :: '?' :: '<' :: c :: r) =
      if d = 0 && c ≠ '=' && c ≠ '!' then 1 + ccAux d (c :: r)
      else ccAux d ('?' :: '<' :: c :: r) := rfl

theorem scanDepth_consOther (d : Nat) (c : Char) (r : List Char)
    (h1 : c ≠ '\\') (h2 : c ≠ '(') (h3 : c ≠ '[') (h4 : c ≠ ']') :
    scanDepth d (c :: r) = scanDepth d r := by
  conv_lhs => rw [scanDepth.eq_def]
  split
  all_goals first | rfl | simp_all

theorem scanDepth_parenQ (d : Nat) (c2 : Char) (r2 : List Char) (h : c2 ≠ '<') :
    scanDepth d ('(' :: '?' :: c2 :: r2) = scanDepth d ('?' :: c2 :: r2) := by
  simp [scanDepth, h]

theorem scanDepth_parenOther (d : Nat) (c1 : Char) (r1 : List Char) (h : c1 ≠ '?') :
    scanDepth d ('(' :: c1 :: r1) = scanDepth d (c1 :: r1) := by
  simp [scanDepth, h]

theorem scanDepth_named (d : Nat) (c : Char) (r : List Char) :
    scanDepth d ('(' :: '?' :: '<' :: c :: r) = scanDepth d (c :: r) := rfl


theorem ordChar_of_isDec : ∀ c : Char, isDec c = true → OrdChar c := by
  intro c h
  exact ⟨isDec_ne c '\\' h (by decide), isDec_ne c '(' h (by decide),
    isDec_ne c '[' h (by decide), isDec_ne c ']' h (by decide)⟩

theorem ccAux_prefix_ord : ∀ (P : List Char), (∀ c ∈ P, OrdChar c) →
    ∀ (X : List Char) (d : Nat), ccAux d (P ++ X) = ccAux d X := by
  intro P
  induction P with
  | nil => intro h X d; rfl
  | cons c P ih =>
    intro h X d
    obtain ⟨h1, h2, h3, h4⟩ := h c (by simp)
    rw [List.cons_append, ccAux_consOther d c _ h1 h2 h3 h4,
      ih (fun x hx => h x (by simp [hx])) X d]

theorem scanDepth_prefix_ord : ∀ (P : List Char), (∀ c ∈ P, OrdChar c) →
    ∀ (X : List Char) (d : Nat), scanDepth d (P ++ X) = scanDepth d X := by
  intro P
  induction P with
  | nil => intro h X d; rfl
  | cons c P ih =>
    intro h X d
    obtain ⟨h1, h2, h3, h4⟩ := h c (by simp)
    rw [List.cons_append, scanDepth_consOther d c _ h1 h2 h3 h4,
      ih (fun x hx => h x (by simp [hx])) X d]


set_option maxHeartbeats 1600000 in
theorem adj_cc_sd_lockstep : ∀ (n : Nat) (s : List Char), s.length ≤ n → ∀ (k d : Nat),
    ccAux d (adjAux k d none s) = ccAux d s ∧
    scanDepth d (adjAux k d none s) = scanDepth d s := by
  intro n
  induction n with
  | zero =>
    intro s hlen k d
    have : s = [] := List.eq_nil_of_length_eq_zero (by omega)
    subst this
    exact ⟨rfl, rfl⟩
  | succ n ih =>
    intro s hlen k d
    cases s with
    | nil => exact ⟨rfl, rfl⟩
    | cons c r =>
      simp only [List.length_cons] at hlen
      by_cases hbs : c = '\\'
      · subst hbs
        cases r with
        | nil => exact ⟨rfl, rfl⟩
        | cons c2 r2 =>
          simp only [List.length_cons] at hlen
          by_cases hp : d = 0 ∧ isDecPos c2 = true
          · obtain ⟨hd0, hdp⟩ := hp
            subst hd0
            have stepA : adjAux k 0 none ('\\' :: c2 :: r2) =
                adjAux k 0 (some (digitVal c2)) r2 := by
              simp [adjAux, hdp]
            obtain ⟨ds, t, hd, heq, hnd, hadj⟩ := adjAux_drun r2 k (digitVal c2)
            have hw : 1 ≤ decExtend (digitVal c2) ds + k := by
              have := decExtend_pos ds _ (digitVal_pos c2 hdp)
              omega
            obtain ⟨c0, ds0, hnat, hpos0⟩ := natDec_head_pos _ hw
            have hds0 : ∀ x ∈ ds0, OrdChar x := by
              intro x hx
              exact ordChar_of_isDec x (natDec_digits _ x (by rw [hnat]; simp [hx]))
            have hds : ∀ x ∈ ds, OrdChar x := fun x hx => ordChar_of_isDec x (hd x hx)
            have htlen : t.length ≤ n := by
              have : r2.length = ds.length + t.length := by rw [heq]; simp
              omega
            rw [stepA, hadj, hnat]
            constructor
            · have e1 : ccAux 0 ('\\' :: ((c0 :: ds0) ++ adjAux k 0 none t)) =
                  ccAux 0 (ds0 ++ adjAux k 0 none t) := rfl
              rw [e1, ccAux_prefix_ord ds0 hds0, (ih t htlen k 0).1]
              have e2 : ccAux 0 ('\\' :: c2 :: r2) = ccAux 0 r2 := rfl
              rw [e2, heq, ccAux_prefix_ord ds hds]
            · have e1 : scanDepth 0 ('\\' :: ((c0 :: ds0) ++ adjAux k 0 none t)) =
                  scanDepth 0 (ds0 ++ adjAux k 0 none t) := rfl
              rw [e1, scanDepth_prefix_ord ds0 hds0, (ih t htlen k 0).2]
              have e2 : scanDepth 0 ('\\' :: c2 :: r2) = scanDepth 0 r2 := rfl
              rw [e2, heq, scanDepth_prefix_ord ds hds]
          · have stepA : adjAux k d none ('\\' :: c2 :: r2) =
                '\\' :: c2 :: adjAux k d none r2 := by
              simp [adjAux, hp]
            have ecc : ∀ X, ccAux d ('\\' :: c2 :: X) = ccAux d X := fun X => rfl
            have esd : ∀ X, scanDepth d ('\\' :: c2 :: X) = scanDepth d X := fun X => rfl
            rw [stepA]
            exact ⟨by rw [ecc, ecc, (ih r2 (by omega) k d).1],
              by rw [esd, esd, (ih r2 (by omega) k d).2]⟩
      · by_cases hop : c = '('
        · subst hop
          cases r with
          | nil => exact ⟨rfl, rfl⟩
          | cons c1 r1 =>
            simp only [List.length_cons] at hlen
            by_cases hq : c1 = '?'
            · subst hq
              cases r1 with
              | nil => exact ⟨rfl, rfl⟩
              | cons c2 r2 =>
                simp only [List.length_cons] at hlen
                by_cases hlt : c2 = '<'
                · subst hlt
                  cases r2 with
                  | nil => exact ⟨rfl, rfl⟩
                  | cons c3 r3 =>
                    simp only [List.length_cons] at hlen
                    have stepA : adjAux k d none ('(' :: '?' :: '<' :: c3 :: r3) =
                        '(' :: '?' :: '<' :: adjAux k d none (c3 :: r3) := rfl
                    obtain ⟨t, ht⟩ := adjAux_none_head c3 r3 k d
                    have ihc := ih (c3 :: r3) (by simp; omega) k d
                    rw [stepA, ht]
                    constructor
                    · rw [ccAux_named, ccAux_named]
                      have eq2 : ∀ X, ccAux d ('?' :: '<' :: X) = ccAux d X :=
                        fun X => rfl
                      split
                      · rw [← ht, ihc.1]
                      · rw [eq2, eq2, ← ht, ihc.1]
                    · rw [scanDepth_named, scanDepth_named, ← ht, ihc.2]
                · have stepA : adjAux k d none ('(' :: '?' :: c2 :: r2) =
                      '(' :: '?' :: adjAux k d none (c2 :: r2) := rfl
                  obtain ⟨t, ht⟩ := adjAux_none_head c2 r2 k d
                  have ihc := ih (c2 :: r2) (by simp; omega) k d
                  rw [stepA, ht]
                  have hnl : ∀ (x : Char) (t2 : List Char), ¬ c2 :: t = '<' :: x :: t2 := by
                    intro x t2 hcon
                    rw [List.cons.injEq] at hcon
                    exact hlt hcon.1
                  have hnr : ∀ (x : Char) (t2 : List Char), ¬ c2 :: r2 = '<' :: x :: t2 := by
                    intro x t2 hcon
                    rw [List.cons.injEq] at hcon
                    exact hlt hcon.1
                  constructor
                  · rw [ccAux_parenQ d _ hnl, ccAux_parenQ d _ hnr]
                    have eq2 : ∀ X, ccAux d ('?' :: X) = ccAux d X := fun X => rfl
                    rw [eq2, eq2, ← ht, ihc.1]
                  · rw [scanDepth_parenQ d c2 t hlt, scanDepth_parenQ d c2 r2 hlt]
                    have eq2 : ∀ X, scanDepth d ('?' :: X) = scanDepth d X := fun X => rfl
                    rw [eq2, eq2, ← ht, ihc.2]
            · have stepA : adjAux k d none ('(' :: c1 :: r1) =
                  '(' :: adjAux k d none (c1 :: r1) := rfl
              obtain ⟨t, ht⟩ := adjAux_none_head c1 r1 k d
              have ihc := ih (c1 :: r1) (by simp; omega) k d
              rw [stepA, ht]
              have hnl : ∀ t2, ¬ c1 :: t = '?' :: t2 := by
                intro t2 hcon
                rw [List.cons.injEq] at hcon
                exact hq hcon.1
              have hnr : ∀ t2, ¬ c1 :: r1 = '?' :: t2 := by
                intro t2 hcon
                rw [List.cons.injEq] at hcon
                exact hq hcon.1
              constructor
              · rw [ccAux_parenOther d _ hnl, ccAux_parenOther d _ hnr, ← ht, ihc.1]
              · rw [scanDepth_parenOther d c1 t hq, scanDepth_parenOther d c1 r1 hq,
                  ← ht, ihc.2]
        · have stepA : adjAux k d none (c :: r) =
              c :: adjAux k (newDepth c d) none r := by
            simp [adjAux, hbs]
          by_cases hbr : c = '['
          · subst hbr
            have end' : newDepth '[' d = d + 1 := rfl
            have ihc := ih r (by omega) k (d + 1)
            rw [stepA, end']
            exact ⟨ihc.1, ihc.2⟩
          · by_cases hbk : c = ']'
            · subst hbk
              have end' : newDepth ']' d = d - 1 := rfl
              have ihc := ih r (by omega) k (d - 1)
              rw [stepA, end']
              exact ⟨ihc.1, ihc.2⟩
            · have end' : newDepth c d = d := by simp [newDepth, hbr, hbk]
              have ihc := ih r (by omega) k d
              rw [stepA, end']
              constructor
              · rw [ccAux_consOther d c _ hbs hop hbr hbk,
                  ccAux_consOther d c _ hbs hop hbr hbk, ihc.1]
              · rw [scanDepth_consOther d c _ hbs hop hbr hbk,
                  scanDepth_consOther d c _ hbs hop hbr hbk, ihc.2]


set_option maxHeartbeats 1600000 in
theorem ccAux_append_safe : ∀ (d : Nat) (s1 : List Char) (e : Nat),
    scanDepth d s1 = some e → ∀ s2 : List Char,
    ccAux d (s1 ++ s2) = ccAux d s1 + ccAux e s2 := by
  intro d s1
  induction d, s1 using scanDepth.induct with
  | case1 d =>
    intro e hsd s2
    have he : e = d := by
      have : (some d : Option Nat) = some e := hsd
      exact (Option.some.injEq d e ▸ this).symm
    subst he
    simp [ccAux]
  | case2 d =>
    intro e hsd s2
    simp [scanDepth] at hsd
  | case3 d c r ih =>
    intro e hsd s2
    have hsd2 : scanDepth d r = some e := hsd
    have e1 : ∀ X, ccAux d ('\\' :: c :: X) = ccAux d X := fun X => rfl
    rw [List.cons_append, List.cons_append, e1, e1, ih e hsd2 s2]
  | case4 d =>
    intro e hsd s2
    simp [scanDepth] at hsd
  | case5 d =>
    intro e hsd s2
    simp [scanDepth] at hsd
  | case6 d =>
    intro e hsd s2
    simp [scanDepth] at hsd
  | case7 d c r ih =>
    intro e hsd s2
    have hsd2 : scanDepth d (c :: r) = some e := hsd
    have happ : ('(' :: '?' :: '<' :: c :: r) ++ s2 =
        '(' :: '?' :: '<' :: c :: (r ++ s2) := by simp
    have ihr := ih e hsd2 s2
    rw [List.cons_append] at ihr
    rw [happ, ccAux_named, ccAux_named]
    have e2 : ∀ X, ccAux d ('?' :: '<' :: X) = ccAux d X := fun X => rfl
    split
    · rw [ihr]
      omega
    · rw [e2, e2, ihr]
  | case8 d r h1 h2 h3 ih =>
    intro e hsd s2
    cases r with
    | nil => exact absurd rfl h1
    | cons a as =>
      have ha : a ≠ '<' := by
        intro hcon
        subst hcon
        cases as with
        | nil => exact h2 rfl
        | cons b bs => exact h3 b bs rfl
      have hqa : ∀ (x : Char) (t2 : List Char), ¬ a :: as = '<' :: x :: t2 := by
        intro x t2 hcon
        rw [List.cons.injEq] at hcon
        exact ha hcon.1
      have hqb : ∀ (x : Char) (t2 : List Char), ¬ a :: (as ++ s2) = '<' :: x :: t2 := by
        intro x t2 hcon
        rw [List.cons.injEq] at hcon
        exact ha hcon.1
      have hsd2 : scanDepth d ('?' :: a :: as) = some e := by
        rw [← scanDepth_parenQ d a as ha]
        exact hsd
      have happ : ('(' :: '?' :: a :: as) ++ s2 = '(' :: '?' :: (a :: (as ++ s2)) := by simp
      rw [happ, ccAux_parenQ d _ hqb, ccAux_parenQ d _ hqa]
      have e2 : ∀ X, ccAux d ('?' :: X) = ccAux d X := fun X => rfl
      rw [e2, e2]
      have := ih e hsd2 s2
      rw [e2] at this
      have e3 : ('?' :: a :: as) ++ s2 = '?' :: a :: (as ++ s2) := by simp
      rw [e3, e2] at this
      exact this
  | case9 d r h1 h2 h3 h4 h5 ih =>
    intro e hsd s2
    cases r with
    | nil => exact absurd rfl h1
    | cons a as =>
      have ha : a ≠ '?' := by
        intro hcon
        subst hcon
        exact h5 as rfl
      have hqa : ∀ t2, ¬ a :: as = '?' :: t2 := by
        intro t2 hcon
        rw [List.cons.injEq] at hcon
        exact ha hcon.1
      have hqb : ∀ t2, ¬ a :: (as ++ s2) = '?' :: t2 := by
        intro t2 hcon
        rw [List.cons.injEq] at hcon
        exact ha hcon.1
      have hsd2 : scanDepth d (a :: as) = some e := by
        rw [← scanDepth_parenOther d a as ha]
        exact hsd
      have happ : ('(' :: a :: as) ++ s2 = '(' :: (a :: (as ++ s2)) := by simp
      rw [happ, ccAux_parenOther d _ hqb, ccAux_parenOther d _ hqa]
      have hrec := ih e hsd2 s2
      rw [List.cons_append] at hrec
      by_cases hd : d = 0
      · subst hd
        rw [if_pos rfl, if_pos rfl, hrec]
        omega
      · rw [if_neg hd, if_neg hd]
        exact hrec
  | case10 d r ih =>
    intro e hsd s2
    have hsd2 : scanDepth (d + 1) r = some e := hsd
    have e1 : ∀ X, ccAux d ('[' :: X) = ccAux (d + 1) X := fun X => rfl
    rw [List.cons_append, e1, e1, ih e hsd2 s2]
  | case11 d r ih =>
    intro e hsd s2
    have hsd2 : scanDepth (d - 1) r = some e := hsd
    have e1 : ∀ X, ccAux d (']' :: X) = ccAux (d - 1) X := fun X => rfl
    rw [List.cons_append, e1, e1, ih e hsd2 s2]
  | case12 d c r hx1 hx2 hx3 hx4 hx5 hx6 hx7 hx8 hx9 hx10 ih =>
    intro e hsd s2
    have hbs : c ≠ '\\' := by
      intro hcon
      cases r with
      | nil => exact hx1 hcon rfl
      | cons a as => exact hx2 a as hcon rfl
    have hop : c ≠ '(' := fun hcon => hx8 hcon
    have hbr : c ≠ '[' := fun hcon => hx9 hcon
    have hbk : c ≠ ']' := fun hcon => hx10 hcon
    have hsd2 : scanDepth d r = some e := by
      rw [← scanDepth_consOther d c r hbs hop hbr hbk]
      exact hsd
    rw [List.cons_append, ccAux_consOther d c _ hbs hop hbr hbk,
      ccAux_consOther d c r hbs hop hbr hbk, ih e hsd2 s2]


theorem brAux_append_paren_aux : ∀ (n : Nat) (X : List Char), X.length ≤ n →
    ∀ (d : Nat) (p : Option Nat), brAux d p (X ++ [')']) = brAux d p X := by
  intro n
  induction n with
  | zero =>
    intro X hlen d p
    have : X = [] := List.eq_nil_of_length_eq_zero (by omega)
    subst this
    cases p <;> rfl
  | succ n ih =>
    intro X hlen d p
    cases X with
    | nil => cases p <;> rfl
    | cons c r =>
      simp only [List.length_cons] at hlen
      by_cases hbs : c = '\\'
      · subst hbs
        cases r with
        | nil =>
          have hno : ¬ (d = 0 ∧ isDecPos ')' = true) := fun h => absurd h.2 (by decide)
          cases p <;> simp [brAux, hno]
        | cons c2 r2 =>
          simp only [List.length_cons] at hlen
          by_cases hp : d = 0 ∧ isDecPos c2 = true
          · cases p <;> simp [brAux, hp] <;>
              exact ih r2 (by omega) 0 (some (digitVal c2))
          · cases p <;> simp [brAux, hp] <;> exact ih r2 (by omega) d none
      · cases p with
        | none =>
          by_cases hbr : c = '['
          · subst hbr
            simp [brAux]
            exact ih r (by omega) (d + 1) none
          · by_cases hbk : c = ']'
            · subst hbk
              simp [brAux]
              exact ih r (by omega) (d - 1) none
            · simp [brAux, hbs, hbr, hbk]
              exact ih r (by omega) d none
        | some v =>
          by_cases hdec : isDec c = true
          · simp [brAux, hbs, hdec]
            exact ih r (by omega) d (some (v * 10 + digitVal c))
          · by_cases hbr : c = '['
            · subst hbr
              simp [brAux, hdec]
              exact ih r (by omega) (d + 1) none
            · by_cases hbk : c = ']'
              · subst hbk
                simp [brAux, hdec]
                exact ih r (by omega) (d - 1) none
              · simp [brAux, hbs, hbr, hbk, hdec]
                exact ih r (by omega) d none

theorem brAux_append_paren : ∀ (X : List Char) (d : Nat) (p : Option Nat),
    brAux d p (X ++ [')']) = brAux d p X := by
  intro X d p
  exact brAux_append_paren_aux X.length X (le_refl _) d p

theorem adjAux_append_paren_aux : ∀ (n : Nat) (X : List Char), X.length ≤ n →
    ∀ (k d : Nat) (p : Option Nat), adjAux k d p (X ++ [')']) = adjAux k d p X ++ [')'] := by
  intro n
  induction n with
  | zero =>
    intro X hlen k d p
    have : X = [] := List.eq_nil_of_length_eq_zero (by omega)
    subst this
    cases p <;> rfl
  | succ n ih =>
    intro X hlen k d p
    cases X with
    | nil => cases p <;> rfl
    | cons c r =>
      simp only [List.length_cons] at hlen
      by_cases hbs : c = '\\'
      · subst hbs
        cases r with
        | nil =>
          have hno : ¬ (d = 0 ∧ isDecPos ')' = true) := fun h => absurd h.2 (by decide)
          cases p <;> simp [adjAux, hno]
        | cons c2 r2 =>
          simp only [List.length_cons] at hlen
          by_cases hp : d = 0 ∧ isDecPos c2 = true
          · cases p <;> simp [adjAux, hp] <;>
              rw [ih r2 (by omega) k 0 (some (digitVal c2))]
          · cases p <;> simp [adjAux, hp] <;> rw [ih r2 (by omega) k d none]
      · cases p with
        | none =>
          simp [adjAux, hbs]
          rw [ih r (by omega) k (newDepth c d) none]
        | some v =>
          by_cases hdec : isDec c = true
          · simp [adjAux, hbs, hdec]
            rw [ih r (by omega) k d (some (v * 10 + digitVal c))]
          · simp [adjAux, hbs, hdec]
            rw [ih r (by omega) k (newDepth c d) none]

theorem adjAux_append_paren : ∀ (X : List Char) (k d : Nat) (p : Option Nat),
    adjAux k d p (X ++ [')']) = adjAux k d p X ++ [')'] := by
  intro X k d p
  exact adjAux_append_paren_aux X.length X (le_refl _) k d p


theorem adjAux_prefix_pass : ∀ (P : List Char), (∀ c ∈ P, PassChar c) →
    ∀ (X : List Char) (k d : Nat), adjAux k d none (P ++ X) = P ++ adjAux k d none X := by
  intro P
  induction P with
  | nil => intro h X k d; rfl
  | cons c P ih =>
    intro h X k d
    obtain ⟨h1, h3, h4⟩ := h c (by simp)
    have hnd : newDepth c d = d := by simp [newDepth, h3, h4]
    rw [List.cons_append, show adjAux k d none (c :: (P ++ X)) =
      c :: adjAux k (newDepth c d) none (P ++ X) from by simp [adjAux, h1], hnd,
      ih (fun x hx => h x (by simp [hx])) X k d]
    rfl

theorem brAux_prefix_pass : ∀ (P : List Char), (∀ c ∈ P, PassChar c) →
    ∀ (X : List Char) (d : Nat), brAux d none (P ++ X) = brAux d none X := by
  intro P
  induction P with
  | nil => intro h X d; rfl
  | cons c P ih =>
    intro h X d
    obtain ⟨h1, h3, h4⟩ := h c (by simp)
    rw [List.cons_append, show brAux d none (c :: (P ++ X)) =
      brAux d none (P ++ X) from by simp [brAux, h1, h3, h4],
      ih (fun x hx => h x (by simp [hx])) X d]



theorem tff_true : ∀ (re : NativeRegex) (flags : List Char),
    ∃ M : List Char, (∀ c ∈ M, c = 'i' ∨ c = 'm' ∨ c = 's' ∨ c = '-') ∧
      transformForLocalFlags true re flags =
        (if M = [] then .ok (re.source, false)
         else .ok (('(' :: '?' :: M) ++ (':' :: re.source) ++ [')'], true)) := by
  intro re flags
  refine ⟨((if (re.ignoreCase ≠ flags.contains 'i') ∧ re.ignoreCase = true then ['i'] else []) ++
      (if (re.multiline ≠ flags.contains 'm') ∧ re.multiline = true then ['m'] else []) ++
      (if (re.dotAll ≠ flags.contains 's') ∧ re.dotAll = true then ['s'] else [])) ++
     (if ((if (re.ignoreCase ≠ flags.contains 'i') ∧ ¬ re.ignoreCase = true then ['i'] else []) ++
          (if (re.multiline ≠ flags.contains 'm') ∧ ¬ re.multiline = true then ['m'] else []) ++
          (if (re.dotAll ≠ flags.contains 's') ∧ ¬ re.dotAll = true then ['s'] else [])) = []
      then []
      else '-' :: ((if (re.ignoreCase ≠ flags.contains 'i') ∧ ¬ re.ignoreCase = true then ['i'] else []) ++
          (if (re.multiline ≠ flags.contains 'm') ∧ ¬ re.multiline = true then ['m'] else []) ++
          (if (re.dotAll ≠ flags.contains 's') ∧ ¬ re.dotAll = true then ['s'] else []))), ?_, rfl⟩
  intro c hc
  simp only [List.mem_append] at hc
  rcases hc with ((hc | hc) | hc) | hc <;> split_ifs at hc <;> simp_all
  all_goals tauto

theorem tff_shape : ∀ (pms : Bool) (re : NativeRegex) (flags : List Char),
    (pms = true ∨ (re.ignoreCase = flags.contains 'i' ∧ re.dotAll = flags.contains 's' ∧
      re.multiline = flags.contains 'm')) →
    transformForLocalFlags pms re flags = .ok (re.source, false) ∨
    (∃ mods, mods ≠ [] ∧ (∀ c ∈ mods, c = 'i' ∨ c = 'm' ∨ c = 's' ∨ c = '-') ∧
      transformForLocalFlags pms re flags =
        .ok (('(' :: '?' :: mods) ++ (':' :: re.source) ++ [')'], true)) := by
  intro pms re flags hscope
  have hpt : pms = true →
      transformForLocalFlags pms re flags = .ok (re.source, false) ∨
      (∃ mods, mods ≠ [] ∧ (∀ c ∈ mods, c = 'i' ∨ c = 'm' ∨ c = 's' ∨ c = '-') ∧
        transformForLocalFlags pms re flags =
          .ok (('(' :: '?' :: mods) ++ (':' :: re.source) ++ [')'], true)) := by
    intro hp
    subst hp
    obtain ⟨M, hmem, heq⟩ := tff_true re flags
    rw [heq]
    by_cases hM : M = []
    · rw [if_pos hM]
      exact Or.inl rfl
    · rw [if_neg hM]
      exact Or.inr ⟨M, hM, hmem, rfl⟩
  rcases hscope with rfl | ⟨hI, hS, hM⟩
  · exact hpt rfl
  · cases pms with
    | true => exact hpt rfl
    | false =>
      left
      simp [transformForLocalFlags, hI, hS, hM]

theorem interpolate_regexp_eq : ∀ (pms : Bool) (re : NativeRegex) (flags : List Char)
    (w : Bool) (k : Nat),
    interpolate pms (.regexp re) flags .DEFAULT .DEFAULT w k =
      (match transformForLocalFlags pms re flags with
      | .error e => .error e
      | .ok t => .ok (if t.2 then adjustNumberedBackrefs k t.1
          else ('(' :: '?' :: ':' :: adjustNumberedBackrefs k t.1) ++ [')'])) := by
  intro pms re flags w k
  rfl

theorem adjust_shift : ∀ (s : List Char) (k : Nat),
    backrefNums (adjustNumberedBackrefs k s) = (backrefNums s).map (· + k) := by
  intro s k
  exact adj_br_lockstep s.length s (le_refl _) k 0

theorem adjust_count : ∀ (s : List Char) (k : Nat),
    countCaptures (adjustNumberedBackrefs k s) = countCaptures s := by
  intro s k
  exact (adj_cc_sd_lockstep s.length s (le_refl _) k 0).1

theorem adjust_scan : ∀ (s : List Char) (k : Nat),
    scanDepth 0 (adjustNumberedBackrefs k s) = scanDepth 0 s := by
  intro s k
  exact (adj_cc_sd_lockstep s.length s (le_refl _) k 0).2

theorem frag_noncap_backrefs : ∀ (s : List Char) (k : Nat),
    backrefNums (('(' :: '?' :: ':' :: adjustNumberedBackrefs k s) ++ [')']) =
      (backrefNums s).map (· + k) := by
  intro s k
  have h1 : ('(' :: '?' :: ':' :: adjustNumberedBackrefs k s) ++ [')'] =
      ['(', '?', ':'] ++ (adjustNumberedBackrefs k s ++ [')']) := by simp
  rw [h1]
  show brAux 0 none (['(', '?', ':'] ++ (adjustNumberedBackrefs k s ++ [')'])) = _
  rw [brAux_prefix_pass ['(', '?', ':']
    (by intro c hc; fin_cases hc <;> exact ⟨by decide, by decide, by decide⟩) _ 0,
    brAux_append_paren]
  exact adjust_shift s k

theorem frag_noncap_count : ∀ (s : List Char) (k : Nat), scanDepth 0 s = some 0 →
    countCaptures (('(' :: '?' :: ':' :: adjustNumberedBackrefs k s) ++ [')']) =
      countCaptures s := by
  intro s k hs
  have h1 : ('(' :: '?' :: ':' :: adjustNumberedBackrefs k s) ++ [')'] =
      '(' :: '?' :: ':' :: (adjustNumberedBackrefs k s ++ [')']) := by simp
  rw [h1]
  have e : ∀ X, ccAux 0 ('(' :: '?' :: ':' :: X) = ccAux 0 X := fun X => rfl
  show ccAux 0 ('(' :: '?' :: ':' :: (adjustNumberedBackrefs k s ++ [')'])) = _
  rw [e]
  have hsd : scanDepth 0 (adjustNumberedBackrefs k s) = some 0 := by
    rw [adjust_scan s k, hs]
  rw [ccAux_append_safe 0 _ 0 hsd [')']]
  have hz : ccAux 0 [')'] = 0 := rfl
  rw [hz]
  have := adjust_count s k
  rw [show countCaptures (adjustNumberedBackrefs k s) = ccAux 0 (adjustNumberedBackrefs k s)
    from rfl] at this
  rw [this]
  rfl

theorem mods_pass : ∀ (mods : List Char),
    (∀ c ∈ mods, c = 'i' ∨ c = 'm' ∨ c = 's' ∨ c = '-') →
    ∀ c ∈ '(' :: '?' :: (mods ++ [':']), PassChar c := by
  intro mods hmem c hc
  simp only [List.mem_cons] at hc
  rcases hc with rfl | rfl | hc
  · exact ⟨by decide, by decide, by decide⟩
  · exact ⟨by decide, by decide, by decide⟩
  · rcases List.mem_append.mp hc with hc | hc
    · rcases hmem c hc with rfl | rfl | rfl | rfl <;> exact ⟨by decide, by decide, by decide⟩
    · simp at hc
      subst hc
      exact ⟨by decide, by decide, by decide⟩

theorem frag_mod_split : ∀ (s : List Char) (k : Nat) (mods : List Char),
    (∀ c ∈ mods, c = 'i' ∨ c = 'm' ∨ c = 's' ∨ c = '-') →
    adjustNumberedBackrefs k (('(' :: '?' :: mods) ++ (':' :: s) ++ [')']) =
      ('(' :: '?' :: (mods ++ [':'])) ++ (adjustNumberedBackrefs k s ++ [')']) := by
  intro s k mods hmem
  have harg : ('(' :: '?' :: mods) ++ (':' :: s) ++ [')'] =
      ('(' :: '?' :: (mods ++ [':'])) ++ (s ++ [')']) := by simp
  rw [harg]
  show adjAux k 0 none (('(' :: '?' :: (mods ++ [':'])) ++ (s ++ [')'])) = _
  rw [adjAux_prefix_pass _ (mods_pass mods hmem) _ k 0, adjAux_append_paren]
  rfl

theorem frag_mod_backrefs : ∀ (s : List Char) (k : Nat) (mods : List Char),
    (∀ c ∈ mods, c = 'i' ∨ c = 'm' ∨ c = 's' ∨ c = '-') →
    backrefNums (adjustNumberedBackrefs k (('(' :: '?' :: mods) ++ (':' :: s) ++ [')'])) =
      (backrefNums s).map (· + k) := by
  intro s k mods hmem
  rw [frag_mod_split s k mods hmem]
  show brAux 0 none _ = _
  rw [brAux_prefix_pass _ (mods_pass mods hmem) _ 0, brAux_append_paren]
  exact adjust_shift s k

theorem frag_mod_count : ∀ (s : List Char) (k : Nat) (mods : List Char),
    mods ≠ [] → (∀ c ∈ mods, c = 'i' ∨ c = 'm' ∨ c = 's' ∨ c = '-') →
    scanDepth 0 s = some 0 →
    countCaptures (adjustNumberedBackrefs k (('(' :: '?' :: mods) ++ (':' :: s) ++ [')'])) =
      countCaptures s := by
  intro s k mods hne hmem hs
  rw [frag_mod_split s k mods hmem]
  cases mods with
  | nil => exact absurd rfl hne
  | cons m0 mr =>
    have hm0 : m0 = 'i' ∨ m0 = 'm' ∨ m0 = 's' ∨ m0 = '-' := hmem m0 (by simp)
    have hshape : ('(' :: '?' :: ((m0 :: mr) ++ [':'])) ++ (adjustNumberedBackrefs k s ++ [')']) =
        '(' :: '?' :: m0 :: ((mr ++ [':']) ++ (adjustNumberedBackrefs k s ++ [')'])) := by
      simp
    rw [hshape]
    have hm0lt : m0 ≠ '<' := by rcases hm0 with rfl | rfl | rfl | rfl <;> decide
    have hq : ∀ (x : Char) (t : List Char),
        ¬ m0 :: ((mr ++ [':']) ++ (adjustNumberedBackrefs k s ++ [')'])) = '<' :: x :: t := by
      intro x t hcon
      rw [List.cons.injEq] at hcon
      exact hm0lt hcon.1
    show ccAux 0 _ = _
    rw [ccAux_parenQ 0 _ hq]
    have e : ∀ X, ccAux 0 ('?' :: X) = ccAux 0 X := fun X => rfl
    rw [e]
    have hord : ∀ c ∈ (m0 :: mr) ++ [':'], OrdChar c := by
      intro c hc
      rcases List.mem_append.mp hc with hc | hc
      · rcases hmem c hc with rfl | rfl | rfl | rfl <;>
          exact ⟨by decide, by decide, by decide, by decide⟩
      · simp at hc
        subst hc
        exact ⟨by decide, by decide, by decide, by decide⟩
    have hshape2 : m0 :: ((mr ++ [':']) ++ (adjustNumberedBackrefs k s ++ [')'])) =
        ((m0 :: mr) ++ [':']) ++ (adjustNumberedBackrefs k s ++ [')']) := by simp
    rw [hshape2, ccAux_prefix_ord _ hord]
    have hsd : scanDepth 0 (adjustNumberedBackrefs k s) = some 0 := by
      rw [adjust_scan s k, hs]
    rw [ccAux_append_safe 0 _ 0 hsd [')']]
    have hz : ccAux 0 [')'] = 0 := rfl
    rw [hz]
    have := adjust_count s k
    rw [show countCaptures (adjustNumberedBackrefs k s) = ccAux 0 (adjustNumberedBackrefs k s)
      from rfl] at this
    rw [this]
    rfl


theorem ruc_cons_eq : ∀ (x : Char) (rep : List Char) (r : List Char) (hbs : x ≠ '\\'),
    replaceUnescapedChar x rep 0 (x :: r) = rep ++ replaceUnescapedChar x rep 0 r := by
  intro x rep r hbs
  simp [replaceUnescapedChar, hbs]

theorem ruc_cons_ne : ∀ (x : Char) (rep : List Char) (c : Char) (r : List Char) (d : Nat),
    c ≠ '\\' → ¬ (c = x ∧ d = 0) →
    replaceUnescapedChar x rep d (c :: r) = c :: replaceUnescapedChar x rep (newDepth c d) r := by
  intro x rep c r d hbs hcx
  simp [replaceUnescapedChar, hbs, hcx]

theorem ruc_head : ∀ (x : Char) (rep : List Char) (h0 : Char) (t0 : List Char),
    rep = h0 :: t0 → ∀ (c : Char) (r : List Char) (d : Nat), c ≠ '\\' →
    ∃ hd tl, replaceUnescapedChar x rep d (c :: r) = hd :: tl ∧
      (hd = c ∨ (c = x ∧ d = 0 ∧ hd = h0)) := by
  intro x rep h0 t0 hrep c r d hbs
  by_cases hcx : c = x ∧ d = 0
  · obtain ⟨hc, hd0⟩ := hcx
    subst hc
    subst hd0
    rw [ruc_cons_eq c rep r hbs, hrep]
    exact ⟨h0, t0 ++ replaceUnescapedChar c (h0 :: t0) 0 r, rfl, Or.inr ⟨rfl, rfl, rfl⟩⟩
  · rw [ruc_cons_ne x rep c r d hbs hcx]
    exact ⟨c, replaceUnescapedChar x rep (newDepth c d) r, rfl, Or.inl rfl⟩

theorem ruc_br_lockstep : ∀ (x : Char) (rep : List Char) (h0 : Char) (t0 : List Char),
    PassChar x → isDec x = false → rep = h0 :: t0 → isDec h0 = false →
    (∀ X, brAux 0 none (rep ++ X) = brAux 0 none X) →
    ∀ (n : Nat) (s : List Char), s.length ≤ n →
    (∀ d, brAux d none (replaceUnescapedChar x rep d s) = brAux d none s) ∧
    (∀ v, brAux 0 (some v) (replaceUnescapedChar x rep 0 s) = brAux 0 (some v) s) := by
  intro x rep h0 t0 hx hxd hrep hh0d hbrn n
  obtain ⟨hxbs, hxbr, hxbk⟩ := hx
  induction n with
  | zero =>
    intro s hlen
    have : s = [] := List.eq_nil_of_length_eq_zero (by omega)
    subst this
    exact ⟨fun d => rfl, fun v => rfl⟩
  | succ n ih =>
    intro s hlen
    cases s with
    | nil => exact ⟨fun d => rfl, fun v => rfl⟩
    | cons c r =>
      simp only [List.length_cons] at hlen
      by_cases hbs : c = '\\'
      · subst hbs
        cases r with
        | nil => exact ⟨fun d => rfl, fun v => rfl⟩
        | cons c2 r2 =>
          simp only [List.length_cons] at hlen
          have stepA : ∀ e, replaceUnescapedChar x rep e ('\\' :: c2 :: r2) =
              '\\' :: c2 :: replaceUnescapedChar x rep e r2 := fun e => rfl
          constructor
          · intro d
            rw [stepA]
            by_cases hp : d = 0 ∧ isDecPos c2 = true
            · obtain ⟨hd0, hdp⟩ := hp
              subst hd0
              have e1 : ∀ X, brAux 0 none ('\\' :: c2 :: X) =
                  brAux 0 (some (digitVal c2)) X := by
                intro X
                simp [brAux, hdp]
              rw [e1, e1, (ih r2 (by omega)).2 (digitVal c2)]
            · have e1 : ∀ X, brAux d none ('\\' :: c2 :: X) = brAux d none X := by
                intro X
                simp [brAux, hp]
              rw [e1, e1, (ih r2 (by omega)).1 d]
          · intro v
            rw [stepA]
            by_cases hdp : isDecPos c2 = true
            · have e1 : ∀ X, brAux 0 (some v) ('\\' :: c2 :: X) =
                  v :: brAux 0 (some (digitVal c2)) X := by
                intro X
                simp [brAux, hdp]
              rw [e1, e1, (ih r2 (by omega)).2 (digitVal c2)]
            · have e1 : ∀ X, brAux 0 (some v) ('\\' :: c2 :: X) =
                  v :: brAux 0 none X := by
                intro X
                simp [brAux, hdp]
              rw [e1, e1, (ih r2 (by omega)).1 0]
      · constructor
        · intro d
          by_cases hcx : c = x ∧ d = 0
          · obtain ⟨hc, hd0⟩ := hcx
            subst hc
            subst hd0
            rw [ruc_cons_eq c rep r hbs, hbrn]
            have e1 : brAux 0 none (c :: r) = brAux 0 none r := by
              simp [brAux, hbs, hxbr, hxbk]
            rw [e1, (ih r (by omega)).1 0]
          · rw [ruc_cons_ne x rep c r d hbs hcx]
            have e1 : ∀ X, brAux d none (c :: X) = brAux (newDepth c d) none X := by
              intro X
              by_cases hbr : c = '['
              · subst hbr
                simp [brAux, newDepth]
              · by_cases hbk : c = ']'
                · subst hbk
                  simp [brAux, newDepth]
                · simp [brAux, newDepth, hbs, hbr, hbk]
            rw [e1, e1, (ih r (by omega)).1 (newDepth c d)]
        · intro v
          by_cases hcx : c = x
          · subst hcx
            rw [ruc_cons_eq c rep r hbs]
            have hstep : brAux 0 (some v) (rep ++ replaceUnescapedChar c rep 0 r) =
                v :: brAux 0 none (rep ++ replaceUnescapedChar c rep 0 r) := by
              apply brAux_some_step
              exact Or.inr ⟨h0, t0 ++ replaceUnescapedChar c rep 0 r, by rw [hrep]; simp, hh0d⟩
            rw [hstep, hbrn, (ih r (by omega)).1 0]
            have e1 : brAux 0 (some v) (c :: r) = v :: brAux 0 none r := by
              simp [brAux, hbs, hxd, hxbr, hxbk]
            rw [e1]
          · have hcx2 : ¬ (c = x ∧ (0 : Nat) = 0) := fun h => hcx h.1
            rw [ruc_cons_ne x rep c r 0 hbs hcx2]
            by_cases hdec : isDec c = true
            · have hnb : newDepth c 0 = 0 := by
                have := ordChar_of_isDec c hdec
                simp [newDepth, this.2.2.1, this.2.2.2]
              have e1 : ∀ X, brAux 0 (some v) (c :: X) =
                  brAux 0 (some (v * 10 + digitVal c)) X := by
                intro X
                simp [brAux, hbs, hdec]
              rw [hnb, e1, e1, (ih r (by omega)).2 (v * 10 + digitVal c)]
            · have e1 : ∀ X, brAux 0 (some v) (c :: X) =
                  v :: brAux (newDepth c 0) none X := by
                intro X
                by_cases hbr : c = '['
                · subst hbr
                  simp [brAux, newDepth, hdec]
                · by_cases hbk : c = ']'
                  · subst hbk
                    simp [brAux, newDepth, hdec]
                  · simp [brAux, newDepth, hbs, hbr, hbk, hdec]
              rw [e1, e1, (ih r (by omega)).1 (newDepth c 0)]


theorem ruc_head_all : ∀ (x : Char) (rep : List Char) (h0 : Char) (t0 : List Char),
    rep = h0 :: t0 → ∀ (c : Char) (r : List Char) (d : Nat),
    ∃ hd tl, replaceUnescapedChar x rep d (c :: r) = hd :: tl ∧
      (hd = c ∨ (c = x ∧ d = 0 ∧ hd = h0)) := by
  intro x rep h0 t0 hrep c r d
  by_cases hbs : c = '\\'
  · subst hbs
    cases r with
    | nil => exact ⟨'\\', [], rfl, Or.inl rfl⟩
    | cons a as =>
      exact ⟨'\\', a :: replaceUnescapedChar x rep d as, rfl, Or.inl rfl⟩
  · exact ruc_head x rep h0 t0 hrep c r d hbs

set_option maxHeartbeats 1600000 in
theorem ruc_cc_sd_lockstep : ∀ (x : Char) (rep : List Char) (h0 : Char) (t0 : List Char),
    OrdChar x → x ≠ '?' → x ≠ '<' → x ≠ '=' → x ≠ '!' →
    rep = h0 :: t0 → h0 ≠ '?' → h0 ≠ '<' → h0 ≠ '=' → h0 ≠ '!' →
    (∀ X, ccAux 0 (rep ++ X) = ccAux 0 X) →
    (∀ X, scanDepth 0 (rep ++ X) = scanDepth 0 X) →
    ∀ (n : Nat) (s : List Char), s.length ≤ n → ∀ (d : Nat),
    ccAux d (replaceUnescapedChar x rep d s) = ccAux d s ∧
    scanDepth d (replaceUnescapedChar x rep d s) = scanDepth d s := by
  intro x rep h0 t0 hxo hxq hxl hxe hxb hrep hh0q hh0l hh0e hh0b hccn hsdn n
  induction n with
  | zero =>
    intro s hlen d
    have : s = [] := List.eq_nil_of_length_eq_zero (by omega)
    subst this
    exact ⟨rfl, rfl⟩
  | succ n ih =>
    intro s hlen d
    cases s with
    | nil => exact ⟨rfl, rfl⟩
    | cons c r =>
      simp only [List.length_cons] at hlen
      by_cases hbs : c = '\\'
      · subst hbs
        cases r with
        | nil => exact ⟨rfl, rfl⟩
        | cons c2 r2 =>
          simp only [List.length_cons] at hlen
          have stepA : replaceUnescapedChar x rep d ('\\' :: c2 :: r2) =
              '\\' :: c2 :: replaceUnescapedChar x rep d r2 := rfl
          have ecc : ∀ X, ccAux d ('\\' :: c2 :: X) = ccAux d X := fun X => rfl
          have esd : ∀ X, scanDepth d ('\\' :: c2 :: X) = scanDepth d X := fun X => rfl
          rw [stepA]
          exact ⟨by rw [ecc, ecc, (ih r2 (by omega) d).1],
            by rw [esd, esd, (ih r2 (by omega) d).2]⟩
      · by_cases hcx : c = x ∧ d = 0
        · obtain ⟨hc, hd0⟩ := hcx
          subst hc
          subst hd0
          obtain ⟨h1, h2, h3, h4⟩ : OrdChar c := hxo
          rw [ruc_cons_eq c rep r hbs]
          constructor
          · rw [hccn, ccAux_consOther 0 c r h1 h2 h3 h4, (ih r (by omega) 0).1]
          · rw [hsdn, scanDepth_consOther 0 c r h1 h2 h3 h4, (ih r (by omega) 0).2]
        · rw [ruc_cons_ne x rep c r d hbs hcx]
          by_cases hop : c = '('
          · subst hop
            have hnd : newDepth '(' d = d := rfl
            rw [hnd]
            cases r with
            | nil => exact ⟨rfl, rfl⟩
            | cons c1 r1 =>
              simp only [List.length_cons] at hlen
              by_cases hq : c1 = '?'
              · subst hq
                have hq2 : ¬ ('?' = x ∧ d = 0) := fun h => hxq h.1.symm
                rw [ruc_cons_ne x rep '?' r1 d (by decide) hq2]
                have hnd2 : newDepth '?' d = d := rfl
                rw [hnd2]
                cases r1 with
                | nil => exact ⟨rfl, rfl⟩
                | cons c2 r2 =>
                  simp only [List.length_cons] at hlen
                  by_cases hlt : c2 = '<'
                  · subst hlt
                    have hl2 : ¬ ('<' = x ∧ d = 0) := fun h => hxl h.1.symm
                    rw [ruc_cons_ne x rep '<' r2 d (by decide) hl2]
                    have hnd3 : newDepth '<' d = d := rfl
                    rw [hnd3]
                    cases r2 with
                    | nil => exact ⟨rfl, rfl⟩
                    | cons c3 r3 =>
                      simp only [List.length_cons] at hlen
                      obtain ⟨hd3, tl3, hout, hdisj⟩ := ruc_head_all x rep h0 t0 hrep c3 r3 d
                      have ihc := ih (c3 :: r3) (by simp; omega) d
                      rw [hout]
                      constructor
                      · rw [ccAux_named, ccAux_named]
                        have eq2 : ∀ X, ccAux d ('?' :: '<' :: X) = ccAux d X :=
                          fun X => rfl
                        rcases hdisj with rfl | ⟨hc3x, hdd0, rfl⟩
                        · split
                          · rw [← hout, ihc.1]
                          · rw [eq2, eq2, ← hout, ihc.1]
                        · subst hc3x
                          subst hdd0
                          rw [if_pos (by simp [hh0e, hh0b]), if_pos (by simp [hxe, hxb]),
                            ← hout, ihc.1]
                      · rw [scanDepth_named, scanDepth_named, ← hout, ihc.2]
                  · obtain ⟨hd2, tl2, hout, hdisj⟩ := ruc_head_all x rep h0 t0 hrep c2 r2 d
                    have hne2 : hd2 ≠ '<' := by
                      rcases hdisj with rfl | ⟨_, _, rfl⟩
                      · exact hlt
                      · exact hh0l
                    have ihc := ih (c2 :: r2) (by simp; omega) d
                    rw [hout]
                    have hqa : ∀ (y : Char) (t : List Char), ¬ hd2 :: tl2 = '<' :: y :: t := by
                      intro y t hcon
                      rw [List.cons.injEq] at hcon
                      exact hne2 hcon.1
                    have hqb : ∀ (y : Char) (t : List Char), ¬ c2 :: r2 = '<' :: y :: t := by
                      intro y t hcon
                      rw [List.cons.injEq] at hcon
                      exact hlt hcon.1
                    constructor
                    · rw [ccAux_parenQ d _ hqa, ccAux_parenQ d _ hqb]
                      have eq2 : ∀ X, ccAux d ('?' :: X) = ccAux d X := fun X => rfl
                      rw [eq2, eq2, ← hout, ihc.1]
                    · rw [scanDepth_parenQ d hd2 tl2 hne2, scanDepth_parenQ d c2 r2 hlt]
                      have esd : ∀ X, scanDepth d ('?' :: X) = scanDepth d X := fun X => rfl
                      rw [esd, esd, ← hout, ihc.2]
              · obtain ⟨hd1, tl1, hout, hdisj⟩ := ruc_head_all x rep h0 t0 hrep c1 r1 d
                have hne1 : hd1 ≠ '?' := by
                  rcases hdisj with rfl | ⟨_, _, rfl⟩
                  · exact hq
                  · exact hh0q
                have ihc := ih (c1 :: r1) (by simp; omega) d
                rw [hout]
                have hqa : ∀ t, ¬ hd1 :: tl1 = '?' :: t := by
                  intro t hcon
                  rw [List.cons.injEq] at hcon
                  exact hne1 hcon.1
                have hqb : ∀ t, ¬ c1 :: r1 = '?' :: t := by
                  intro t hcon
                  rw [List.cons.injEq] at hcon
                  exact hq hcon.1
                constructor
                · rw [ccAux_parenOther d _ hqa, ccAux_parenOther d _ hqb, ← hout, ihc.1]
                · rw [scanDepth_parenOther d hd1 tl1 hne1, scanDepth_parenOther d c1 r1 hq,
                    ← hout, ihc.2]
          · by_cases hbr : c = '['
            · subst hbr
              have hnd : newDepth '[' d = d + 1 := rfl
              rw [hnd]
              have ihc := ih r (by omega) (d + 1)
              exact ⟨ihc.1, ihc.2⟩
            · by_cases hbk : c = ']'
              · subst hbk
                have hnd : newDepth ']' d = d - 1 := rfl
                rw [hnd]
                have ihc := ih r (by omega) (d - 1)
                exact ⟨ihc.1, ihc.2⟩
              · have hnd : newDepth c d = d := by simp [newDepth, hbr, hbk]
                rw [hnd]
                have ihc := ih r (by omega) d
                constructor
                · rw [ccAux_consOther d c _ hbs hop hbr hbk,
                    ccAux_consOther d c r hbs hop hbr hbk, ihc.1]
                · rw [scanDepth_consOther d c _ hbs hop hbr hbk,
                    scanDepth_consOther d c r hbs hop hbr hbk, ihc.2]


theorem ruc_preserves : ∀ (x : Char) (rep : List Char) (h0 : Char) (t0 : List Char),
    OrdChar x → x ≠ '?' → x ≠ '<' → x ≠ '=' → x ≠ '!' → isDec x = false →
    rep = h0 :: t0 → h0 ≠ '?' → h0 ≠ '<' → h0 ≠ '=' → h0 ≠ '!' → isDec h0 = false →
    (∀ X, brAux 0 none (rep ++ X) = brAux 0 none X) →
    (∀ X, ccAux 0 (rep ++ X) = ccAux 0 X) →
    (∀ X, scanDepth 0 (rep ++ X) = scanDepth 0 X) →
    ∀ s : List Char,
      backrefNums (replaceUnescapedChar x rep 0 s) = backrefNums s ∧
      countCaptures (replaceUnescapedChar x rep 0 s) = countCaptures s ∧
      scanDepth 0 (replaceUnescapedChar x rep 0 s) = scanDepth 0 s := by
  intro x rep h0 t0 hxo hxq hxl hxe hxb hxd hrep hh0q hh0l hh0e hh0b hh0d hbrn hccn hsdn s
  have hcs := ruc_cc_sd_lockstep x rep h0 t0 hxo hxq hxl hxe hxb hrep hh0q hh0l hh0e hh0b
    hccn hsdn s.length s (le_refl _) 0
  have hbr := ruc_br_lockstep x rep h0 t0 ⟨hxo.1, hxo.2.2.1, hxo.2.2.2⟩ hxd hrep hh0d hbrn
    s.length s (le_refl _)
  exact ⟨hbr.1 0, hcs.1, hcs.2⟩

theorem rucp_dot_a : ∀ s : List Char,
    backrefNums (replaceUnescapedChar '.' ['[', '^', ']'] 0 s) = backrefNums s ∧
    countCaptures (replaceUnescapedChar '.' ['[', '^', ']'] 0 s) = countCaptures s ∧
    scanDepth 0 (replaceUnescapedChar '.' ['[', '^', ']'] 0 s) = scanDepth 0 s :=
  ruc_preserves '.' ['[', '^', ']'] '[' ['^', ']']
    ⟨by decide, by decide, by decide, by decide⟩ (by decide) (by decide) (by decide) (by decide)
    (by decide) rfl (by decide) (by decide) (by decide) (by decide) (by decide)
    (fun X => rfl) (fun X => rfl) (fun X => rfl)

theorem rucp_dot_b : ∀ s : List Char,
    backrefNums (replaceUnescapedChar '.' (('[' :: '^' :: newlineChars) ++ [']']) 0 s) =
      backrefNums s ∧
    countCaptures (replaceUnescapedChar '.' (('[' :: '^' :: newlineChars) ++ [']']) 0 s) =
      countCaptures s ∧
    scanDepth 0 (replaceUnescapedChar '.' (('[' :: '^' :: newlineChars) ++ [']']) 0 s) =
      scanDepth 0 s :=
  ruc_preserves '.' (('[' :: '^' :: newlineChars) ++ [']']) '['
    ('^' :: (newlineChars ++ [']']))
    ⟨by decide, by decide, by decide, by decide⟩ (by decide) (by decide) (by decide) (by decide)
    (by decide) rfl (by decide) (by decide) (by decide) (by decide) (by decide)
    (fun X => rfl) (fun X => rfl) (fun X => rfl)

theorem rucp_dollar_a : ∀ s : List Char,
    backrefNums (replaceUnescapedChar '$'
        (('(' :: '?' :: '=' :: '$' :: '|' :: '[' :: newlineChars) ++ [']', ')']) 0 s) =
      backrefNums s ∧
    countCaptures (replaceUnescapedChar '$'
        (('(' :: '?' :: '=' :: '$' :: '|' :: '[' :: newlineChars) ++ [']', ')']) 0 s) =
      countCaptures s ∧
    scanDepth 0 (replaceUnescapedChar '$'
        (('(' :: '?' :: '=' :: '$' :: '|' :: '[' :: newlineChars) ++ [']', ')']) 0 s) =
      scanDepth 0 s :=
  ruc_preserves '$' (('(' :: '?' :: '=' :: '$' :: '|' :: '[' :: newlineChars) ++ [']', ')'])
    '(' (('?' :: '=' :: '$' :: '|' :: '[' :: newlineChars) ++ [']', ')'])
    ⟨by decide, by decide, by decide, by decide⟩ (by decide) (by decide) (by decide) (by decide)
    (by decide) rfl (by decide) (by decide) (by decide) (by decide) (by decide)
    (fun X => rfl) (fun X => rfl) (fun X => rfl)

theorem rucp_dollar_b : ∀ s : List Char,
    backrefNums (replaceUnescapedChar '$' ['(', '?', '!', '[', '^', ']', ')'] 0 s) =
      backrefNums s ∧
    countCaptures (replaceUnescapedChar '$' ['(', '?', '!', '[', '^', ']', ')'] 0 s) =
      countCaptures s ∧
    scanDepth 0 (replaceUnescapedChar '$' ['(', '?', '!', '[', '^', ']', ')'] 0 s) =
      scanDepth 0 s :=
  ruc_preserves '$' ['(', '?', '!', '[', '^', ']', ')'] '(' ['?', '!', '[', '^', ']', ')']
    ⟨by decide, by decide, by decide, by decide⟩ (by decide) (by decide) (by decide) (by decide)
    (by decide) rfl (by decide) (by decide) (by decide) (by decide) (by decide)
    (fun X => rfl) (fun X => rfl) (fun X => rfl)

theorem rucp_caret_a : ∀ s : List Char,
    backrefNums (replaceUnescapedChar '^'
        (('(' :: '?' :: '<' :: '=' :: '^' :: '|' :: '[' :: newlineChars) ++ [']', ')']) 0 s) =
      backrefNums s ∧
    countCaptures (replaceUnescapedChar '^'
        (('(' :: '?' :: '<' :: '=' :: '^' :: '|' :: '[' :: newlineChars) ++ [']', ')']) 0 s) =
      countCaptures s ∧
    scanDepth 0 (replaceUnescapedChar '^'
        (('(' :: '?' :: '<' :: '=' :: '^' :: '|' :: '[' :: newlineChars) ++ [']', ')']) 0 s) =
      scanDepth 0 s :=
  ruc_preserves '^'
    (('(' :: '?' :: '<' :: '=' :: '^' :: '|' :: '[' :: newlineChars) ++ [']', ')'])
    '(' (('?' :: '<' :: '=' :: '^' :: '|' :: '[' :: newlineChars) ++ [']', ')'])
    ⟨by decide, by decide, by decide, by decide⟩ (by decide) (by decide) (by decide) (by decide)
    (by decide) rfl (by decide) (by decide) (by decide) (by decide) (by decide)
    (fun X => rfl) (fun X => rfl) (fun X => rfl)

theorem rucp_caret_b : ∀ s : List Char,
    backrefNums (replaceUnescapedChar '^' ['(', '?', '<', '!', '[', '^', ']', ')'] 0 s) =
      backrefNums s ∧
    countCaptures (replaceUnescapedChar '^' ['(', '?', '<', '!', '[', '^', ']', ')'] 0 s) =
      countCaptures s ∧
    scanDepth 0 (replaceUnescapedChar '^' ['(', '?', '<', '!', '[', '^', ']', ')'] 0 s) =
      scanDepth 0 s :=
  ruc_preserves '^' ['(', '?', '<', '!', '[', '^', ']', ')'] '('
    ['?', '<', '!', '[', '^', ']', ')']
    ⟨by decide, by decide, by decide, by decide⟩ (by decide) (by decide) (by decide) (by decide)
    (by decide) rfl (by decide) (by decide) (by decide) (by decide) (by decide)
    (fun X => rfl) (fun X => rfl) (fun X => rfl)


theorem tff_nopms : ∀ (re : NativeRegex) (flags : List Char),
    re.ignoreCase = flags.contains 'i' →
    ∃ body, transformForLocalFlags false re flags = .ok (body, false) ∧
      backrefNums body = backrefNums re.source ∧
      countCaptures body = countCaptures re.source ∧
      scanDepth 0 body = scanDepth 0 re.source := by
  intro re flags hI
  have hVS : backrefNums (if (re.dotAll ≠ flags.contains 's') then
        replaceUnescapedChar '.'
          (if re.dotAll then ['[', '^', ']'] else ('[' :: '^' :: newlineChars) ++ [']']) 0
          re.source
       else re.source) = backrefNums re.source ∧
      countCaptures (if (re.dotAll ≠ flags.contains 's') then
        replaceUnescapedChar '.'
          (if re.dotAll then ['[', '^', ']'] else ('[' :: '^' :: newlineChars) ++ [']']) 0
          re.source
       else re.source) = countCaptures re.source ∧
      scanDepth 0 (if (re.dotAll ≠ flags.contains 's') then
        replaceUnescapedChar '.'
          (if re.dotAll then ['[', '^', ']'] else ('[' :: '^' :: newlineChars) ++ [']']) 0
          re.source
       else re.source) = scanDepth 0 re.source := by
    by_cases hS : (re.dotAll ≠ flags.contains 's')
    · rw [if_pos hS]
      cases hda : re.dotAll
      · rw [if_neg (by simp)]
        exact rucp_dot_b re.source
      · rw [if_pos rfl]
        exact rucp_dot_a re.source
    · rw [if_neg hS]
      exact ⟨rfl, rfl, rfl⟩
  have hbody : backrefNums (if (re.multiline ≠ flags.contains 'm') then
      replaceUnescapedChar '$'
        (if re.multiline then ('(' :: '?' :: '=' :: '$' :: '|' :: '[' :: newlineChars) ++ [']', ')']
         else ['(', '?', '!', '[', '^', ']', ')']) 0
        (replaceUnescapedChar '^'
          (if re.multiline then ('(' :: '?' :: '<' :: '=' :: '^' :: '|' :: '[' :: newlineChars) ++ [']', ')']
           else ['(', '?', '<', '!', '[', '^', ']', ')']) 0
          (if (re.dotAll ≠ flags.contains 's') then
        replaceUnescapedChar '.'
          (if re.dotAll then ['[', '^', ']'] else ('[' :: '^' :: newlineChars) ++ [']']) 0
          re.source
       else re.source))
    else (if (re.dotAll ≠ flags.contains 's') then
        replaceUnescapedChar '.'
          (if re.dotAll then ['[', '^', ']'] else ('[' :: '^' :: newlineChars) ++ [']']) 0
          re.source
       else re.source)) = backrefNums re.source ∧
      countCaptures (if (re.multiline ≠ flags.contains 'm') then
      replaceUnescapedChar '$'
        (if re.multiline then ('(' :: '?' :: '=' :: '$' :: '|' :: '[' :: newlineChars) ++ [']', ')']
         else ['(', '?', '!', '[', '^', ']', ')']) 0
        (replaceUnescapedChar '^'
          (if re.multiline then ('(' :: '?' :: '<' :: '=' :: '^' :: '|' :: '[' :: newlineChars) ++ [']', ')']
           else ['(', '?', '<', '!', '[', '^', ']', ')']) 0
          (if (re.dotAll ≠ flags.contains 's') then
        replaceUnescapedChar '.'
          (if re.dotAll then ['[', '^', ']'] else ('[' :: '^' :: newlineChars) ++ [']']) 0
          re.source
       else re.source))
    else (if (re.dotAll ≠ flags.contains 's') then
        replaceUnescapedChar '.'
          (if re.dotAll then ['[', '^', ']'] else ('[' :: '^' :: newlineChars) ++ [']']) 0
          re.source
       else re.source)) = countCaptures re.source ∧
      scanDepth 0 (if (re.multiline ≠ flags.contains 'm') then
      replaceUnescapedChar '$'
        (if re.multiline then ('(' :: '?' :: '=' :: '$' :: '|' :: '[' :: newlineChars) ++ [']', ')']
         else ['(', '?', '!', '[', '^', ']', ')']) 0
        (replaceUnescapedChar '^'
          (if re.multiline then ('(' :: '?' :: '<' :: '=' :: '^' :: '|' :: '[' :: newlineChars) ++ [']', ')']
           else ['(', '?', '<', '!', '[', '^', ']', ')']) 0
          (if (re.dotAll ≠ flags.contains 's') then
        replaceUnescapedChar '.'
          (if re.dotAll then ['[', '^', ']'] else ('[' :: '^' :: newlineChars) ++ [']']) 0
          re.source
       else re.source))
    else (if (re.dotAll ≠ flags.contains 's') then
        replaceUnescapedChar '.'
          (if re.dotAll then ['[', '^', ']'] else ('[' :: '^' :: newlineChars) ++ [']']) 0
          re.source
       else re.source)) = scanDepth 0 re.source := by
    by_cases hM : (re.multiline ≠ flags.contains 'm')
    · rw [if_pos hM]
      cases hml : re.multiline
      · rw [if_neg (by simp), if_neg (by simp)]
        refine ⟨?_, ?_, ?_⟩
        · rw [(rucp_dollar_b _).1, (rucp_caret_b _).1, hVS.1]
        · rw [(rucp_dollar_b _).2.1, (rucp_caret_b _).2.1, hVS.2.1]
        · rw [(rucp_dollar_b _).2.2, (rucp_caret_b _).2.2, hVS.2.2]
      · rw [if_pos rfl, if_pos rfl]
        refine ⟨?_, ?_, ?_⟩
        · rw [(rucp_dollar_a _).1, (rucp_caret_a _).1, hVS.1]
        · rw [(rucp_dollar_a _).2.1, (rucp_caret_a _).2.1, hVS.2.1]
        · rw [(rucp_dollar_a _).2.2, (rucp_caret_a _).2.2, hVS.2.2]
    · rw [if_neg hM]
      exact hVS
  refine ⟨(if (re.multiline ≠ flags.contains 'm') then
      replaceUnescapedChar '$'
        (if re.multiline then ('(' :: '?' :: '=' :: '$' :: '|' :: '[' :: newlineChars) ++ [']', ')']
         else ['(', '?', '!', '[', '^', ']', ')']) 0
        (replaceUnescapedChar '^'
          (if re.multiline then ('(' :: '?' :: '<' :: '=' :: '^' :: '|' :: '[' :: newlineChars) ++ [']', ')']
           else ['(', '?', '<', '!', '[', '^', ']', ')']) 0
          (if (re.dotAll ≠ flags.contains 's') then
        replaceUnescapedChar '.'
          (if re.dotAll then ['[', '^', ']'] else ('[' :: '^' :: newlineChars) ++ [']']) 0
          re.source
       else re.source))
    else (if (re.dotAll ≠ flags.contains 's') then
        replaceUnescapedChar '.'
          (if re.dotAll then ['[', '^', ']'] else ('[' :: '^' :: newlineChars) ++ [']']) 0
          re.source
       else re.source)), ?_, hbody.1, hbody.2.1, hbody.2.2⟩
  simp only [transformForLocalFlags]
  rw [if_neg (by simp [hI]), if_neg (by simp)]


theorem tff_mismatch_error : ∀ (re : NativeRegex) (flags : List Char),
    ¬ re.ignoreCase = flags.contains 'i' →
    transformForLocalFlags false re flags = .error
      "Pattern modifiers not supported, so flag i on the outer and interpolated regex must match" := by
  intro re flags hne
  simp only [transformForLocalFlags]
  rw [if_pos ⟨by simp, hne⟩]

/-- C2: interpolating a native regex at a DEFAULT-context position succeeds
whenever pattern modifiers are supported or the local ignore-case flag
matches the outer flags (otherwise the flag-i mismatch is an error and no
fragment is produced); the fragment's numbered backreferences are exactly
the source's backreferences shifted up by the preceding capture count, and
the fragment is a backref-adjusted body wrapped in a non-capturing group
unless a nonempty inline flag-modifier group already supplies the grouping —
the body being the source itself, or, on the no-modifier-support path with
mismatched dotAll/multiline flags, the source with dots and anchors
rewritten, which keeps its backreference list and capture count; on
token-boundary-safe sources the fragment keeps the source's capturing
count, and the capture count of any token-boundary-safe concatenation is
the sum of its parts' counts. -/
theorem interpolate_regexp_default_backrefs :
    (∀ (pms : Bool) (re : NativeRegex) (flags : List Char) (w : Bool) (k : Nat),
      (pms = true ∨ re.ignoreCase = flags.contains 'i') →
      ∃ frag, interpolate pms (.regexp re) flags .DEFAULT .DEFAULT w k = .ok frag ∧
        backrefNums frag = (backrefNums re.source).map (· + k) ∧
        (scanDepth 0 re.source = some 0 → countCaptures frag = countCaptures re.source) ∧
        (frag = ('(' :: '?' :: ':' :: adjustNumberedBackrefs k re.source) ++ [')'] ∨
         (∃ mods, mods ≠ [] ∧
           frag = ('(' :: '?' :: mods) ++ (':' :: adjustNumberedBackrefs k re.source) ++ [')']) ∨
         (∃ body, transformForLocalFlags pms re flags = .ok (body, false) ∧
           backrefNums body = backrefNums re.source ∧
           countCaptures body = countCaptures re.source ∧
           frag = ('(' :: '?' :: ':' :: adjustNumberedBackrefs k body) ++ [')']))) ∧
    (∀ (re : NativeRegex) (flags : List Char) (w : Bool) (k : Nat),
      ¬ re.ignoreCase = flags.contains 'i' →
      ∃ e, interpolate false (.regexp re) flags .DEFAULT .DEFAULT w k = .error e) ∧
    (∀ s1 s2 : List Char, scanDepth 0 s1 = some 0 →
      countCaptures (s1 ++ s2) = countCaptures s1 + countCaptures s2) := by
  refine ⟨?_, ?_, ?_⟩
  · intro pms re flags w k hscope
    have hpmst : pms = true →
        ∃ frag, interpolate pms (.regexp re) flags .DEFAULT .DEFAULT w k = .ok frag ∧
          backrefNums frag = (backrefNums re.source).map (· + k) ∧
          (scanDepth 0 re.source = some 0 → countCaptures frag = countCaptures re.source) ∧
          (frag = ('(' :: '?' :: ':' :: adjustNumberedBackrefs k re.source) ++ [')'] ∨
           (∃ mods, mods ≠ [] ∧
             frag = ('(' :: '?' :: mods) ++ (':' :: adjustNumberedBackrefs k re.source) ++ [')']) ∨
           (∃ body, transformForLocalFlags pms re flags = .ok (body, false) ∧
             backrefNums body = backrefNums re.source ∧
             countCaptures body = countCaptures re.source ∧
             frag = ('(' :: '?' :: ':' :: adjustNumberedBackrefs k body) ++ [')'])) := by
      intro hp
      subst hp
      rcases tff_shape true re flags (Or.inl rfl) with htff | ⟨mods, hne, hmem, htff⟩
      · refine ⟨('(' :: '?' :: ':' :: adjustNumberedBackrefs k re.source) ++ [')'],
          ?_, ?_, ?_, Or.inl rfl⟩
        · rw [interpolate_regexp_eq, htff]
          rfl
        · exact frag_noncap_backrefs re.source k
        · intro hsrc
          exact frag_noncap_count re.source k hsrc
      · refine ⟨adjustNumberedBackrefs k (('(' :: '?' :: mods) ++ (':' :: re.source) ++ [')']),
          ?_, ?_, ?_, Or.inr (Or.inl ⟨mods, hne, ?_⟩)⟩
        · rw [interpolate_regexp_eq, htff]
          rfl
        · exact frag_mod_backrefs re.source k mods hmem
        · intro hsrc
          exact frag_mod_count re.source k mods hne hmem hsrc
        · rw [frag_mod_split re.source k mods hmem]
          simp
    rcases hscope with rfl | hI
    · exact hpmst rfl
    · cases pms with
      | true => exact hpmst rfl
      | false =>
        obtain ⟨body, htff, hbr, hcc, hsd⟩ := tff_nopms re flags hI
        refine ⟨('(' :: '?' :: ':' :: adjustNumberedBackrefs k body) ++ [')'],
          ?_, ?_, ?_, Or.inr (Or.inr ⟨body, htff, hbr, hcc, rfl⟩)⟩
        · rw [interpolate_regexp_eq, htff]
          rfl
        · rw [frag_noncap_backrefs body k, hbr]
        · intro hsrc
          rw [frag_noncap_count body k (by rw [hsd, hsrc]), hcc]
  · intro re flags w k hne
    refine ⟨"Pattern modifiers not supported, so flag i on the outer and interpolated regex must match", ?_⟩
    rw [interpolate_regexp_eq, tff_mismatch_error re flags hne]
  · intro s1 s2 h
    exact ccAux_append_safe 0 s1 0 h s2

end RegexTag
